import Mathlib

/-!
# intmul: recursive multiplication of two hexadecimal numbers

A shallow embedding of `src/2_intmul/intmul.c` and the properties of it that are settled here;
the parts of `src/1b_arcset/graph.c` and `src/3_http/client.c` that are treated as well follow
the definitions of intmul.

Conventions of the embedding.

* A C string is a `List Char` without the terminating NUL; `cstr` is the view `strlen` and
  `strcpy` have of a byte buffer (everything before the first NUL).
* `int` values are `Int`; the lengths and digit sums that occur stay far inside the `int`
  range, the conversions `long -> int` and `int -> char` are written out where the code has them.
* A process (the program run on some standard input) is a function from its standard input to
  an `Outcome`. `fork`/`execlp` of the program itself is a recursive call of that function on the
  bytes the parent writes into the child's pipe; the recursion is bounded by a fuel argument
  that counts the levels of the process tree, and `Outcome.diverged` is what a process is worth
  whose tree is deeper than the fuel.
* `pipe`, `fork`, `dup2`, `read` and `write` are taken to succeed, and a `read` to deliver all
  the bytes the child has written (the parent reads after `wait` has returned four times).
* The program is started without arguments, as its children are, so `usage` is never reached.
-/

namespace Intmul

/-! ## C strings -/

/-- The NUL character. -/
def NUL : Char := Char.ofNat 0

/-- The bytes of a buffer up to (not including) its first NUL: the C string stored in it. -/
def cstr (buf : List Char) : List Char :=
  buf.takeWhile (fun c => c != NUL)

/-! ## Hex digit arithmetic -/

/-- Source: `hex_char_to_int` (intmul.c 208-217). -/
def hex_char_to_int (character : Char) : Int :=
  if '0'.toNat ≤ character.toNat ∧ character.toNat ≤ '9'.toNat then
    (character.toNat : Int) - ('0'.toNat : Int)
  else if 'A'.toNat ≤ character.toNat ∧ character.toNat ≤ 'F'.toNat then
    (character.toNat : Int) - ('A'.toNat : Int) + 10
  else if 'a'.toNat ≤ character.toNat ∧ character.toNat ≤ 'f'.toNat then
    (character.toNat : Int) - ('a'.toNat : Int) + 10
  else
    -1

/-- The conversion of an `int` to `char`: the value modulo 256, as a byte. -/
def int_as_char (i : Int) : Char :=
  Char.ofNat (i % 256).toNat

/-- Source: `int_to_hex_char` (intmul.c 226-232). -/
def int_to_hex_char (i : Int) : Char :=
  if i < 10 then
    int_as_char (('0'.toNat : Int) + i)
  else
    int_as_char (('A'.toNat : Int) + i - 10)

/-! ## The accumulator -/

/-- Source: `remove_zeros` (intmul.c 193-199): `p` is advanced over every leading `'0'` and the
rest of the string is copied to the front. -/
def remove_zeros (str : List Char) : List Char :=
  str.dropWhile (fun c => c == '0')

/-- The `while (x_pos >= 0 || y_pos >= 0)` loop of `add_hex_numbers` (intmul.c 250-268).

`xr` holds the characters `x[x_pos], x[x_pos-1], ..., x[0]` that the cursor `x_pos` has still to
visit (`xr = []` is `x_pos < 0`), `yr` the same for `y`; the list returned is what the loop
appends to `out_hex` from `w_pos` on. The first argument bounds the number of iterations. -/
def add_loop : Nat → List Char → List Char → Int → Int → List Char
  | 0, _, _, _, _ => []
  | fuel + 1, xr, yr, offset, overflow =>
    if xr.isEmpty && yr.isEmpty then []
    else
      let x_hex : Int := match xr with
        | [] => 0
        | c :: _ => hex_char_to_int c
      let take_y : Bool := !yr.isEmpty && decide (offset ≤ 0)
      let y_hex : Int := match yr with
        | [] => 0
        | c :: _ => if take_y then hex_char_to_int c else 0
      let tmp_result := x_hex + y_hex + overflow
      int_to_hex_char (tmp_result.tmod 16) ::
        add_loop fuel xr.tail (if take_y then yr.tail else yr) (offset - 1) (tmp_result.tdiv 16)

/-- The number of bytes of the array `out_hex` of `add_hex_numbers` (intmul.c 245):
`x_pos + y_pos + 2` with `x_pos = strlen(x) - 1` and `y_pos = strlen(y) - 1`. -/
def out_hex_size (x y : List Char) : Nat :=
  x.length + y.length

/-- Source: `add_hex_numbers` (intmul.c 242-279). The value is the digits the loop computes, in
reverse: the string the call leaves at the start of `x`. The loop runs at most
`strlen(x) + strlen(y) + offset` times. The carry left in `overflow` when the loop ends
is not written anywhere.

The loop writes one character per iteration into `out_hex`, which has `out_hex_size x y` bytes,
and the characters are then copied to `x[0..]`, both without a check. The function is the
behaviour of the code on the calls whose digits stay inside `out_hex` and are no more than
`strlen(x)`: an empty `y`, or `strlen(y) + offset <= strlen(x)`. These are the calls of
`mult_values`, and the calls the theorems on `add_hex_numbers` are stated for. On other calls
with a non-empty `y` the loop writes `strlen(y) + offset` characters, beyond `out_hex` from
`offset >= strlen(x)` on and beyond the end of `x`; C gives such a call no meaning and the
function is not a model of it. -/
def add_hex_numbers (x y : List Char) (offset : Int) : List Char :=
  (add_loop (x.length + y.length + offset.toNat) x.reverse y.reverse offset 0).reverse

/-! ## The base case: `strtol`, `mult_hex`, `printf("%X")` -/

/-- The values of `errno` the program looks at. -/
inductive Errno
  | zero
  | EINVAL
  | ERANGE
deriving DecidableEq, Repr

/-- C `isspace` in the "C" locale. -/
def isspace (c : Char) : Bool :=
  c == ' ' || (9 ≤ c.toNat && c.toNat ≤ 13)

/-- The largest `long` (64 bit). -/
def LONG_MAX : Int := 2 ^ 63 - 1

/-- The smallest `long` (64 bit). -/
def LONG_MIN : Int := -(2 ^ 63)

/-- The library function `strtol(s, NULL, 16)`: optional white space, an optional sign, an
optional `0x` prefix, then the longest run of hex digits. `errno` is left as it was unless the
value is out of range (`ERANGE`, the value clamped) or, with `einval` set, no digit was found:
POSIX allows `EINVAL` there, and C libraries differ on it. -/
def strtol16 (einval : Bool) (s : List Char) (errno : Errno) : Int × Errno :=
  let s1 := s.dropWhile isspace
  let signed : Bool × List Char := match s1 with
    | '-' :: t => (true, t)
    | '+' :: t => (false, t)
    | _ => (false, s1)
  let s2 := signed.2
  let s3 := match s2 with
    | '0' :: x :: d :: t =>
      if (x == 'x' || x == 'X') && decide (0 ≤ hex_char_to_int d) then d :: t else s2
    | _ => s2
  let digits := s3.takeWhile (fun c => decide (0 ≤ hex_char_to_int c))
  if digits.isEmpty then (0, if einval then Errno.EINVAL else errno)
  else
    let n : Int := digits.foldl (fun acc c => 16 * acc + hex_char_to_int c) 0
    let v : Int := if signed.1 then -n else n
    if LONG_MAX < v then (LONG_MAX, Errno.ERANGE)
    else if v < LONG_MIN then (LONG_MIN, Errno.ERANGE)
    else (v, errno)

/-- The conversion of an integer to `int` (32 bit, two's complement). -/
def to_int (v : Int) : Int :=
  (v + 2 ^ 31) % 2 ^ 32 - 2 ^ 31

/-- Source: `parse_str_to_hex` (intmul.c 335-342). Returns the `int` stored and the `errno`
left behind, or the message of the failing exit. -/
def parse_str_to_hex (einval : Bool) (valStr : List Char) (errno : Errno) :
    Except String (Int × Errno) :=
  let r := strtol16 einval valStr errno
  let hexnum := to_int r.1
  if hexnum = 0 ∧ (r.2 = Errno.EINVAL ∨ r.2 = Errno.ERANGE) then
    .error "ERROR: HEX input error"
  else
    .ok (hexnum, r.2)

/-- Source: `mult_hex` (intmul.c 322-327). `errno` is 0 when the first string is parsed: no
library call of the process has failed before. -/
def mult_hex (einval : Bool) (a b : List Char) : Except String Int :=
  match parse_str_to_hex einval a Errno.zero with
  | .error msg => .error msg
  | .ok (hexA, errno) =>
    match parse_str_to_hex einval b errno with
    | .error msg => .error msg
    | .ok (hexB, _) => .ok (to_int (hexA * hexB))

/-- The text `printf("%X", result)` writes: the `int` read as `unsigned`, in upper-case
base 16 without leading zeros. -/
def printf_X (result : Int) : List Char :=
  (Nat.toDigits 16 (result % 2 ^ 32).toNat).map Char.toUpper

/-! ## Reading the operands -/

/-- The library function `getline` on what is left of standard input: `none` at end of input,
otherwise the next line with its newline (when it has one) and the rest of the input. -/
def getline (input : List Char) : Option (List Char × List Char) :=
  match input with
  | [] => none
  | _ =>
    match input.span (fun c => c != '\n') with
    | (l, []) => some (l, [])
    | (l, nl :: rest) => some (l ++ [nl], rest)

/-- The local variables of `handle_stdin` that live across iterations of its loop. -/
structure StdinState where
  prevlen : Int
  a : Option (List Char)
  b : Option (List Char)
  lineCount : Nat
deriving DecidableEq, Repr

/-- The `while ((linelen = getline(...)) > 0)` loop of `handle_stdin` (intmul.c 361-395).
The first argument bounds the number of iterations; the loop is left by `break` in its second
iteration at the latest. `stored` is `none` in the branch that leaves the loop because both
operands are set already. -/
def handle_stdin_loop : Nat → List Char → StdinState → Except String StdinState
  | 0, _, st => .ok st
  | n + 1, input, st =>
    match getline input with
    | none => .ok st
    | some (raw, rest) =>
      let lineCount := st.lineCount + 1
      let line := cstr (if raw.getLast? = some '\n' then raw.dropLast else raw)
      let lineLen : Int := line.length
      if st.prevlen ≠ -1 ∧ st.prevlen ≠ lineLen then
        .error "Inputs don't have same length"
      else if lineLen.tmod 2 ≠ 0 ∧ lineLen ≠ 1 then
        .error "numbler length must be even"
      else
        let st0 : StdinState := { st with prevlen := lineLen, lineCount := lineCount }
        let stored : Option StdinState :=
          match st.a, st.b with
          | none, _ => some { st0 with a := some line }
          | some _, none => some { st0 with b := some line }
          | some _, some _ => none
        match stored with
        | none => .ok st0
        | some st1 =>
          if lineCount = 2 then .ok st1
          else handle_stdin_loop n rest st1

/-- Source: `handle_stdin` (intmul.c 352-402): the two operands, or the message of
`exit_error`. -/
def handle_stdin (input : List Char) : Except String (List Char × List Char) :=
  match handle_stdin_loop 2 input ⟨-1, none, none, 0⟩ with
  | .error msg => .error msg
  | .ok st =>
    if st.lineCount ≠ 2 then .error "stdin needs two input lines"
    else .ok (st.a.getD [], st.b.getD [])

/-! ## The process tree -/

/-- What a run of the program amounts to. A failing run (`exit(EXIT_FAILURE)`) has written
nothing to standard output; a successful one has written `stdout`. -/
inductive Outcome
  | diverged
  | failure (msg : String)
  | success (stdout : List Char)
deriving DecidableEq, Repr

/-- What the code leaves to its platform: whether `strtol` reports `EINVAL` when it finds no
digit, and the C string found in a result buffer that was never written (the buffer of child
`i`, in the order hh, hl, lh, ll). -/
structure Env where
  strtol_einval : Bool
  junk : Nat → List Char

/-- The bytes a process has put on its standard output. -/
def Outcome.stdout_bytes : Outcome → List Char
  | .success out => out
  | _ => []

/-- Source: intmul.c 158-176, one of the four blocks
`size = read(fd, res, sizeof(res)); res[size-1] = 0`. With nothing to read `size` is 0, the
NUL goes in front of the buffer and the buffer keeps what it held before. -/
def read_result (junk : List Char) (sizeof_res : Nat) (child_stdout : List Char) : List Char :=
  let bytes := child_stdout.take sizeof_res
  if bytes.isEmpty then junk
  else cstr bytes.dropLast

/-- The program run on `input` with `mult` for `mult_values`: `main` (intmul.c 37-51). -/
def run_main (mult : List Char → List Char → Outcome) (input : List Char) : Outcome :=
  match handle_stdin input with
  | .error msg => .failure msg
  | .ok (a, b) => mult a b

/-- Source: `mult_values` after its four `wait(NULL)` (intmul.c 140-185): the parent goes on
once all four children have terminated, reads one result from each, adds the four into
`endresult`, removes the leading zeros and prints the line. It does not look at how a
child has terminated. -/
def combine_results (env : Env) (len : Nat) (c_hh c_hl c_lh c_ll : Outcome) : Outcome :=
  if c_hh = .diverged ∨ c_hl = .diverged ∨ c_lh = .diverged ∨ c_ll = .diverged then
    .diverged
  else
    let hlen := len / 2
    let res_hh := read_result (env.junk 0) (2 * len + 2) c_hh.stdout_bytes
    let res_hl := read_result (env.junk 1) (2 * len + 2) c_hl.stdout_bytes
    let res_lh := read_result (env.junk 2) (2 * len + 2) c_lh.stdout_bytes
    let res_ll := read_result (env.junk 3) (2 * len + 2) c_ll.stdout_bytes
    let endresult := List.replicate (4 * len + 1) '0'
    let endresult := add_hex_numbers endresult res_ll 0
    let endresult := add_hex_numbers endresult res_hl hlen
    let endresult := add_hex_numbers endresult res_lh hlen
    let endresult := add_hex_numbers endresult res_hh (2 * hlen)
    .success (remove_zeros endresult ++ ['\n'])

/-- The bytes the parent writes into the pipe of one child (intmul.c 85-93, 124-138): the two
half operands, each followed by a newline. -/
def child_input (x y : List Char) : List Char :=
  x ++ ['\n'] ++ (y ++ ['\n'])

/-- Source: `mult_values` (intmul.c 60-186). Called with `strlen(a) = strlen(b)` only.
Each child is the program itself, run on the two half operands the parent writes to its pipe. -/
def mult_values (env : Env) : Nat → List Char → List Char → Outcome
  | 0, _, _ => .diverged
  | fuel + 1, a, b =>
    let len := a.length
    if len = 1 then
      match mult_hex env.strtol_einval a b with
      | .error msg => .failure msg
      | .ok result => .success (printf_X result ++ ['\n'])
    else
      let hlen := len / 2
      let ah := a.take hlen
      let al := (a.drop hlen).take hlen
      let bh := b.take hlen
      let bl := (b.drop hlen).take hlen
      let child := fun (x y : List Char) =>
        run_main (fun a1 b1 => mult_values env fuel a1 b1) (child_input x y)
      combine_results env len (child ah bh) (child ah bl) (child al bh) (child al bl)

/-- The whole program: `main` with `mult_values`. -/
def intmul (env : Env) (fuel : Nat) (input : List Char) : Outcome :=
  run_main (mult_values env fuel) input

/-- A platform whose `strtol` leaves `errno` alone and whose fresh buffers hold the empty
string. -/
def env0 : Env := ⟨false, fun _ => []⟩


/-! ## Reference notions the properties are stated with -/

/-- The hex alphabet `0-9`, `A-F`, `a-f`. -/
def hexAlphabet : List Char :=
  ['0', '1', '2', '3', '4', '5', '6', '7', '8', '9',
   'A', 'B', 'C', 'D', 'E', 'F', 'a', 'b', 'c', 'd', 'e', 'f']

/-- A string of hex digits. -/
def IsHexString (s : List Char) : Prop :=
  ∀ c ∈ s, c ∈ hexAlphabet

instance (s : List Char) : Decidable (IsHexString s) := by
  unfold IsHexString; infer_instance

/-- The value of one hex digit. -/
def hex_digit_value (c : Char) : Nat :=
  (hex_char_to_int c).toNat

/-- The number a string denotes in base 16, most significant digit first; the empty string
denotes 0. -/
def hex_value (s : List Char) : Nat :=
  s.foldl (fun acc c => 16 * acc + hex_digit_value c) 0

/-- The upper-case hex digit of `n < 16`. -/
def upper_digit (n : Nat) : Char :=
  ['0', '1', '2', '3', '4', '5', '6', '7', '8', '9', 'A', 'B', 'C', 'D', 'E', 'F'].getD n '0'

/-- The `w` lowest base-16 digits of `n`, least significant first. -/
def digits_le : Nat → Nat → List Char
  | 0, _ => []
  | w + 1, n => upper_digit (n % 16) :: digits_le w (n / 16)

/-- The `w`-character upper-case base-16 representation of `n`, zero-padded on the left. -/
def hex_repr (w n : Nat) : List Char :=
  (digits_le w n).reverse

/-- The value of a digit string read least significant digit first. -/
def val_le : List Char → Nat
  | [] => 0
  | c :: t => hex_digit_value c + 16 * val_le t

/-- The number of iterations of the loop of `add_hex_numbers`, from the state of its cursors. -/
def loop_width (xr yr : List Char) (offset : Int) : Nat :=
  if yr.isEmpty then xr.length else max xr.length (yr.length + offset.toNat)

/-- The number of characters `add_hex_numbers` writes: one per iteration of its loop. -/
def add_width (x y : List Char) (offset : Nat) : Nat :=
  if y.isEmpty then x.length else max x.length (y.length + offset)

/-- A sequence of positional additions into the accumulator `x`, each an addend with its
offset, in the order of the list. -/
def add_all (x : List Char) (ys : List (List Char × Nat)) : List Char :=
  ys.foldl (fun acc p => add_hex_numbers acc p.1 (p.2 : Int)) x

/-- The sum of the shifted addends of a sequence of additions. -/
def shifted_sum (ys : List (List Char × Nat)) : Nat :=
  (ys.map (fun p => 16 ^ p.2 * hex_value p.1)).sum

/-- The check of `handle_stdin` on the length of one line (intmul.c 374): odd and not 1. -/
def bad_length (n : Nat) : Prop :=
  n % 2 ≠ 0 ∧ n ≠ 1

instance (n : Nat) : Decidable (bad_length n) := by
  unfold bad_length; infer_instance

/-- The text of the product `n` of two hex digits as the claims describe it: one upper-case
digit up to 15, two from 16 on. -/
def digit_product_text (n : Nat) : List Char :=
  if n < 16 then [upper_digit n] else [upper_digit (n / 16), upper_digit (n % 16)]

/-- The result line (without its newline) of a run on operands of length `2 ^ k` whose product
is `n`: what `printf("%X")` prints at a leaf, the accumulator with its leading zeros removed
elsewhere. -/
def product_text (k n : Nat) : List Char :=
  if k = 0 then printf_X (n : Int) else remove_zeros (hex_repr (4 * 2 ^ k + 1) n)

/-- The value of `overflow` when the loop of `add_hex_numbers` ends (intmul.c 250-268): the
same iterations as `add_loop`, returning the carry of the last one instead of the digits. -/
def add_loop_overflow : Nat → List Char → List Char → Int → Int → Int
  | 0, _, _, _, overflow => overflow
  | fuel + 1, xr, yr, offset, overflow =>
    if xr.isEmpty && yr.isEmpty then overflow
    else
      let x_hex : Int := match xr with
        | [] => 0
        | c :: _ => hex_char_to_int c
      let take_y : Bool := !yr.isEmpty && decide (offset ≤ 0)
      let y_hex : Int := match yr with
        | [] => 0
        | c :: _ => if take_y then hex_char_to_int c else 0
      let tmp_result := x_hex + y_hex + overflow
      add_loop_overflow fuel xr.tail (if take_y then yr.tail else yr) (offset - 1)
        (tmp_result.tdiv 16)

/-- The carry `overflow` that a call of `add_hex_numbers` holds after its loop and then
discards. Like `add_hex_numbers` it is the behaviour of the code on the calls that stay inside
`out_hex` and `x`: an empty `y`, or `strlen(y) + offset <= strlen(x)`. -/
def add_hex_numbers_overflow (x y : List Char) (offset : Int) : Int :=
  add_loop_overflow (x.length + y.length + offset.toNat) x.reverse y.reverse offset 0

/-- The high half of an operand as `mult_values` copies it (intmul.c 78-83):
`s[i]` for `i < hlen`. -/
def high_half (hlen : Nat) (s : List Char) : List Char :=
  s.take hlen

/-- The low half of an operand as `mult_values` copies it (intmul.c 78-83):
`s[i + hlen]` for `i < hlen`. -/
def low_half (hlen : Nat) (s : List Char) : List Char :=
  (s.drop hlen).take hlen

/-- The values of the hex digits, as a table. -/
def hexTable : List (Char × Nat) :=
  [('0', 0), ('1', 1), ('2', 2), ('3', 3), ('4', 4), ('5', 5), ('6', 6), ('7', 7), ('8', 8),
   ('9', 9), ('A', 10), ('B', 11), ('C', 12), ('D', 13), ('E', 14), ('F', 15),
   ('a', 10), ('b', 11), ('c', 12), ('d', 13), ('e', 14), ('f', 15)]

/-- The upper-case hex alphabet `0-9`, `A-F`. -/
def upperAlphabet : List Char :=
  ['0', '1', '2', '3', '4', '5', '6', '7', '8', '9', 'A', 'B', 'C', 'D', 'E', 'F']

/-- A count over the processes of one child: that of the program run on `input`, which is 0
when `handle_stdin` ends the child before it reaches `mult_values`. -/
def run_count (count : List Char → List Char → Nat) (input : List Char) : Nat :=
  match handle_stdin input with
  | .error _ => 0
  | .ok (a, b) => count a b

/-- The number of processes in the tree of `mult_values` that take the branch `len == 1` and
multiply two digits with `mult_hex` (intmul.c 62-70): 1 for such a process, the sum over the
four children otherwise. The recursion is that of `mult_values`. -/
def base_case_count : Nat → List Char → List Char → Nat
  | 0, _, _ => 0
  | fuel + 1, a, b =>
    let len := a.length
    if len = 1 then 1
    else
      let hlen := len / 2
      let child := fun (x y : List Char) =>
        run_count (fun a1 b1 => base_case_count fuel a1 b1) (child_input x y)
      child (high_half hlen a) (high_half hlen b) + child (high_half hlen a) (low_half hlen b) +
        child (low_half hlen a) (high_half hlen b) + child (low_half hlen a) (low_half hlen b)

/-- The depth of the recursion of `mult_values`: 0 for a process that takes the branch
`len == 1`, otherwise one more than the deepest of its four children. The recursion is that of
`mult_values`. -/
def recursion_depth : Nat → List Char → List Char → Nat
  | 0, _, _ => 0
  | fuel + 1, a, b =>
    let len := a.length
    if len = 1 then 0
    else
      let hlen := len / 2
      let child := fun (x y : List Char) =>
        run_count (fun a1 b1 => recursion_depth fuel a1 b1) (child_input x y)
      1 + max (max (child (high_half hlen a) (high_half hlen b))
            (child (high_half hlen a) (low_half hlen b)))
          (max (child (low_half hlen a) (high_half hlen b))
            (child (low_half hlen a) (low_half hlen b)))

/-! ## The parent between `wait` and `printf`, as a transition system

The children run concurrently with the parent. What the parent does after it has written the
operands is a fixed sequence of calls; a worker may terminate at any moment. The workers are
numbered 0 (hh), 1 (hl), 2 (lh), 3 (ll) in the order in which they are forked. -/

/-- One call of the parent in `mult_values` (intmul.c 140-181). -/
inductive Call
  | wait
  | read (child : Nat)
  | add (child : Nat)
deriving DecidableEq, Repr

/-- Source: intmul.c 140-181 in program order: four times `wait(NULL)`, the four `read`s of
`res_hh`, `res_hl`, `res_lh`, `res_ll`, the four calls of `add_hex_numbers` with `res_ll`,
`res_hl`, `res_lh`, `res_hh`. -/
def combining_calls : List Call :=
  [.wait, .wait, .wait, .wait, .read 0, .read 1, .read 2, .read 3,
   .add 3, .add 1, .add 2, .add 0]

/-- What can happen next: a worker terminates, or the parent makes its next call. -/
inductive Event
  | child_exits (child : Nat)
  | parent_call
deriving DecidableEq, Repr

/-- The state of a parent and its four workers: the number of calls of `combining_calls` the
parent has made, the workers that have terminated, the number of `wait` calls that have
returned, the workers whose result has been read and those whose result has been added. -/
structure ParentState where
  pc : Nat
  exited : List Nat
  reaped : Nat
  results_read : List Nat
  added : List Nat
deriving DecidableEq, Repr

/-- The parent has made none of the calls and no worker has terminated. -/
def ParentState.start : ParentState :=
  ⟨0, [], 0, [], []⟩

/-- One event; `none` when it cannot happen in this state. A worker terminates once. The
library function `wait` returns when a terminated child is there that no earlier `wait` has
returned for, and blocks until then; `read` and `add_hex_numbers` are not held up by anything
in this model. -/
def step (s : ParentState) : Event → Option ParentState
  | .child_exits c =>
    if c < 4 ∧ c ∉ s.exited then some { s with exited := c :: s.exited } else none
  | .parent_call =>
    match combining_calls[s.pc]? with
    | none => none
    | some .wait =>
      if s.reaped < s.exited.length then some { s with pc := s.pc + 1, reaped := s.reaped + 1 }
      else none
    | some (.read c) => some { s with pc := s.pc + 1, results_read := c :: s.results_read }
    | some (.add c) => some { s with pc := s.pc + 1, added := c :: s.added }

/-- A sequence of events from a state; `none` when one of them cannot happen. -/
def run_events : ParentState → List Event → Option ParentState
  | s, [] => some s
  | s, e :: es =>
    match step s e with
    | none => none
    | some s1 => run_events s1 es

/-- What holds in every state the parent and its workers can reach from the start: the workers
that have terminated are distinct workers, every `wait` that has returned has one of them to
account for, the first four calls are the `wait`s, a result counts as read once the parent is
past its `read`, and nothing is added before the ninth call. -/
def ParentInv (s : ParentState) : Prop :=
  s.exited.Nodup ∧ (∀ c ∈ s.exited, c < 4) ∧ s.reaped ≤ s.exited.length ∧ s.pc ≤ 12 ∧
    (s.pc ≤ 4 → s.reaped = s.pc) ∧ (4 ≤ s.pc → s.reaped = 4) ∧
    (∀ c, c < 4 → 4 + c < s.pc → c ∈ s.results_read) ∧
    (s.pc < 9 → s.added = [])

end Intmul

/-! # arcset: the graph of the generator

A shallow embedding of the functions of `src/1b_arcset/graph.c` and of `argument_handler` and
`gen_arcset` of `src/1b_arcset/generator.c`.
The block `vertices` points to is the list of its cells; `realloc` is taken to succeed (the
macro `ERROR_MSG` of the failing branch is not part of the sources) and to hand out fresh cells
holding 0, which are never read before they are written. Counters stay below the range of
`unsigned int`. -/

namespace Arcset

/-- Source: `graph_t` (graph.h 4-12). `vertices` and `edges` are the allocated blocks. -/
structure graph_t where
  v_top : Nat
  v_cap : Nat
  e_top : Nat
  e_cap : Nat
  vertices : List Int
  edges : List Int
deriving DecidableEq, Repr

/-- The graph `{0, 0, 0, 0, NULL, NULL}` the generator starts from (generator.c 23). -/
def empty_graph : graph_t :=
  ⟨0, 0, 0, 0, [], []⟩

/-- The library function `realloc` on a block of `int` cells: the old cells are kept, the block
has `cells` cells afterwards. -/
def realloc (block : List Int) (cells : Nat) : List Int :=
  block.take cells ++ List.replicate (cells - block.length) 0

/-- Source: `graph_contains_vertex` (graph.c 143-152): whether one of `vertices[0]`, ...,
`vertices[v_top - 1]` is `vertex`. -/
def graph_contains_vertex (g : graph_t) (vertex : Int) : Bool :=
  (List.range g.v_top).any (fun i => g.vertices.getD i 0 == vertex)

/-- Source: `insert_vertex` (graph.c 97-112). -/
def insert_vertex (g : graph_t) (vertex : Int) : graph_t :=
  if graph_contains_vertex g vertex then g
  else
    let g1 : graph_t :=
      if g.v_top = g.v_cap then
        { g with vertices := realloc g.vertices (g.v_cap + 10), v_cap := g.v_cap + 10 }
      else g
    { g1 with vertices := g1.vertices.set g1.v_top vertex, v_top := g1.v_top + 1 }

/-- The vertex set of a graph: the first `v_top` entries of `vertices`. -/
def vertex_list (g : graph_t) : List Int :=
  g.vertices.take g.v_top

/-- The graph after a sequence of `insert_vertex` calls on the empty graph. -/
def insert_all (vs : List Int) : graph_t :=
  vs.foldl insert_vertex empty_graph

/-- The distinct values of a list in the order of their first occurrence. -/
def first_occurrences (vs : List Int) : List Int :=
  vs.reverse.dedup.reverse

/-- Source: `index_of_vertex` (graph.c 13-22): the first `i < v_top` with
`vertices[i] == vertex`, -1 when there is none. -/
def index_of_vertex (g : graph_t) (vertex : Int) : Int :=
  match (List.range g.v_top).find? (fun i => g.vertices.getD i 0 == vertex) with
  | some i => (i : Int)
  | none => -1

/-- Source: `swap_vertices` (graph.c 47-55). `none` when the check of the bounds fails and
`ERROR_MSG`, a macro that is not part of the sources, is reached; it is taken to end the
program. -/
def swap_vertices (g : graph_t) (i j : Int) : Option graph_t :=
  if i < 0 ∨ j < 0 ∨ (g.v_top : Int) ≤ i ∨ (g.v_top : Int) ≤ j then none
  else
    let tmp := g.vertices.getD i.toNat 0
    let vertices1 := g.vertices.set i.toNat (g.vertices.getD j.toNat 0)
    some { g with vertices := vertices1.set j.toNat tmp }

/-- Source: `random_int` (graph.c 161-164), with `r` for the value `rand()` returns. -/
def random_int (r : Int) (min max : Int) : Int :=
  r.tmod (max - min + 1) + min

/-- The loop of `shuffle_vertices` (graph.c 33-37) from the value `i` of its counter on; `n`
is the number of calls of `rand()` made so far and `rand n` the value the next one returns. -/
def shuffle_loop (rand : Nat → Nat) : Nat → Nat → graph_t → Option graph_t
  | 0, _, g => some g
  | i + 1, n, g =>
    let r := random_int (rand n : Int) 0 ((i + 1 : Nat) : Int)
    match swap_vertices g ((i + 1 : Nat) : Int) r with
    | none => none
    | some g1 => shuffle_loop rand i (n + 1) g1

/-- Source: `shuffle_vertices` (graph.c 29-38). -/
def shuffle_vertices (rand : Nat → Nat) (g : graph_t) : Option graph_t :=
  shuffle_loop rand (g.v_top - 1) 0 g

/-- Source: `insert_edge` (graph.c 123-131): the block of edges grows by 10 cells when it is
full. -/
def grow_edges (g : graph_t) : graph_t :=
  if g.e_top = g.e_cap then
    { g with edges := realloc g.edges (g.e_cap + 10), e_cap := g.e_cap + 10 }
  else g

/-- Source: `insert_edge` (graph.c 121-134): after the check of the capacity `from` and `to`
are written to `edges[e_top++]` one after the other. -/
def insert_edge (g : graph_t) (v_from v_to : Int) : graph_t :=
  let g1 := grow_edges g
  let g2 : graph_t := { g1 with edges := g1.edges.set g1.e_top v_from, e_top := g1.e_top + 1 }
  { g2 with edges := g2.edges.set g2.e_top v_to, e_top := g2.e_top + 1 }

/-- Source: the body of the loop of `argument_handler` (generator.c 50-52) for an argument
that `get_vertices_from_str` has parsed into `from` and `to`. -/
def add_argument (g : graph_t) (p : Int × Int) : graph_t :=
  insert_edge (insert_vertex (insert_vertex g p.1) p.2) p.1 p.2

/-- Source: `argument_handler` (generator.c 39-54) on the parsed arguments, starting from the
empty graph of `main`. -/
def argument_handler (args : List (Int × Int)) : graph_t :=
  args.foldl add_argument empty_graph

/-- The loop of `gen_arcset` (generator.c 66-77) from the value `i` of its counter on; the
first argument bounds the number of iterations. -/
def gen_loop (input : graph_t) : Nat → Nat → graph_t → graph_t
  | 0, _, output => output
  | fuel + 1, i, output =>
    if i < input.e_top then
      let v_from := input.edges.getD i 0
      let v_to := input.edges.getD (i + 1) 0
      let output1 :=
        if index_of_vertex input v_from > index_of_vertex input v_to then
          insert_edge (insert_vertex (insert_vertex output v_from) v_to) v_from v_to
        else output
      gen_loop input fuel (i + 2) output1
    else output

/-- Source: `gen_arcset` (generator.c 62-78): the input graph with its vertices shuffled, and
the output graph. -/
def gen_arcset (rand : Nat → Nat) (input output : graph_t) : Option (graph_t × graph_t) :=
  match shuffle_vertices rand input with
  | none => none
  | some input1 => some (input1, gen_loop input1 input1.e_top 0 output)

/-- The cells of `edges` in use: the first `e_top` entries. -/
def edge_entries (g : graph_t) : List Int :=
  g.edges.take g.e_top

/-- A list of edges written out as `from1, to1, from2, to2, ...`. -/
def flatten_pairs : List (Int × Int) → List Int
  | [] => []
  | p :: t => p.1 :: p.2 :: flatten_pairs t

/-- The edges stored in a list `from1, to1, from2, to2, ...`. -/
def pairs_of : List Int → List (Int × Int)
  | a :: b :: t => (a, b) :: pairs_of t
  | _ => []

/-- The edges of a graph, in the order in which they are stored. -/
def edge_pairs (g : graph_t) : List (Int × Int) :=
  pairs_of (edge_entries g)

/-- The graph after a sequence of `insert_edge` calls on the empty graph. -/
def insert_edges (es : List (Int × Int)) : graph_t :=
  es.foldl (fun g p => insert_edge g p.1 p.2) empty_graph

/-- Whether `gen_arcset` puts the edge `p` into the arc set, given the shuffled input graph:
the test of generator.c 71. -/
def in_arcset (shuffled : graph_t) (p : Int × Int) : Bool :=
  decide (index_of_vertex shuffled p.1 > index_of_vertex shuffled p.2)

/-- What the functions of graph.c keep true of a graph: an even number of edge cells in use,
a capacity for edges that is a multiple of 10, and in both blocks no more cells in use than
the block has. -/
def WellFormed (g : graph_t) : Prop :=
  g.e_top % 2 = 0 ∧ g.e_cap % 10 = 0 ∧ g.e_top ≤ g.e_cap ∧ g.edges.length = g.e_cap ∧
    g.v_top ≤ g.v_cap ∧ g.vertices.length = g.v_cap

end Arcset

/-! # http client: the check of the URL

A shallow embedding of `url_is_valid` of `src/3_http/client.c`. A pointer into the URL is its
offset from the start of the string. -/

namespace Http

/-- The library function `strstr`: the offset of the first occurrence of `needle` in
`haystack`, `none` for `NULL`. -/
def strstr : List Char → List Char → Option Nat
  | [], needle => if needle.isEmpty then some 0 else none
  | c :: t, needle =>
    if needle.isPrefixOf (c :: t) then some 0
    else (strstr t needle).map (fun i => i + 1)

/-- The library function `strchr` for a character other than NUL: the offset of its first
occurrence in `s`, `none` for `NULL`. -/
def strchr : List Char → Char → Option Nat
  | [], _ => none
  | d :: t, c => if d = c then some 0 else (strchr t c).map (fun i => i + 1)

/-- Source: `url_is_valid` (client.c 134-149). `p != url || p == NULL` holds unless `strstr`
finds the prefix at offset 0. In `p++ != 0` the pointer compared is `url` itself, which is
not null, and `p` is `url + 1` afterwards, where `strchr` starts its search. -/
def url_is_valid (url : List Char) : Bool :=
  let p := strstr url "http://www.".toList
  if p ≠ some 0 then false
  else if 13 ≤ url.length then
    let p1 : Nat := 0 + 1
    match strchr (url.drop p1) '/' with
    | none => false
    | some _ => true
  else false

end Http

namespace Intmul

/-! ## Digits -/

theorem hex_char_to_int_of_mem {c : Char} (h : c ∈ hexAlphabet) :
    0 ≤ hex_char_to_int c ∧ hex_char_to_int c < 16 := by
  simp only [hexAlphabet, List.mem_cons, List.mem_singleton, List.not_mem_nil, or_false] at h
  rcases h with h | h | h | h | h | h | h | h | h | h | h | h | h | h | h | h | h | h | h | h | h | h <;>
    subst h <;> decide

theorem hex_char_to_int_eq {c : Char} (h : c ∈ hexAlphabet) :
    hex_char_to_int c = (hex_digit_value c : Int) := by
  unfold hex_digit_value
  rw [Int.toNat_of_nonneg (hex_char_to_int_of_mem h).1]

theorem hex_digit_value_lt {c : Char} (h : c ∈ hexAlphabet) : hex_digit_value c < 16 := by
  have := hex_char_to_int_of_mem h
  unfold hex_digit_value
  omega

theorem int_to_hex_char_eq {n : Nat} (h : n < 16) :
    int_to_hex_char (n : Int) = upper_digit n := by
  interval_cases n <;> decide

theorem upper_digit_mem {n : Nat} (h : n < 16) : upper_digit n ∈ hexAlphabet := by
  interval_cases n <;> decide

theorem hex_digit_value_upper_digit {n : Nat} (h : n < 16) :
    hex_digit_value (upper_digit n) = n := by
  interval_cases n <;> decide

theorem upper_digit_ne_NUL {n : Nat} (h : n < 16) : upper_digit n ≠ NUL := by
  interval_cases n <;> decide

theorem mem_hexAlphabet_ne {c : Char} (h : c ∈ hexAlphabet) : c ≠ NUL ∧ c ≠ '\n' := by
  simp only [hexAlphabet, List.mem_cons, List.mem_singleton, List.not_mem_nil, or_false] at h
  rcases h with h | h | h | h | h | h | h | h | h | h | h | h | h | h | h | h | h | h | h | h | h | h <;>
    subst h <;> decide

/-! ## Values of digit strings -/

theorem hex_value_append_singleton (s : List Char) (c : Char) :
    hex_value (s ++ [c]) = 16 * hex_value s + hex_digit_value c := by
  simp [hex_value, List.foldl_append]

theorem hex_value_eq_val_le (s : List Char) : hex_value s = val_le s.reverse := by
  induction s using List.reverseRecOn with
  | nil => rfl
  | append_singleton s c ih =>
    rw [hex_value_append_singleton, List.reverse_append, ih]
    simp [val_le]
    omega

theorem val_le_reverse (s : List Char) : val_le s.reverse = hex_value s :=
  (hex_value_eq_val_le s).symm

theorem hex_value_append (s t : List Char) :
    hex_value (s ++ t) = hex_value s * 16 ^ t.length + hex_value t := by
  induction t using List.reverseRecOn with
  | nil => simp [hex_value]
  | append_singleton t c ih =>
    rw [← List.append_assoc, hex_value_append_singleton, ih, hex_value_append_singleton]
    simp [pow_succ]
    ring

theorem hex_value_replicate_zero (n : Nat) : hex_value (List.replicate n '0') = 0 := by
  induction n with
  | zero => rfl
  | succ n ih =>
    rw [List.replicate_succ', hex_value_append_singleton, ih]
    decide

theorem val_le_lt (s : List Char) (h : IsHexString s) : val_le s < 16 ^ s.length := by
  induction s with
  | nil => simp [val_le]
  | cons c t ih =>
    have hc := hex_digit_value_lt (h c (List.mem_cons_self _ _))
    have ht := ih (fun d hd => h d (List.mem_cons_of_mem _ hd))
    simp only [val_le, List.length_cons, pow_succ]
    omega

theorem hex_value_lt (s : List Char) (h : IsHexString s) : hex_value s < 16 ^ s.length := by
  rw [hex_value_eq_val_le]
  have := val_le_lt s.reverse (fun c hc => h c (List.mem_reverse.mp hc))
  simpa using this

/-! ## Fixed-width representations -/

theorem digits_le_length (w n : Nat) : (digits_le w n).length = w := by
  induction w generalizing n with
  | zero => rfl
  | succ w ih => simp [digits_le, ih]

theorem digits_le_mem (w n : Nat) : IsHexString (digits_le w n) := by
  induction w generalizing n with
  | zero => intro c hc; simp [digits_le] at hc
  | succ w ih =>
    intro c hc
    simp only [digits_le, List.mem_cons] at hc
    rcases hc with rfl | hc
    · exact upper_digit_mem (Nat.mod_lt _ (by decide))
    · exact ih _ c hc

theorem val_le_digits_le (w n : Nat) : val_le (digits_le w n) = n % 16 ^ w := by
  induction w generalizing n with
  | zero => simp [digits_le, val_le, Nat.mod_one]
  | succ w ih =>
    simp only [digits_le, val_le, ih]
    rw [hex_digit_value_upper_digit (Nat.mod_lt _ (by decide)), pow_succ,
      Nat.mul_comm (16 ^ w) 16, Nat.mod_mul]

theorem digits_le_step (w t r : Nat) :
    digits_le (w + 1) (t + 16 * r) = upper_digit (t % 16) :: digits_le w (t / 16 + r) := by
  simp only [digits_le]
  congr 2 <;> omega

theorem digits_le_unstep (w t r n m : Nat) (hn : n = t + 16 * r) (hm : m = r + t / 16) :
    upper_digit (t % 16) :: digits_le w m = digits_le (w + 1) n := by
  rw [hn, hm, digits_le_step, Nat.add_comm r]

theorem digits_le_mod (w n : Nat) : digits_le w (n % 16 ^ w) = digits_le w n := by
  induction w generalizing n with
  | zero => rfl
  | succ w ih =>
    simp only [digits_le]
    have h1 : n % 16 ^ (w + 1) % 16 = n % 16 := by
      rw [pow_succ, Nat.mul_comm, Nat.mod_mul_right_mod]
    have h2 : n % 16 ^ (w + 1) / 16 = (n / 16) % 16 ^ w := by
      rw [pow_succ, Nat.mul_comm, Nat.mod_mul_right_div_self]
    rw [h1, h2, ih]

theorem hex_repr_length (w n : Nat) : (hex_repr w n).length = w := by
  simp [hex_repr, digits_le_length]

theorem hex_repr_mem (w n : Nat) : IsHexString (hex_repr w n) := by
  intro c hc
  exact digits_le_mem w n c (List.mem_reverse.mp hc)

theorem hex_value_hex_repr (w n : Nat) : hex_value (hex_repr w n) = n % 16 ^ w := by
  rw [hex_value_eq_val_le, hex_repr, List.reverse_reverse, val_le_digits_le]

theorem hex_repr_mod (w n : Nat) : hex_repr w (n % 16 ^ w) = hex_repr w n := by
  simp [hex_repr, digits_le_mod]

theorem digits_le_val_le (s : List Char) (h : ∀ c ∈ s, ∃ n, n < 16 ∧ c = upper_digit n) :
    digits_le s.length (val_le s) = s := by
  induction s with
  | nil => rfl
  | cons c t ih =>
    obtain ⟨n, hn, rfl⟩ := h _ (List.mem_cons_self _ _)
    have ht := ih (fun d hd => h d (List.mem_cons_of_mem _ hd))
    simp only [List.length_cons, val_le, hex_digit_value_upper_digit hn]
    rw [digits_le_step, Nat.mod_eq_of_lt hn, Nat.div_eq_of_lt hn, Nat.zero_add, ht]

/-! ## The addition loop -/

theorem add_loop_cons_cast (fuel : Nat) (xr yr : List Char) (off : Int) (t : Nat) :
    int_to_hex_char ((t : Int).tmod 16) :: add_loop fuel xr yr off ((t : Int).tdiv 16) =
      upper_digit (t % 16) :: add_loop fuel xr yr off ((t / 16 : Nat) : Int) := by
  have h1 : (t : Int).tmod 16 = ((t % 16 : Nat) : Int) := (Int.ofNat_tmod t 16).symm
  have h2 : (t : Int).tdiv 16 = ((t / 16 : Nat) : Int) := (Int.ofNat_tdiv t 16).symm
  rw [h1, h2, int_to_hex_char_eq (Nat.mod_lt _ (by decide))]

theorem add_loop_spec (fuel : Nat) : ∀ (xr yr : List Char) (off : Int) (c : Nat),
    IsHexString xr → IsHexString yr → loop_width xr yr off ≤ fuel →
    add_loop fuel xr yr off c =
      digits_le (loop_width xr yr off) (val_le xr + 16 ^ off.toNat * val_le yr + c) := by
  induction fuel with
  | zero =>
    intro xr yr off c _ _ hw
    have h0 : loop_width xr yr off = 0 := by omega
    rw [h0]; rfl
  | succ fuel ih =>
    intro xr yr off c hx hy hw
    rcases xr with _ | ⟨x, xs⟩ <;> rcases yr with _ | ⟨y, ys⟩
    · simp [add_loop, loop_width, digits_le]
    · have hy1 := hex_char_to_int_eq (hy y (List.mem_cons_self _ _))
      have hys : IsHexString ys := fun d hd => hy d (List.mem_cons_of_mem _ hd)
      by_cases ho : off ≤ 0
      · have e : (0 : Int) + hex_char_to_int y + (c : Int) = ((hex_digit_value y + c : Nat) : Int) := by
          rw [hy1]; push_cast; ring
        have hw1 : loop_width [] (y :: ys) off = loop_width [] ys (off - 1) + 1 := by
          rcases ys with _ | ⟨z, zs⟩ <;> simp [loop_width] <;> omega
        have ht : off.toNat = 0 ∧ (off - 1).toNat = 0 := by omega
        simp only [add_loop, List.isEmpty_nil, List.isEmpty_cons, Bool.and_false, Bool.false_eq_true,
          if_false, Bool.not_false, ho, decide_True, Bool.and_self, if_true, List.tail_nil,
          List.tail_cons, e]
        rw [add_loop_cons_cast, ih [] ys (off - 1) _ hx hys (by omega), hw1, ht.1, ht.2]
        simp only [val_le, pow_zero, Nat.one_mul, Nat.zero_add]
        exact digits_le_unstep _ (hex_digit_value y + c) (val_le ys) _ _ (by ring) rfl
      · have e : (0 : Int) + 0 + (c : Int) = ((c : Nat) : Int) := by ring
        have hw1 : loop_width [] (y :: ys) off = loop_width [] (y :: ys) (off - 1) + 1 := by
          simp [loop_width]; omega
        have ht : off.toNat = (off - 1).toNat + 1 := by omega
        simp only [add_loop, List.isEmpty_nil, List.isEmpty_cons, Bool.and_false, Bool.false_eq_true,
          if_false, Bool.not_false, ho, decide_False, Bool.and_false, List.tail_nil, e]
        rw [add_loop_cons_cast, ih [] (y :: ys) (off - 1) _ hx hy (by omega), hw1, ht, pow_succ]
        simp only [val_le, Nat.zero_add]
        exact digits_le_unstep _ c (16 ^ (off - 1).toNat * (hex_digit_value y + 16 * val_le ys))
          _ _ (by ring) rfl
    · have hx1 := hex_char_to_int_eq (hx x (List.mem_cons_self _ _))
      have hxs : IsHexString xs := fun d hd => hx d (List.mem_cons_of_mem _ hd)
      have e : hex_char_to_int x + 0 + (c : Int) = ((hex_digit_value x + c : Nat) : Int) := by
        rw [hx1]; push_cast; ring
      have hw1 : loop_width (x :: xs) [] off = loop_width xs [] (off - 1) + 1 := by
        simp [loop_width]
      simp only [add_loop, List.isEmpty_nil, List.isEmpty_cons, Bool.false_and, Bool.false_eq_true,
        if_false, Bool.not_true, List.tail_cons, e]
      rw [add_loop_cons_cast, ih xs [] (off - 1) _ hxs hy (by omega), hw1]
      simp only [val_le, Nat.mul_zero, Nat.add_zero]
      exact digits_le_unstep _ (hex_digit_value x + c) (val_le xs) _ _ (by ring) rfl
    · have hx1 := hex_char_to_int_eq (hx x (List.mem_cons_self _ _))
      have hxs : IsHexString xs := fun d hd => hx d (List.mem_cons_of_mem _ hd)
      have hy1 := hex_char_to_int_eq (hy y (List.mem_cons_self _ _))
      have hys : IsHexString ys := fun d hd => hy d (List.mem_cons_of_mem _ hd)
      by_cases ho : off ≤ 0
      · have e : hex_char_to_int x + hex_char_to_int y + (c : Int) =
            ((hex_digit_value x + hex_digit_value y + c : Nat) : Int) := by
          rw [hx1, hy1]; push_cast; ring
        have hw1 : loop_width (x :: xs) (y :: ys) off = loop_width xs ys (off - 1) + 1 := by
          rcases ys with _ | ⟨z, zs⟩ <;> simp [loop_width] <;> omega
        have ht : off.toNat = 0 ∧ (off - 1).toNat = 0 := by omega
        simp only [add_loop, List.isEmpty_cons, Bool.and_false, Bool.false_and, Bool.false_eq_true,
          if_false, Bool.not_false, ho, decide_True, Bool.and_self, if_true,
          List.tail_cons, e]
        rw [add_loop_cons_cast, ih xs ys (off - 1) _ hxs hys (by omega), hw1, ht.1, ht.2]
        simp only [val_le, pow_zero, Nat.one_mul]
        exact digits_le_unstep _ (hex_digit_value x + hex_digit_value y + c)
          (val_le xs + val_le ys) _ _ (by ring) rfl
      · have e : hex_char_to_int x + 0 + (c : Int) = ((hex_digit_value x + c : Nat) : Int) := by
          rw [hx1]; push_cast; ring
        have hw1 : loop_width (x :: xs) (y :: ys) off = loop_width xs (y :: ys) (off - 1) + 1 := by
          simp [loop_width]; omega
        have ht : off.toNat = (off - 1).toNat + 1 := by omega
        simp only [add_loop, List.isEmpty_cons, Bool.and_false, Bool.false_and, Bool.false_eq_true,
          if_false, Bool.not_false, ho, decide_False, List.tail_cons, e]
        rw [add_loop_cons_cast, ih xs (y :: ys) (off - 1) _ hxs hy (by omega), hw1, ht, pow_succ]
        simp only [val_le]
        exact digits_le_unstep _ (hex_digit_value x + c)
          (val_le xs + 16 ^ (off - 1).toNat * (hex_digit_value y + 16 * val_le ys))
          _ _ (by ring) rfl

/-! ## `add_hex_numbers` -/

theorem add_hex_numbers_eq (x y : List Char) (offset : Nat)
    (hx : IsHexString x) (hy : IsHexString y) :
    add_hex_numbers x y (offset : Int) =
      hex_repr (add_width x y offset) (hex_value x + 16 ^ offset * hex_value y) := by
  have hw : loop_width x.reverse y.reverse (offset : Int) = add_width x y offset := by
    simp [loop_width, add_width]
  have h := add_loop_spec (x.length + y.length + (offset : Int).toNat) x.reverse y.reverse
    (offset : Int) 0 (fun c hc => hx c (List.mem_reverse.mp hc))
    (fun c hc => hy c (List.mem_reverse.mp hc))
    (by rw [hw]; simp only [add_width, Int.toNat_ofNat]; split <;> omega)
  simp only [Nat.cast_zero, hw, val_le_reverse, Int.toNat_ofNat, Nat.add_zero] at h
  simp only [add_hex_numbers, Int.toNat_ofNat, h, hex_repr]

theorem hex_repr_congr (w a b : Nat) (h : a % 16 ^ w = b % 16 ^ w) :
    hex_repr w a = hex_repr w b := by
  rw [← hex_repr_mod w a, ← hex_repr_mod w b, h]

theorem add_width_of_fits (x y : List Char) (offset : Nat) (h : y.length + offset ≤ x.length) :
    add_width x y offset = x.length := by
  unfold add_width
  split
  · rfl
  · omega

theorem add_width_of_fits_or_empty (x y : List Char) (offset : Nat)
    (h : y = [] ∨ y.length + offset ≤ x.length) : add_width x y offset = x.length := by
  rcases h with h | h
  · subst h
    rfl
  · exact add_width_of_fits x y offset h

theorem add_hex_numbers_hex_repr (w n : Nat) (y : List Char) (offset : Nat)
    (hy : IsHexString y) (h : y.length + offset ≤ w) :
    add_hex_numbers (hex_repr w n) y (offset : Int) =
      hex_repr w (n + 16 ^ offset * hex_value y) := by
  rw [add_hex_numbers_eq _ _ _ (hex_repr_mem w n) hy,
    add_width_of_fits _ _ _ (by rw [hex_repr_length]; exact h), hex_repr_length,
    hex_value_hex_repr]
  apply hex_repr_congr
  simp [Nat.add_mod]

theorem add_all_hex_repr (w n : Nat) (ys : List (List Char × Nat))
    (h : ∀ p ∈ ys, IsHexString p.1 ∧ p.1.length + p.2 ≤ w) :
    add_all (hex_repr w n) ys = hex_repr w (n + shifted_sum ys) := by
  induction ys generalizing n with
  | nil => simp [add_all, shifted_sum]
  | cons p ys ih =>
    have hp := h p (List.mem_cons_self _ _)
    have e : add_all (hex_repr w n) (p :: ys) =
        add_all (add_hex_numbers (hex_repr w n) p.1 (p.2 : Int)) ys := rfl
    rw [e, add_hex_numbers_hex_repr w n p.1 p.2 hp.1 hp.2,
      ih _ (fun q hq => h q (List.mem_cons_of_mem _ hq))]
    simp [shifted_sum, Nat.add_assoc]

theorem add_all_eq (x : List Char) (p : List Char × Nat) (ys : List (List Char × Nat))
    (hx : IsHexString x) (h : ∀ q ∈ p :: ys, IsHexString q.1 ∧ q.1.length + q.2 ≤ x.length) :
    add_all x (p :: ys) = hex_repr x.length (hex_value x + shifted_sum (p :: ys)) := by
  have hp := h p (List.mem_cons_self _ _)
  have e : add_all x (p :: ys) = add_all (add_hex_numbers x p.1 (p.2 : Int)) ys := rfl
  rw [e, add_hex_numbers_eq x p.1 p.2 hx hp.1, add_width_of_fits _ _ _ hp.2,
    add_all_hex_repr _ _ _ (fun q hq => h q (List.mem_cons_of_mem _ hq))]
  simp [shifted_sum, Nat.add_assoc]

theorem shifted_sum_perm {ys zs : List (List Char × Nat)} (h : ys.Perm zs) :
    shifted_sum ys = shifted_sum zs :=
  (h.map _).sum_eq

/-! ## Input handling -/

theorem cstr_eq_self {s : List Char} (h : NUL ∉ s) : cstr s = s := by
  unfold cstr
  rw [List.takeWhile_eq_self_iff]
  intro c hc
  simp only [bne_iff_ne, ne_eq]
  rintro rfl
  exact h hc

theorem getline_newline (l rest : List Char) (h : '\n' ∉ l) :
    getline (l ++ '\n' :: rest) = some (l ++ ['\n'], rest) := by
  have hp : ∀ a ∈ l, (fun c : Char => c != '\n') a = true := by
    intro a ha
    simp only [bne_iff_ne, ne_eq]
    rintro rfl
    exact h ha
  have hs : (l ++ '\n' :: rest).span (fun c => c != '\n') = (l, '\n' :: rest) := by
    rw [List.span_eq_take_drop, List.takeWhile_append_of_pos hp, List.dropWhile_append_of_pos hp]
    simp
  unfold getline
  rw [hs]
  cases l <;> rfl

theorem getline_last (l : List Char) (h : '\n' ∉ l) (hne : l ≠ []) :
    getline l = some (l, []) := by
  have hp : ∀ a ∈ l, (fun c : Char => c != '\n') a = true := by
    intro a ha
    simp only [bne_iff_ne, ne_eq]
    rintro rfl
    exact h ha
  have hs : l.span (fun c => c != '\n') = (l, []) := by
    rw [List.span_eq_take_drop, List.takeWhile_eq_self_iff.mpr hp]
    congr 1
    simp only [List.dropWhile_eq_nil_iff]
    exact hp
  unfold getline
  rw [hs]
  cases l with
  | nil => exact absurd rfl hne
  | cons c t => rfl

theorem tmod_two_cast (n : Nat) : ((n : Int).tmod 2 ≠ 0 ∧ (n : Int) ≠ 1) ↔ bad_length n := by
  have h : (n : Int).tmod 2 = ((n % 2 : Nat) : Int) := (Int.ofNat_tmod n 2).symm
  rw [h]
  unfold bad_length
  omega

/-- What `handle_stdin` makes of two lines that both end in a newline. -/
theorem handle_stdin_two_lines (l1 l2 rest : List Char) (h1 : '\n' ∉ l1) (h2 : '\n' ∉ l2) :
    handle_stdin (l1 ++ '\n' :: (l2 ++ '\n' :: rest)) =
      if bad_length (cstr l1).length then .error "numbler length must be even"
      else if (cstr l1).length ≠ (cstr l2).length then .error "Inputs don't have same length"
      else if bad_length (cstr l2).length then .error "numbler length must be even"
      else .ok (cstr l1, cstr l2) := by
  simp only [handle_stdin, handle_stdin_loop, getline_newline _ _ h1, getline_newline _ _ h2,
    List.getLast?_concat, List.dropLast_concat, if_true, tmod_two_cast]
  by_cases hb1 : bad_length (cstr l1).length
  · simp [hb1]
  · by_cases hl : (cstr l1).length = (cstr l2).length
    · by_cases hb2 : bad_length (cstr l2).length
      · simp [hb1, hl, hb2]
      · simp [hb1, hl, hb2]
    · have hl2 : ¬ (((cstr l1).length : Int) = ((cstr l2).length : Int)) := by
        intro h; exact hl (by exact_mod_cast h)
      simp [hb1, hl, hl2]

/-! ## The base case -/

theorem parse_str_to_hex_digit (einval : Bool) (c : Char) (h : c ∈ hexAlphabet) :
    parse_str_to_hex einval [c] Errno.zero = .ok ((hex_digit_value c : Int), Errno.zero) := by
  simp only [hexAlphabet, List.mem_cons, List.mem_singleton, List.not_mem_nil, or_false] at h
  rcases h with h | h | h | h | h | h | h | h | h | h | h | h | h | h | h | h | h | h | h | h | h | h <;>
    subst h <;> cases einval <;> rfl

theorem to_int_small (n : Nat) (h : n < 2 ^ 31) : to_int (n : Int) = (n : Int) := by
  unfold to_int
  norm_num at h ⊢
  omega

theorem digit_product_le {c d : Char} (hc : c ∈ hexAlphabet) (hd : d ∈ hexAlphabet) :
    hex_digit_value c * hex_digit_value d ≤ 225 := by
  have h1 := hex_digit_value_lt hc
  have h2 := hex_digit_value_lt hd
  calc hex_digit_value c * hex_digit_value d ≤ 15 * 15 :=
        Nat.mul_le_mul (by omega) (by omega)
    _ = 225 := rfl

theorem mult_hex_digits (einval : Bool) {c d : Char} (hc : c ∈ hexAlphabet)
    (hd : d ∈ hexAlphabet) :
    mult_hex einval [c] [d] = .ok ((hex_digit_value c * hex_digit_value d : Nat) : Int) := by
  have hp := digit_product_le hc hd
  simp only [mult_hex, parse_str_to_hex_digit einval c hc, parse_str_to_hex_digit einval d hd]
  rw [← Nat.cast_mul, to_int_small _ (by norm_num; omega)]

theorem printf_X_small (p : Nat) (h : p ≤ 225) : printf_X (p : Int) = digit_product_text p := by
  interval_cases p <;> rfl

theorem hex_value_singleton (c : Char) : hex_value [c] = hex_digit_value c := by
  simp [hex_value]

theorem hex_value_cons (c : Char) (t : List Char) :
    hex_value (c :: t) = hex_digit_value c * 16 ^ t.length + hex_value t := by
  have h := hex_value_append [c] t
  rwa [List.singleton_append, hex_value_singleton] at h

theorem digit_product_text_spec (p : Nat) (h : p ≤ 225) :
    IsHexString (digit_product_text p) ∧ hex_value (digit_product_text p) = p ∧
      (digit_product_text p).length ≤ 2 ∧
      (1 < (digit_product_text p).length → (digit_product_text p).head? ≠ some '0') := by
  interval_cases p <;> decide

/-! ## Normalisation -/

theorem remove_zeros_value (s : List Char) : hex_value (remove_zeros s) = hex_value s := by
  induction s with
  | nil => rfl
  | cons c t ih =>
    by_cases hc : c = '0'
    · subst hc
      have e : remove_zeros ('0' :: t) = remove_zeros t := by simp [remove_zeros]
      rw [e, ih, hex_value_cons]
      have : hex_digit_value '0' = 0 := by decide
      simp [this]
    · have e : remove_zeros (c :: t) = c :: t := by simp [remove_zeros, hc]
      rw [e]

theorem remove_zeros_mem (s : List Char) (h : IsHexString s) : IsHexString (remove_zeros s) :=
  fun c hc => h c ((List.dropWhile_sublist _).subset hc)

theorem remove_zeros_head (s : List Char) : (remove_zeros s).head? ≠ some '0' := by
  have h := List.head?_dropWhile_not (fun c => c == '0') s
  unfold remove_zeros
  intro hh
  rw [hh] at h
  simp at h

theorem hex_digit_value_pos {c : Char} (h : c ∈ hexAlphabet) (hne : c ≠ '0') :
    1 ≤ hex_digit_value c := by
  simp only [hexAlphabet, List.mem_cons, List.mem_singleton, List.not_mem_nil, or_false] at h
  rcases h with h | h | h | h | h | h | h | h | h | h | h | h | h | h | h | h | h | h | h | h | h | h <;>
    subst h <;> first | exact absurd rfl hne | decide

theorem length_le_of_value_lt (s : List Char) (hs : IsHexString s)
    (hh : s.head? ≠ some '0') (n : Nat) (hv : hex_value s < 16 ^ n) : s.length ≤ n := by
  cases s with
  | nil => exact Nat.zero_le _
  | cons c t =>
    have hc : c ≠ '0' := by
      rintro rfl
      exact hh rfl
    have hp := hex_digit_value_pos (hs c (List.mem_cons_self _ _)) hc
    rw [hex_value_cons] at hv
    by_contra hcon
    have hle : n ≤ t.length := by
      simp only [List.length_cons] at hcon
      omega
    have h16 : 16 ^ n ≤ 16 ^ t.length := Nat.pow_le_pow_right (by decide) hle
    have : 16 ^ t.length ≤ hex_digit_value c * 16 ^ t.length := Nat.le_mul_of_pos_left _ hp
    omega

theorem product_text_spec (k n : Nat) (h : n < 16 ^ (2 * 2 ^ k)) (h0 : k = 0 → n ≤ 225) :
    IsHexString (product_text k n) ∧ hex_value (product_text k n) = n ∧
      (product_text k n).length ≤ 2 * 2 ^ k ∧
      (1 < (product_text k n).length → (product_text k n).head? ≠ some '0') := by
  by_cases hk : k = 0
  · subst hk
    have e : product_text 0 n = digit_product_text n := by
      simp only [product_text, if_true]
      exact printf_X_small n (h0 rfl)
    rw [e]
    simpa using digit_product_text_spec n (h0 rfl)
  · have e : product_text k n = remove_zeros (hex_repr (4 * 2 ^ k + 1) n) := by
      simp only [product_text, hk, if_false]
    have hm := remove_zeros_mem _ (hex_repr_mem (4 * 2 ^ k + 1) n)
    have hlt : n < 16 ^ (4 * 2 ^ k + 1) :=
      lt_of_lt_of_le h (Nat.pow_le_pow_right (by decide) (by omega))
    have hv : hex_value (remove_zeros (hex_repr (4 * 2 ^ k + 1) n)) = n := by
      rw [remove_zeros_value, hex_value_hex_repr, Nat.mod_eq_of_lt hlt]
    rw [e]
    refine ⟨hm, hv, ?_, fun _ => remove_zeros_head _⟩
    exact length_le_of_value_lt _ hm (remove_zeros_head _) _ (by rw [hv]; exact h)

/-! ## Combining the four partial products -/

theorem read_result_line (junk r : List Char) (size : Nat) (hr : IsHexString r)
    (hl : r.length + 1 ≤ size) : read_result junk size (r ++ ['\n']) = r := by
  have ht : (r ++ ['\n']).take size = r ++ ['\n'] :=
    List.take_of_length_le (by simpa using hl)
  have hn : NUL ∉ r := fun hmem => (mem_hexAlphabet_ne (hr _ hmem)).1 rfl
  simp [read_result, ht, cstr_eq_self hn]

theorem isHexString_replicate_zero (n : Nat) : IsHexString (List.replicate n '0') := by
  intro c hc
  rw [List.eq_of_mem_replicate hc]
  decide

theorem combine_results_eq (env : Env) (len : Nat) (hh hl lh ll : List Char)
    (h1 : IsHexString hh) (h2 : IsHexString hl) (h3 : IsHexString lh) (h4 : IsHexString ll)
    (l1 : hh.length ≤ 2 * len) (l2 : hl.length ≤ 2 * len) (l3 : lh.length ≤ 2 * len)
    (l4 : ll.length ≤ 2 * len) :
    combine_results env len (.success (hh ++ ['\n'])) (.success (hl ++ ['\n']))
        (.success (lh ++ ['\n'])) (.success (ll ++ ['\n'])) =
      .success (remove_zeros (hex_repr (4 * len + 1)
        (hex_value ll + 16 ^ (len / 2) * hex_value hl + 16 ^ (len / 2) * hex_value lh +
          16 ^ (2 * (len / 2)) * hex_value hh)) ++ ['\n']) := by
  have hd : len / 2 ≤ len := Nat.div_le_self _ _
  have hd2 : 2 * (len / 2) ≤ len := Nat.mul_div_le len 2
  have hall : ∀ q ∈ [(ll, 0), (hl, len / 2), (lh, len / 2), (hh, 2 * (len / 2))],
      IsHexString q.1 ∧ q.1.length + q.2 ≤ (List.replicate (4 * len + 1) '0').length := by
    intro q hq
    simp only [List.mem_cons, List.mem_singleton, List.not_mem_nil, or_false] at hq
    rw [List.length_replicate]
    rcases hq with rfl | rfl | rfl | rfl
    · exact ⟨h4, by simp only; omega⟩
    · exact ⟨h2, by simp only; omega⟩
    · exact ⟨h3, by simp only; omega⟩
    · exact ⟨h1, by simp only; omega⟩
  have hsum := add_all_eq (List.replicate (4 * len + 1) '0') (ll, 0)
    [(hl, len / 2), (lh, len / 2), (hh, 2 * (len / 2))] (isHexString_replicate_zero _) hall
  simp only [add_all, List.foldl_cons, List.foldl_nil, shifted_sum, List.map_cons, List.map_nil,
    List.sum_cons, List.sum_nil, hex_value_replicate_zero, List.length_replicate, pow_zero,
    Nat.one_mul, Nat.zero_add, Nat.add_zero, Nat.cast_zero, Nat.cast_mul, Nat.cast_ofNat] at hsum
  simp only [combine_results, Outcome.stdout_bytes, reduceCtorEq, or_self, if_false,
    read_result_line _ hh (2 * len + 2) h1 (by omega),
    read_result_line _ hl (2 * len + 2) h2 (by omega),
    read_result_line _ lh (2 * len + 2) h3 (by omega),
    read_result_line _ ll (2 * len + 2) h4 (by omega), hsum]
  simp only [Nat.add_assoc]

/-! ## The recursion -/

theorem run_main_child (mult : List Char → List Char → Outcome) (x y : List Char)
    (hx : IsHexString x) (hy : IsHexString y) (hl : x.length = y.length)
    (hb : ¬ bad_length x.length) :
    run_main mult (child_input x y) = mult x y := by
  have e : child_input x y = x ++ '\n' :: (y ++ '\n' :: []) := by simp [child_input]
  have nx : '\n' ∉ x := fun hmem => (mem_hexAlphabet_ne (hx _ hmem)).2 rfl
  have ny : '\n' ∉ y := fun hmem => (mem_hexAlphabet_ne (hy _ hmem)).2 rfl
  have zx : NUL ∉ x := fun hmem => (mem_hexAlphabet_ne (hx _ hmem)).1 rfl
  have zy : NUL ∉ y := fun hmem => (mem_hexAlphabet_ne (hy _ hmem)).1 rfl
  have hb2 : ¬ bad_length y.length := hl ▸ hb
  rw [run_main, e, handle_stdin_two_lines x y [] nx ny, cstr_eq_self zx, cstr_eq_self zy,
    if_neg hb, if_neg (not_not.mpr hl), if_neg hb2]

theorem hex_value_take_drop (a : List Char) (n : Nat) :
    hex_value a = hex_value (a.take n) * 16 ^ (a.drop n).length + hex_value (a.drop n) := by
  rw [← hex_value_append, List.take_append_drop]

theorem not_bad_length_two_pow (k : Nat) : ¬ bad_length (2 ^ k) := by
  unfold bad_length
  cases k with
  | zero => simp
  | succ k =>
    have : 2 ^ (k + 1) % 2 = 0 := by rw [pow_succ]; exact Nat.mul_mod_left _ _
    omega

theorem product_bound (k : Nat) (x y : List Char) (hx : IsHexString x) (hy : IsHexString y)
    (lx : x.length = 2 ^ k) (ly : y.length = 2 ^ k) :
    hex_value x * hex_value y < 16 ^ (2 * 2 ^ k) ∧ (k = 0 → hex_value x * hex_value y ≤ 225) := by
  have h1 := hex_value_lt x hx
  have h2 := hex_value_lt y hy
  rw [lx] at h1
  rw [ly] at h2
  constructor
  · rw [two_mul, pow_add]
    exact Nat.mul_lt_mul'' h1 h2
  · rintro rfl
    simp only [pow_zero, pow_one] at h1 h2
    calc hex_value x * hex_value y ≤ 15 * 15 := Nat.mul_le_mul (by omega) (by omega)
      _ = 225 := rfl

/-- The program on two hex operands of length `2 ^ k`, with more fuel than `k`: it prints the
text of the product of the two values. -/
theorem mult_values_eq (env : Env) : ∀ (k fuel : Nat) (a b : List Char), k < fuel →
    a.length = 2 ^ k → b.length = 2 ^ k → IsHexString a → IsHexString b →
    mult_values env fuel a b =
      .success (product_text k (hex_value a * hex_value b) ++ ['\n']) := by
  intro k
  induction k with
  | zero =>
    intro fuel a b hf la lb ha hb
    obtain ⟨f, rfl⟩ : ∃ f, fuel = f + 1 := ⟨fuel - 1, by omega⟩
    obtain ⟨c, rfl⟩ := List.length_eq_one.mp la
    obtain ⟨d, rfl⟩ := List.length_eq_one.mp lb
    have hc := ha c (List.mem_singleton_self c)
    have hd := hb d (List.mem_singleton_self d)
    simp [mult_values, mult_hex_digits env.strtol_einval hc hd, product_text,
      hex_value_singleton]
  | succ k ih =>
    intro fuel a b hf la lb ha hb
    obtain ⟨f, rfl⟩ : ∃ f, fuel = f + 1 := ⟨fuel - 1, by omega⟩
    have hkf : k < f := by omega
    have hpos : 0 < 2 ^ k := Nat.pow_pos (by decide)
    have hlen : a.length ≠ 1 := by rw [la, pow_succ]; omega
    have hhalf : a.length / 2 = 2 ^ k := by rw [la, pow_succ]; omega
    have tk : ∀ (s : List Char), s.length = 2 ^ (k + 1) → IsHexString s →
        (s.take (2 ^ k)).length = 2 ^ k ∧ ((s.drop (2 ^ k)).take (2 ^ k)) = s.drop (2 ^ k) ∧
        (s.drop (2 ^ k)).length = 2 ^ k ∧ IsHexString (s.take (2 ^ k)) ∧
        IsHexString (s.drop (2 ^ k)) := by
      intro s ls hs
      have l2 : (s.drop (2 ^ k)).length = 2 ^ k := by
        rw [List.length_drop, ls, pow_succ]; omega
      refine ⟨?_, ?_, l2, ?_, ?_⟩
      · rw [List.length_take, ls, pow_succ]; omega
      · exact List.take_of_length_le (by omega)
      · exact fun c hc => hs c (List.mem_of_mem_take hc)
      · exact fun c hc => hs c (List.mem_of_mem_drop hc)
    obtain ⟨la1, ea, la2, hah, hal⟩ := tk a la ha
    obtain ⟨lb1, eb, lb2, hbh, hbl⟩ := tk b lb hb
    have nb1 : ¬ bad_length (a.take (2 ^ k)).length := by
      rw [la1]; exact not_bad_length_two_pow k
    have nb2 : ¬ bad_length (a.drop (2 ^ k)).length := by
      rw [la2]; exact not_bad_length_two_pow k
    have c_hh := ih f _ _ hkf la1 lb1 hah hbh
    have c_hl := ih f _ _ hkf la1 lb2 hah hbl
    have c_lh := ih f _ _ hkf la2 lb1 hal hbh
    have c_ll := ih f _ _ hkf la2 lb2 hal hbl
    have b_hh := product_bound k _ _ hah hbh la1 lb1
    have b_hl := product_bound k _ _ hah hbl la1 lb2
    have b_lh := product_bound k _ _ hal hbh la2 lb1
    have b_ll := product_bound k _ _ hal hbl la2 lb2
    have s_hh := product_text_spec k _ b_hh.1 b_hh.2
    have s_hl := product_text_spec k _ b_hl.1 b_hl.2
    have s_lh := product_text_spec k _ b_lh.1 b_lh.2
    have s_ll := product_text_spec k _ b_ll.1 b_ll.2
    have hle : 2 * 2 ^ k ≤ 2 * a.length := by rw [la, pow_succ]; omega
    have va := hex_value_take_drop a (2 ^ k)
    have vb := hex_value_take_drop b (2 ^ k)
    rw [la2] at va
    rw [lb2] at vb
    simp only [mult_values, hlen, if_false, hhalf, ea, eb]
    rw [run_main_child _ _ _ hah hbh (la1.trans lb1.symm) nb1,
      run_main_child _ _ _ hah hbl (la1.trans lb2.symm) nb1,
      run_main_child _ _ _ hal hbh (la2.trans lb1.symm) nb2,
      run_main_child _ _ _ hal hbl (la2.trans lb2.symm) nb2,
      c_hh, c_hl, c_lh, c_ll,
      combine_results_eq env a.length _ _ _ _ s_hh.1 s_hl.1 s_lh.1 s_ll.1
        (le_trans s_hh.2.2.1 hle) (le_trans s_hl.2.2.1 hle) (le_trans s_lh.2.2.1 hle)
        (le_trans s_ll.2.2.1 hle),
      s_hh.2.1, s_hl.2.1, s_lh.2.1, s_ll.2.1, hhalf]
    have hk1 : product_text (k + 1) (hex_value a * hex_value b) =
        remove_zeros (hex_repr (4 * 2 ^ (k + 1) + 1) (hex_value a * hex_value b)) := by
      simp [product_text]
    rw [hk1, la]
    congr 4
    rw [va, vb, two_mul, pow_add]
    ring

/-! ## More on input handling -/

/-- What `handle_stdin` makes of two lines when the input ends without a newline after the
second, non-empty one. -/
theorem handle_stdin_open_line (l1 l2 : List Char) (h1 : '\n' ∉ l1) (h2 : '\n' ∉ l2)
    (hne : l2 ≠ []) :
    handle_stdin (l1 ++ '\n' :: l2) =
      if bad_length (cstr l1).length then .error "numbler length must be even"
      else if (cstr l1).length ≠ (cstr l2).length then .error "Inputs don't have same length"
      else if bad_length (cstr l2).length then .error "numbler length must be even"
      else .ok (cstr l1, cstr l2) := by
  have hlast : ¬ (l2.getLast? = some '\n') := by
    intro h
    exact h2 (List.mem_of_getLast?_eq_some h)
  simp only [handle_stdin, handle_stdin_loop, getline_newline _ _ h1, getline_last _ h2 hne,
    List.getLast?_concat, List.dropLast_concat, if_true, hlast, if_false, tmod_two_cast]
  by_cases hb1 : bad_length (cstr l1).length
  · simp [hb1]
  · by_cases hl : (cstr l1).length = (cstr l2).length
    · by_cases hb2 : bad_length (cstr l2).length
      · simp [hb1, hl, hb2]
      · simp [hb1, hl, hb2]
    · have hl2 : ¬ (((cstr l1).length : Int) = ((cstr l2).length : Int)) := by
        intro h; exact hl (by exact_mod_cast h)
      simp [hb1, hl, hl2]

theorem getline_nil : getline [] = none := rfl

/-- With only one line on standard input `handle_stdin` fails. -/
theorem handle_stdin_one_line (l1 : List Char) (h1 : '\n' ∉ l1) :
    ∃ msg, handle_stdin (l1 ++ '\n' :: []) = .error msg := by
  simp only [handle_stdin, handle_stdin_loop, getline_newline _ _ h1, getline_nil,
    List.getLast?_concat, List.dropLast_concat, if_true, tmod_two_cast]
  by_cases hb1 : bad_length (cstr l1).length
  · exact ⟨"numbler length must be even", by simp [hb1]⟩
  · exact ⟨"stdin needs two input lines", by simp [hb1]⟩

theorem combine_results_success (env : Env) (len : Nat) (c1 c2 c3 c4 : Outcome)
    (h1 : c1 ≠ .diverged) (h2 : c2 ≠ .diverged) (h3 : c3 ≠ .diverged) (h4 : c4 ≠ .diverged) :
    ∃ r, combine_results env len c1 c2 c3 c4 = .success (r ++ ['\n']) := by
  simp only [combine_results, h1, h2, h3, h4, or_self, if_false]
  exact ⟨_, rfl⟩

/-! ## The multiplier: value, symmetry, base case, leading zeros -/

/-- C1: for hex-digit strings `a`, `b` of equal length `2 ^ k`, `mult_values` (every child being
the program itself on the half-length pair, with more levels of processes allowed than `k`)
prints one line, a string of hex digits whose value in base 16, the empty string counting as
0, is `value a * value b`. -/
theorem C1_product_value (env : Env) (k fuel : Nat) (a b : List Char) (hf : k < fuel)
    (la : a.length = 2 ^ k) (lb : b.length = 2 ^ k) (ha : IsHexString a) (hb : IsHexString b) :
    ∃ r, mult_values env fuel a b = .success (r ++ ['\n']) ∧ IsHexString r ∧
      hex_value r = hex_value a * hex_value b ∧ hex_value [] = 0 := by
  have hp := product_bound k a b ha hb la lb
  have hs := product_text_spec k _ hp.1 hp.2
  exact ⟨_, mult_values_eq env k fuel a b hf la lb ha hb, hs.1, hs.2.1, rfl⟩

/-- C1 at `a = b = "FF"`: the line printed is `FE01`. -/
theorem C1_product_value_witness :
    mult_values env0 2 ['F', 'F'] ['F', 'F'] = .success ['F', 'E', '0', '1', '\n'] ∧
    (1 < 2 ∧ ['F', 'F'].length = 2 ^ 1 ∧ IsHexString ['F', 'F']) ∧
    ∃ r, mult_values env0 2 ['F', 'F'] ['F', 'F'] = .success (r ++ ['\n']) ∧ IsHexString r ∧
      hex_value r = hex_value ['F', 'F'] * hex_value ['F', 'F'] ∧ hex_value [] = 0 :=
  ⟨by decide, by decide,
    C1_product_value env0 1 2 ['F', 'F'] ['F', 'F'] (by decide) (by decide) (by decide)
      (by decide) (by decide)⟩

/-- C2: for hex-digit strings `a`, `b` of equal length `2 ^ k`, multiplying `a` by `b` and `b`
by `a` print the same line. -/
theorem C2_commutative (env : Env) (k fuel : Nat) (a b : List Char) (hf : k < fuel)
    (la : a.length = 2 ^ k) (lb : b.length = 2 ^ k) (ha : IsHexString a) (hb : IsHexString b) :
    ∃ out, mult_values env fuel a b = .success out ∧ mult_values env fuel b a = .success out := by
  refine ⟨_, mult_values_eq env k fuel a b hf la lb ha hb, ?_⟩
  rw [mult_values_eq env k fuel b a hf lb la hb ha, Nat.mul_comm]

/-- C2 at `a = "1A"`, `b = "0c"`. -/
theorem C2_commutative_witness :
    (1 < 2 ∧ ['1', 'A'].length = 2 ^ 1 ∧ ['0', 'c'].length = 2 ^ 1 ∧ IsHexString ['1', 'A'] ∧
      IsHexString ['0', 'c']) ∧
    ∃ out, mult_values env0 2 ['1', 'A'] ['0', 'c'] = .success out ∧
      mult_values env0 2 ['0', 'c'] ['1', 'A'] = .success out :=
  ⟨by decide,
    C2_commutative env0 1 2 ['1', 'A'] ['0', 'c'] (by decide) (by decide) (by decide)
      (by decide) (by decide)⟩

/-- C3: for single hex digits `c`, `d` the multiplier prints, without starting a child (one
level of processes is enough), the upper-case base-16 text of the product of their values; the
product is at most 225, the text has one digit up to 15 and two digits from 16 on. -/
theorem C3_base_case (env : Env) (fuel : Nat) (c d : Char) (hc : c ∈ hexAlphabet)
    (hd : d ∈ hexAlphabet) :
    mult_values env (fuel + 1) [c] [d] =
        .success (digit_product_text (hex_digit_value c * hex_digit_value d) ++ ['\n']) ∧
      hex_digit_value c * hex_digit_value d ≤ 225 ∧
      hex_value (digit_product_text (hex_digit_value c * hex_digit_value d)) =
        hex_digit_value c * hex_digit_value d ∧
      (hex_digit_value c * hex_digit_value d < 16 →
        (digit_product_text (hex_digit_value c * hex_digit_value d)).length = 1) ∧
      (16 ≤ hex_digit_value c * hex_digit_value d →
        (digit_product_text (hex_digit_value c * hex_digit_value d)).length = 2) := by
  have hp := digit_product_le hc hd
  refine ⟨?_, hp, (digit_product_text_spec _ hp).2.1, ?_, ?_⟩
  · simp only [mult_values, List.length_singleton, if_true,
      mult_hex_digits env.strtol_einval hc hd, printf_X_small _ hp]
  · intro h; simp [digit_product_text, h]
  · intro h
    have : ¬ hex_digit_value c * hex_digit_value d < 16 := by omega
    simp [digit_product_text, this]

/-- C3 at `"1" x "1" = "1"` and `"F" x "F" = "E1"`. -/
theorem C3_base_case_witness :
    mult_values env0 1 ['1'] ['1'] = .success ['1', '\n'] ∧
    mult_values env0 1 ['F'] ['F'] = .success ['E', '1', '\n'] ∧
    ('F' ∈ hexAlphabet) ∧
    (mult_values env0 (0 + 1) ['F'] ['F'] =
        .success (digit_product_text (hex_digit_value 'F' * hex_digit_value 'F') ++ ['\n']) ∧
      hex_digit_value 'F' * hex_digit_value 'F' ≤ 225 ∧
      hex_value (digit_product_text (hex_digit_value 'F' * hex_digit_value 'F')) =
        hex_digit_value 'F' * hex_digit_value 'F' ∧
      (hex_digit_value 'F' * hex_digit_value 'F' < 16 →
        (digit_product_text (hex_digit_value 'F' * hex_digit_value 'F')).length = 1) ∧
      (16 ≤ hex_digit_value 'F' * hex_digit_value 'F' →
        (digit_product_text (hex_digit_value 'F' * hex_digit_value 'F')).length = 2)) :=
  ⟨by decide, by decide, by decide, C3_base_case env0 0 'F' 'F' (by decide) (by decide)⟩

/-- C5: for hex-digit strings `a`, `b` of equal length `2 ^ k` the line printed keeps no
leading zero: when its text has more than one character, the first one is not `'0'`. -/
theorem C5_no_leading_zero (env : Env) (k fuel : Nat) (a b : List Char) (hf : k < fuel)
    (la : a.length = 2 ^ k) (lb : b.length = 2 ^ k) (ha : IsHexString a) (hb : IsHexString b) :
    ∃ r, mult_values env fuel a b = .success (r ++ ['\n']) ∧
      (1 < r.length → r.head? ≠ some '0') := by
  have hp := product_bound k a b ha hb la lb
  have hs := product_text_spec k _ hp.1 hp.2
  exact ⟨_, mult_values_eq env k fuel a b hf la lb ha hb, hs.2.2.2⟩

/-- C5 at `"0F" x "0F" = "E1"`. -/
theorem C5_no_leading_zero_witness :
    mult_values env0 2 ['0', 'F'] ['0', 'F'] = .success ['E', '1', '\n'] ∧
    (1 < 2 ∧ ['0', 'F'].length = 2 ^ 1 ∧ IsHexString ['0', 'F']) ∧
    ∃ r, mult_values env0 2 ['0', 'F'] ['0', 'F'] = .success (r ++ ['\n']) ∧
      (1 < r.length → r.head? ≠ some '0') :=
  ⟨by decide, by decide,
    C5_no_leading_zero env0 1 2 ['0', 'F'] ['0', 'F'] (by decide) (by decide) (by decide)
      (by decide) (by decide)⟩

/-! ## A product of zero -/

theorem digits_le_zero (w : Nat) : digits_le w 0 = List.replicate w '0' := by
  induction w with
  | zero => rfl
  | succ w ih =>
    simp only [digits_le, Nat.zero_mod, Nat.zero_div, ih, List.replicate_succ]
    rfl

theorem remove_zeros_hex_repr_zero (w : Nat) : remove_zeros (hex_repr w 0) = [] := by
  simp [remove_zeros, hex_repr, digits_le_zero]

/-- On operands of length `2 ^ k >= 2` of which the second is all zeros, the line printed is
empty. -/
theorem mult_values_zero (env : Env) (k fuel : Nat) (a : List Char) (hk : 0 < k)
    (hf : k < fuel) (la : a.length = 2 ^ k) (ha : IsHexString a) :
    mult_values env fuel a (List.replicate (2 ^ k) '0') = .success ['\n'] := by
  rw [mult_values_eq env k fuel a _ hf la (List.length_replicate _ _) ha
    (isHexString_replicate_zero _), hex_value_replicate_zero, Nat.mul_zero]
  have hk0 : k ≠ 0 := by omega
  simp [product_text, hk0, remove_zeros_hex_repr_zero]

/-- C4, the code at the failing input: on the lines `12` and `00` the program prints an empty
line, not `0`, on every platform; only at length 1 (lines `7` and `0`) is the line `0`. -/
theorem C4_zero_operand_line (env : Env) :
    intmul env 2 ['1', '2', '\n', '0', '0', '\n'] = .success ['\n'] ∧
      intmul env 1 ['7', '\n', '0', '\n'] = .success ['0', '\n'] := by
  have h2 : handle_stdin ['1', '2', '\n', '0', '0', '\n'] = .ok (['1', '2'], ['0', '0']) := rfl
  have h1 : handle_stdin ['7', '\n', '0', '\n'] = .ok (['7'], ['0']) := rfl
  simp only [intmul, run_main, h1, h2]
  refine ⟨mult_values_zero env 1 2 ['1', '2'] (by decide) (by decide) (by decide) (by decide), ?_⟩
  rw [mult_values_eq env 0 1 ['7'] ['0'] (by decide) (by decide) (by decide) (by decide)
    (by decide)]
  decide

/-- C6, the code at the failing inputs: `remove_zeros` turns `"0"` and the all-zero
accumulator of nine characters into the empty string, and the program prints an empty line for
the lines `00` and `00`. -/
theorem C6_remove_zeros_empties (env : Env) :
    remove_zeros ['0'] = [] ∧ remove_zeros (List.replicate 9 '0') = [] ∧
      intmul env 2 ['0', '0', '\n', '0', '0', '\n'] = .success ['\n'] := by
  refine ⟨by decide, by decide, ?_⟩
  have h : handle_stdin ['0', '0', '\n', '0', '0', '\n'] = .ok (['0', '0'], ['0', '0']) :=
    rfl
  simp only [intmul, run_main, h]
  exact mult_values_zero env 1 2 ['0', '0'] (by decide) (by decide) (by decide) (by decide)

/-! ## Positional addition -/

/-- C7, the claim as stated fails: with total `"1"`, an empty addend and offset 3 the hypotheses
hold for `W = max 1 (0 + 3) = 3`, but the call leaves `"1"`, not `"001"`. -/
theorem C7_counterexample :
    IsHexString ['1'] ∧ IsHexString [] ∧
      hex_value ['1'] + hex_value [] * 16 ^ 3 < 16 ^ max ['1'].length (([] : List Char).length + 3) ∧
      add_hex_numbers ['1'] [] 3 = ['1'] ∧
      hex_repr (max ['1'].length (([] : List Char).length + 3))
        (hex_value ['1'] + hex_value [] * 16 ^ 3) = ['0', '0', '1'] ∧
      add_hex_numbers ['1'] [] 3 ≠
        hex_repr (max ['1'].length (([] : List Char).length + 3))
          (hex_value ['1'] + hex_value [] * 16 ^ 3) := by
  decide

/-- C7 (amended): for hex-digit strings `total` and `addend` and an offset such that the
addend is empty or `len addend + offset <= len total` (the calls whose digits stay inside
`out_hex` and inside `total`), let `W = len total`. If
`value total + value addend * 16 ^ offset < 16 ^ W`, then `add_hex_numbers` leaves in `total`
the `W`-character upper-case base-16 representation, zero-padded on the left, of that sum. The
`W` digits fit into `out_hex`, with room for the terminator when the addend is not empty. -/
theorem C7_add_hex_numbers (total addend : List Char) (offset : Nat)
    (ht : IsHexString total) (ha : IsHexString addend)
    (hfit : addend = [] ∨ addend.length + offset ≤ total.length)
    (hlt : hex_value total + hex_value addend * 16 ^ offset < 16 ^ total.length) :
    add_hex_numbers total addend (offset : Int) =
        hex_repr total.length (hex_value total + hex_value addend * 16 ^ offset) ∧
      (add_hex_numbers total addend (offset : Int)).length = total.length ∧
      hex_value (add_hex_numbers total addend (offset : Int)) =
        hex_value total + hex_value addend * 16 ^ offset ∧
      (add_hex_numbers total addend (offset : Int)).length ≤ out_hex_size total addend ∧
      (addend ≠ [] →
        (add_hex_numbers total addend (offset : Int)).length < out_hex_size total addend) := by
  have h := add_hex_numbers_eq total addend offset ht ha
  rw [Nat.mul_comm (16 ^ offset), add_width_of_fits_or_empty total addend offset hfit] at h
  rw [h, hex_repr_length]
  refine ⟨rfl, rfl, by rw [hex_value_hex_repr, Nat.mod_eq_of_lt hlt], Nat.le_add_right _ _, ?_⟩
  intro hne
  have hpos : 0 < addend.length := List.length_pos.mpr hne
  unfold out_hex_size
  omega

/-- C7 (amended) at total `"00FF"`, addend `"1F"`, offset 1: the result is `"02EF"`. -/
theorem C7_add_hex_numbers_witness :
    add_hex_numbers ['0', '0', 'F', 'F'] ['1', 'F'] 1 = ['0', '2', 'E', 'F'] ∧
    (IsHexString ['0', '0', 'F', 'F'] ∧ IsHexString ['1', 'F'] ∧
      ['1', 'F'].length + 1 ≤ ['0', '0', 'F', 'F'].length ∧
      hex_value ['0', '0', 'F', 'F'] + hex_value ['1', 'F'] * 16 ^ 1 <
        16 ^ ['0', '0', 'F', 'F'].length) ∧
    (add_hex_numbers ['0', '0', 'F', 'F'] ['1', 'F'] ((1 : Nat) : Int) =
        hex_repr ['0', '0', 'F', 'F'].length
          (hex_value ['0', '0', 'F', 'F'] + hex_value ['1', 'F'] * 16 ^ 1) ∧
      (add_hex_numbers ['0', '0', 'F', 'F'] ['1', 'F'] ((1 : Nat) : Int)).length =
        ['0', '0', 'F', 'F'].length ∧
      hex_value (add_hex_numbers ['0', '0', 'F', 'F'] ['1', 'F'] ((1 : Nat) : Int)) =
        hex_value ['0', '0', 'F', 'F'] + hex_value ['1', 'F'] * 16 ^ 1 ∧
      (add_hex_numbers ['0', '0', 'F', 'F'] ['1', 'F'] ((1 : Nat) : Int)).length ≤
        out_hex_size ['0', '0', 'F', 'F'] ['1', 'F'] ∧
      (['1', 'F'] ≠ [] →
        (add_hex_numbers ['0', '0', 'F', 'F'] ['1', 'F'] ((1 : Nat) : Int)).length <
          out_hex_size ['0', '0', 'F', 'F'] ['1', 'F'])) :=
  ⟨by decide, by decide,
    C7_add_hex_numbers ['0', '0', 'F', 'F'] ['1', 'F'] 1 (by decide) (by decide)
      (Or.inr (by decide)) (by decide)⟩

/-! ## The order of the additions -/

theorem add_all_perm (x : List Char) (ys zs : List (List Char × Nat)) (hx : IsHexString x)
    (hys : ∀ p ∈ ys, IsHexString p.1 ∧ p.1.length + p.2 ≤ x.length) (hp : ys.Perm zs) :
    add_all x ys = add_all x zs := by
  have hzs : ∀ p ∈ zs, IsHexString p.1 ∧ p.1.length + p.2 ≤ x.length :=
    fun p hp1 => hys p (hp.mem_iff.mpr hp1)
  cases ys with
  | nil => rw [List.nil_perm.mp hp]
  | cons p t =>
    cases zs with
    | nil => exact absurd (List.perm_nil.mp hp) (List.cons_ne_nil _ _)
    | cons q u => rw [add_all_eq x p t hx hys, add_all_eq x q u hx hzs, shifted_sum_perm hp]

/-- C8: for a hex-digit accumulator `x` and shifted hex-digit addends that fit it
(`len y + o <= len x`), adding `(y1, o1)` then `(y2, o2)` leaves the same string in `x` as
adding `(y2, o2)` then `(y1, o1)`; and a sequence `ys` of such additions leaves the same string
as any reordering `zs` of it, so the four partial products may be added in any of their 24
orders. -/
theorem C8_order_independent (x y1 y2 : List Char) (o1 o2 : Nat)
    (ys zs : List (List Char × Nat)) (hx : IsHexString x)
    (h1 : IsHexString y1) (h2 : IsHexString y2)
    (f1 : y1.length + o1 ≤ x.length) (f2 : y2.length + o2 ≤ x.length)
    (hys : ∀ p ∈ ys, IsHexString p.1 ∧ p.1.length + p.2 ≤ x.length) (hp : ys.Perm zs) :
    add_hex_numbers (add_hex_numbers x y1 (o1 : Int)) y2 (o2 : Int) =
        add_hex_numbers (add_hex_numbers x y2 (o2 : Int)) y1 (o1 : Int) ∧
      add_all x ys = add_all x zs := by
  refine ⟨?_, add_all_perm x ys zs hx hys hp⟩
  have h := add_all_perm x [(y1, o1), (y2, o2)] [(y2, o2), (y1, o1)] hx
    (by
      intro p hp1
      simp only [List.mem_cons, List.mem_singleton, List.not_mem_nil, or_false] at hp1
      rcases hp1 with rfl | rfl
      · exact ⟨h1, f1⟩
      · exact ⟨h2, f2⟩)
    (List.Perm.swap _ _ _)
  simpa [add_all] using h

/-- C8 on the accumulator `"00000"` with the partial products of `"FF" x "FF"`:
LL, HL, LH, HH and HH, LH, LL, HL both leave `"0FE01"`. -/
theorem C8_order_independent_witness :
    add_all ['0', '0', '0', '0', '0']
        [(['E', '1'], 0), (['E', '1'], 1), (['E', '1'], 1), (['E', '1'], 2)] =
      ['0', 'F', 'E', '0', '1'] ∧
    (add_hex_numbers (add_hex_numbers ['0', '0', '0', '0', '0'] ['E', '1'] ((0 : Nat) : Int))
          ['E', '1'] ((2 : Nat) : Int) =
        add_hex_numbers (add_hex_numbers ['0', '0', '0', '0', '0'] ['E', '1'] ((2 : Nat) : Int))
          ['E', '1'] ((0 : Nat) : Int) ∧
      add_all ['0', '0', '0', '0', '0']
          [(['E', '1'], 0), (['E', '1'], 1), (['E', '1'], 1), (['E', '1'], 2)] =
        add_all ['0', '0', '0', '0', '0']
          [(['E', '1'], 2), (['E', '1'], 1), (['E', '1'], 0), (['E', '1'], 1)]) :=
  ⟨by decide,
    C8_order_independent ['0', '0', '0', '0', '0'] ['E', '1'] ['E', '1'] 0 2
      [(['E', '1'], 0), (['E', '1'], 1), (['E', '1'], 1), (['E', '1'], 2)]
      [(['E', '1'], 2), (['E', '1'], 1), (['E', '1'], 0), (['E', '1'], 1)]
      (by decide) (by decide) (by decide) (by decide) (by decide) (by decide) (by decide)⟩

/-! ## Rejected and accepted input -/

theorem mult_values_leaf_not_diverged (env : Env) (fuel : Nat) (a b : List Char)
    (h : a.length = 1) : mult_values env (fuel + 1) a b ≠ .diverged := by
  simp only [mult_values, h, if_true]
  cases mult_hex env.strtol_einval a b <;> simp

/-- C9, the code at the failing input: `G` is no hex digit, yet `handle_stdin` accepts the
lines `1G` and `11`, `mult_values` runs and a result line is printed on every platform; where
`strtol` leaves `errno` alone the line is `110`. -/
theorem C9_non_hex_input_runs (env : Env) :
    'G' ∉ hexAlphabet ∧
      handle_stdin ['1', 'G', '\n', '1', '1', '\n'] = .ok (['1', 'G'], ['1', '1']) ∧
      (∃ r, intmul env 2 ['1', 'G', '\n', '1', '1', '\n'] = .success (r ++ ['\n'])) ∧
      intmul env0 2 ['1', 'G', '\n', '1', '1', '\n'] = .success ['1', '1', '0', '\n'] := by
  refine ⟨by decide, rfl, ?_, by decide⟩
  have h : handle_stdin ['1', 'G', '\n', '1', '1', '\n'] = .ok (['1', 'G'], ['1', '1']) := rfl
  have e1 : handle_stdin (child_input ['1'] ['1']) = .ok (['1'], ['1']) := rfl
  have e2 : handle_stdin (child_input ['G'] ['1']) = .ok (['G'], ['1']) := rfl
  have n1 := mult_values_leaf_not_diverged env 0 ['1'] ['1'] rfl
  have n2 := mult_values_leaf_not_diverged env 0 ['G'] ['1'] rfl
  have hm : mult_values env 2 ['1', 'G'] ['1', '1'] =
      combine_results env 2 (mult_values env 1 ['1'] ['1']) (mult_values env 1 ['1'] ['1'])
        (mult_values env 1 ['G'] ['1']) (mult_values env 1 ['G'] ['1']) := by
    simp [mult_values, run_main, e1, e2]
  simp only [intmul, run_main, h, hm]
  exact combine_results_success env 2 _ _ _ _ n1 n1 n2 n2

/-- C10: when the two lines of the input differ in length (`strlen`, the number of characters
of a line without NUL bytes), whether or not a newline ends the second line, `handle_stdin`
fails with an error message, and the program ends with that failure whatever `mult_values`
would do: it is not called and nothing is printed. -/
theorem C10_unequal_lengths (l1 l2 tail : List Char) (h1 : '\n' ∉ l1) (h2 : '\n' ∉ l2)
    (ht : tail = [] ∨ ∃ rest, tail = '\n' :: rest)
    (hne : (cstr l1).length ≠ (cstr l2).length) :
    ∃ msg, handle_stdin (l1 ++ '\n' :: (l2 ++ tail)) = .error msg ∧
      (∀ mult, run_main mult (l1 ++ '\n' :: (l2 ++ tail)) = .failure msg) ∧
      ∀ env fuel, intmul env fuel (l1 ++ '\n' :: (l2 ++ tail)) = .failure msg := by
  have key : ∃ msg, handle_stdin (l1 ++ '\n' :: (l2 ++ tail)) = .error msg := by
    rcases ht with rfl | ⟨rest, rfl⟩
    · rw [List.append_nil]
      by_cases hl2 : l2 = []
      · subst hl2
        exact handle_stdin_one_line l1 h1
      · rw [handle_stdin_open_line l1 l2 h1 h2 hl2]
        by_cases hb : bad_length (cstr l1).length
        · exact ⟨_, if_pos hb⟩
        · rw [if_neg hb, if_pos hne]
          exact ⟨_, rfl⟩
    · rw [handle_stdin_two_lines l1 l2 rest h1 h2]
      by_cases hb : bad_length (cstr l1).length
      · exact ⟨_, if_pos hb⟩
      · rw [if_neg hb, if_pos hne]
        exact ⟨_, rfl⟩
  obtain ⟨msg, hmsg⟩ := key
  refine ⟨msg, hmsg, ?_, ?_⟩
  · intro mult
    simp only [run_main, hmsg]
  · intro env fuel
    simp only [intmul, run_main, hmsg]

/-- C10 at the lines `AB` and `ABCD`. -/
theorem C10_unequal_lengths_witness :
    handle_stdin ['A', 'B', '\n', 'A', 'B', 'C', 'D', '\n'] =
      .error "Inputs don't have same length" ∧
    ('\n' ∉ ['A', 'B'] ∧ '\n' ∉ ['A', 'B', 'C', 'D'] ∧
      (cstr ['A', 'B']).length ≠ (cstr ['A', 'B', 'C', 'D']).length) ∧
    ∃ msg, handle_stdin (['A', 'B'] ++ '\n' :: (['A', 'B', 'C', 'D'] ++ ['\n'])) = .error msg ∧
      (∀ mult, run_main mult (['A', 'B'] ++ '\n' :: (['A', 'B', 'C', 'D'] ++ ['\n'])) =
        .failure msg) ∧
      ∀ env fuel, intmul env fuel (['A', 'B'] ++ '\n' :: (['A', 'B', 'C', 'D'] ++ ['\n'])) =
        .failure msg :=
  ⟨rfl, by decide,
    C10_unequal_lengths ['A', 'B'] ['A', 'B', 'C', 'D'] ['\n'] (by decide) (by decide)
      (Or.inr ⟨[], rfl⟩) (by decide)⟩

/-! ## The length check, empty operands, failing children -/

theorem bad_length_iff (n : Nat) : bad_length n ↔ n % 2 = 1 ∧ n ≠ 1 := by
  unfold bad_length
  omega

/-- C11: when the first or the second line has an odd length other than 1 (whether or not a
newline ends the second line), `handle_stdin` fails with an error message and the program ends
with that failure whatever `mult_values` would do; two lines of the same length that is 1 or
even and at least 2 pass, and `handle_stdin` returns them. The length of a line is its
`strlen`. -/
theorem C11_odd_length_rejected (l1 l2 tail m1 m2 rest : List Char)
    (h1 : '\n' ∉ l1) (h2 : '\n' ∉ l2) (ht : tail = [] ∨ ∃ r, tail = '\n' :: r)
    (hodd : ((cstr l1).length % 2 = 1 ∧ (cstr l1).length ≠ 1) ∨
      ((cstr l2).length % 2 = 1 ∧ (cstr l2).length ≠ 1))
    (g1 : '\n' ∉ m1) (g2 : '\n' ∉ m2) (hm : (cstr m1).length = (cstr m2).length)
    (hgood : (cstr m1).length = 1 ∨ ((cstr m1).length % 2 = 0 ∧ 2 ≤ (cstr m1).length)) :
    (∃ msg, handle_stdin (l1 ++ '\n' :: (l2 ++ tail)) = .error msg ∧
      ∀ mult, run_main mult (l1 ++ '\n' :: (l2 ++ tail)) = .failure msg) ∧
    handle_stdin (m1 ++ '\n' :: (m2 ++ '\n' :: rest)) = .ok (cstr m1, cstr m2) := by
  constructor
  · have key : ∃ msg, handle_stdin (l1 ++ '\n' :: (l2 ++ tail)) = .error msg := by
      have cases3 : ∃ msg,
          (if bad_length (cstr l1).length then
              (Except.error "numbler length must be even" : Except String (List Char × List Char))
            else if (cstr l1).length ≠ (cstr l2).length then .error "Inputs don't have same length"
            else if bad_length (cstr l2).length then .error "numbler length must be even"
            else .ok (cstr l1, cstr l2)) = .error msg := by
        by_cases hb : bad_length (cstr l1).length
        · exact ⟨_, if_pos hb⟩
        · rw [if_neg hb]
          by_cases hl : (cstr l1).length ≠ (cstr l2).length
          · exact ⟨_, if_pos hl⟩
          · rw [if_neg hl]
            have hb2 : bad_length (cstr l2).length := by
              rw [bad_length_iff] at hb ⊢
              rcases hodd with h | h
              · exact absurd h hb
              · exact h
            exact ⟨_, if_pos hb2⟩
      rcases ht with rfl | ⟨r, rfl⟩
      · rw [List.append_nil]
        by_cases hl2 : l2 = []
        · subst hl2
          exact handle_stdin_one_line l1 h1
        · rw [handle_stdin_open_line l1 l2 h1 h2 hl2]
          exact cases3
      · rw [handle_stdin_two_lines l1 l2 r h1 h2]
        exact cases3
    obtain ⟨msg, hmsg⟩ := key
    exact ⟨msg, hmsg, fun mult => by simp only [run_main, hmsg]⟩
  · have nb1 : ¬ bad_length (cstr m1).length := by
      rw [bad_length_iff]; omega
    have nb2 : ¬ bad_length (cstr m2).length := hm ▸ nb1
    rw [handle_stdin_two_lines m1 m2 rest g1 g2, if_neg nb1, if_neg (not_not.mpr hm), if_neg nb2]

/-- C11 at the lines `ABC`, `ABC` (rejected) and `AB`, `CD` (accepted). -/
theorem C11_odd_length_rejected_witness :
    handle_stdin ['A', 'B', 'C', '\n', 'A', 'B', 'C', '\n'] =
      .error "numbler length must be even" ∧
    ('\n' ∉ ['A', 'B', 'C'] ∧ (cstr ['A', 'B', 'C']).length % 2 = 1 ∧
      (cstr ['A', 'B', 'C']).length ≠ 1 ∧ '\n' ∉ ['A', 'B'] ∧ '\n' ∉ ['C', 'D'] ∧
      (cstr ['A', 'B']).length = (cstr ['C', 'D']).length ∧ (cstr ['A', 'B']).length % 2 = 0) ∧
    ((∃ msg, handle_stdin (['A', 'B', 'C'] ++ '\n' :: (['A', 'B', 'C'] ++ ['\n'])) = .error msg ∧
      ∀ mult, run_main mult (['A', 'B', 'C'] ++ '\n' :: (['A', 'B', 'C'] ++ ['\n'])) =
        .failure msg) ∧
    handle_stdin (['A', 'B'] ++ '\n' :: (['C', 'D'] ++ '\n' :: [])) =
      .ok (cstr ['A', 'B'], cstr ['C', 'D'])) :=
  ⟨rfl, by decide,
    C11_odd_length_rejected ['A', 'B', 'C'] ['A', 'B', 'C'] ['\n'] ['A', 'B'] ['C', 'D'] []
      (by decide) (by decide) (Or.inr ⟨[], rfl⟩) (Or.inl (by decide)) (by decide) (by decide)
      (by decide) (Or.inr (by decide))⟩

theorem mult_values_nil (env : Env) (fuel : Nat) : mult_values env fuel [] [] = .diverged := by
  induction fuel with
  | zero => rfl
  | succ fuel ih =>
    have e : handle_stdin (child_input [] []) = .ok ([], []) := rfl
    simp [mult_values, run_main, e, ih, combine_results]

/-- C12, the code at the failing input: two empty lines pass `handle_stdin`, which returns two
empty operands; `mult_values` runs on them and starts four children on two empty lines again,
so that no bound on the depth of the process tree lets the run end. -/
theorem C12_empty_lines_accepted (env : Env) (fuel : Nat) :
    handle_stdin ['\n', '\n'] = .ok ([], []) ∧
      child_input (high_half (0 / 2) []) (high_half (0 / 2) []) = ['\n', '\n'] ∧
      intmul env fuel ['\n', '\n'] = .diverged := by
  have e : handle_stdin ['\n', '\n'] = .ok ([], []) := rfl
  refine ⟨e, rfl, ?_⟩
  simp only [intmul, run_main, e]
  exact mult_values_nil env fuel

/-- C13, the code at the failing input: on the lines `123456` and `123456` every child gets
lines of length 3 and fails in `handle_stdin`; the parent goes on all the same, prints a
result line and ends successfully (the line is empty where a fresh buffer holds the empty
string). -/
theorem C13_failed_children_ignored (env : Env) :
    handle_stdin ['1', '2', '3', '4', '5', '6', '\n', '1', '2', '3', '4', '5', '6', '\n'] =
        .ok (['1', '2', '3', '4', '5', '6'], ['1', '2', '3', '4', '5', '6']) ∧
      (∀ mult, run_main mult (child_input ['1', '2', '3'] ['4', '5', '6']) =
        .failure "numbler length must be even") ∧
      (∃ r, intmul env 2
          ['1', '2', '3', '4', '5', '6', '\n', '1', '2', '3', '4', '5', '6', '\n'] =
        .success (r ++ ['\n'])) ∧
      intmul env0 2 ['1', '2', '3', '4', '5', '6', '\n', '1', '2', '3', '4', '5', '6', '\n'] =
        .success ['\n'] := by
  have h : handle_stdin
      ['1', '2', '3', '4', '5', '6', '\n', '1', '2', '3', '4', '5', '6', '\n'] =
      .ok (['1', '2', '3', '4', '5', '6'], ['1', '2', '3', '4', '5', '6']) := rfl
  have e1 : handle_stdin (child_input ['1', '2', '3'] ['1', '2', '3']) =
      .error "numbler length must be even" := rfl
  have e2 : handle_stdin (child_input ['1', '2', '3'] ['4', '5', '6']) =
      .error "numbler length must be even" := rfl
  have e3 : handle_stdin (child_input ['4', '5', '6'] ['1', '2', '3']) =
      .error "numbler length must be even" := rfl
  have e4 : handle_stdin (child_input ['4', '5', '6'] ['4', '5', '6']) =
      .error "numbler length must be even" := rfl
  have hm : ∀ e : Env,
      mult_values e 2 ['1', '2', '3', '4', '5', '6'] ['1', '2', '3', '4', '5', '6'] =
      combine_results e 6 (.failure "numbler length must be even")
        (.failure "numbler length must be even") (.failure "numbler length must be even")
        (.failure "numbler length must be even") := by
    intro e
    simp [mult_values, run_main, e1, e2, e3, e4]
  refine ⟨h, fun mult => by simp only [run_main, e2], ?_, ?_⟩
  · simp only [intmul, run_main, h, hm]
    exact combine_results_success env 6 _ _ _ _ (by simp) (by simp) (by simp) (by simp)
  · simp only [intmul, run_main, h, hm]
    set_option maxRecDepth 20000 in decide

/-! ## `hex_char_to_int` -/

theorem mem_hexAlphabet_of_toNat (c : Char)
    (h : (48 ≤ c.toNat ∧ c.toNat ≤ 57) ∨ (65 ≤ c.toNat ∧ c.toNat ≤ 70) ∨
      (97 ≤ c.toNat ∧ c.toNat ≤ 102)) : c ∈ hexAlphabet := by
  have hc : c = Char.ofNat c.toNat := (Char.ofNat_toNat c).symm
  rcases h with ⟨h1, h2⟩ | ⟨h1, h2⟩ | ⟨h1, h2⟩ <;>
    (interval_cases hn : c.toNat <;> (rw [hc]; decide))

theorem hex_char_to_int_of_not_mem (c : Char) (h : c ∉ hexAlphabet) :
    hex_char_to_int c = -1 := by
  have h0 : '0'.toNat = 48 ∧ '9'.toNat = 57 ∧ 'A'.toNat = 65 ∧ 'F'.toNat = 70 ∧
      'a'.toNat = 97 ∧ 'f'.toNat = 102 := by decide
  obtain ⟨a0, a9, aA, aF, aa, af⟩ := h0
  unfold hex_char_to_int
  rw [a0, a9, aA, aF, aa, af]
  split_ifs with c1 c2 c3
  · exact absurd (mem_hexAlphabet_of_toNat c (Or.inl c1)) h
  · exact absurd (mem_hexAlphabet_of_toNat c (Or.inr (Or.inl c2))) h
  · exact absurd (mem_hexAlphabet_of_toNat c (Or.inr (Or.inr c3))) h
  · rfl

/-- C14: for a character of the hex alphabet `hex_char_to_int` returns the value of the digit,
which is in 0..15 and the same for a letter in upper and in lower case; it returns -1 exactly
for the characters outside the alphabet. -/
theorem C14_hex_char_to_int (c : Char) :
    (c ∈ hexAlphabet → ∃ v, hexTable.lookup c = some v ∧ v ≤ 15 ∧ hex_char_to_int c = (v : Int)) ∧
      (c ∈ hexAlphabet → hex_char_to_int c.toLower = hex_char_to_int c ∧
        hex_char_to_int c.toUpper = hex_char_to_int c) ∧
      (hex_char_to_int c = -1 ↔ c ∉ hexAlphabet) := by
  refine ⟨?_, ?_, ?_⟩
  · intro h
    simp only [hexAlphabet, List.mem_cons, List.mem_singleton, List.not_mem_nil, or_false] at h
    rcases h with h | h | h | h | h | h | h | h | h | h | h | h | h | h | h | h | h | h | h | h | h | h <;>
      subst h <;> exact ⟨_, rfl, by decide, by decide⟩
  · intro h
    simp only [hexAlphabet, List.mem_cons, List.mem_singleton, List.not_mem_nil, or_false] at h
    rcases h with h | h | h | h | h | h | h | h | h | h | h | h | h | h | h | h | h | h | h | h | h | h <;>
      subst h <;> decide
  · constructor
    · intro h hm
      have := (hex_char_to_int_of_mem hm).1
      omega
    · exact hex_char_to_int_of_not_mem c

/-! ## The carry the addition loop ends with -/

theorem div_unstep (w t r n m : Nat) (hn : n = t + 16 * r) (hm : m = r + t / 16) :
    m / 16 ^ w = n / 16 ^ (w + 1) := by
  have h16 : n / 16 = m := by rw [hn, hm]; omega
  rw [pow_succ, Nat.mul_comm (16 ^ w) 16, ← Nat.div_div_eq_div_mul, h16]

theorem tdiv_cast (t : Nat) : (t : Int).tdiv 16 = ((t / 16 : Nat) : Int) :=
  (Int.ofNat_tdiv t 16).symm

theorem add_loop_overflow_spec (fuel : Nat) : ∀ (xr yr : List Char) (off : Int) (c : Nat),
    IsHexString xr → IsHexString yr → loop_width xr yr off ≤ fuel →
    add_loop_overflow fuel xr yr off c =
      (((val_le xr + 16 ^ off.toNat * val_le yr + c) / 16 ^ loop_width xr yr off : Nat) : Int) := by
  induction fuel with
  | zero =>
    intro xr yr off c _ _ hw
    have h0 : loop_width xr yr off = 0 := by omega
    rcases xr with _ | ⟨x, xs⟩ <;> rcases yr with _ | ⟨y, ys⟩
    · simp [add_loop_overflow, loop_width, val_le]
    · simp [loop_width] at h0
    · simp [loop_width] at h0
    · simp [loop_width] at h0
  | succ fuel ih =>
    intro xr yr off c hx hy hw
    rcases xr with _ | ⟨x, xs⟩ <;> rcases yr with _ | ⟨y, ys⟩
    · simp [add_loop_overflow, loop_width, val_le]
    · have hy1 := hex_char_to_int_eq (hy y (List.mem_cons_self _ _))
      have hys : IsHexString ys := fun d hd => hy d (List.mem_cons_of_mem _ hd)
      by_cases ho : off ≤ 0
      · have e : (0 : Int) + hex_char_to_int y + (c : Int) = ((hex_digit_value y + c : Nat) : Int) := by
          rw [hy1]; push_cast; ring
        have hw1 : loop_width [] (y :: ys) off = loop_width [] ys (off - 1) + 1 := by
          rcases ys with _ | ⟨z, zs⟩ <;> simp [loop_width] <;> omega
        have ht : off.toNat = 0 ∧ (off - 1).toNat = 0 := by omega
        simp only [add_loop_overflow, List.isEmpty_nil, List.isEmpty_cons, Bool.and_false,
          Bool.false_eq_true, if_false, Bool.not_false, ho, decide_True, Bool.and_self, if_true,
          List.tail_nil, List.tail_cons, e]
        rw [tdiv_cast, ih [] ys (off - 1) _ hx hys (by omega), hw1, ht.1, ht.2]
        simp only [val_le, pow_zero, Nat.one_mul, Nat.zero_add]
        exact congrArg Nat.cast
          (div_unstep _ (hex_digit_value y + c) (val_le ys) _ _ (by ring) rfl)
      · have e : (0 : Int) + 0 + (c : Int) = ((c : Nat) : Int) := by ring
        have hw1 : loop_width [] (y :: ys) off = loop_width [] (y :: ys) (off - 1) + 1 := by
          simp [loop_width]; omega
        have ht : off.toNat = (off - 1).toNat + 1 := by omega
        simp only [add_loop_overflow, List.isEmpty_nil, List.isEmpty_cons, Bool.and_false,
          Bool.false_eq_true, if_false, Bool.not_false, ho, decide_False, Bool.and_false,
          List.tail_nil, e]
        rw [tdiv_cast, ih [] (y :: ys) (off - 1) _ hx hy (by omega), hw1, ht, pow_succ]
        simp only [val_le, Nat.zero_add]
        exact congrArg Nat.cast
          (div_unstep _ c (16 ^ (off - 1).toNat * (hex_digit_value y + 16 * val_le ys))
            _ _ (by ring) rfl)
    · have hx1 := hex_char_to_int_eq (hx x (List.mem_cons_self _ _))
      have hxs : IsHexString xs := fun d hd => hx d (List.mem_cons_of_mem _ hd)
      have e : hex_char_to_int x + 0 + (c : Int) = ((hex_digit_value x + c : Nat) : Int) := by
        rw [hx1]; push_cast; ring
      have hw1 : loop_width (x :: xs) [] off = loop_width xs [] (off - 1) + 1 := by
        simp [loop_width]
      simp only [add_loop_overflow, List.isEmpty_nil, List.isEmpty_cons, Bool.false_and,
        Bool.false_eq_true, if_false, Bool.not_true, List.tail_cons, e]
      rw [tdiv_cast, ih xs [] (off - 1) _ hxs hy (by omega), hw1]
      simp only [val_le, Nat.mul_zero, Nat.add_zero]
      exact congrArg Nat.cast
        (div_unstep _ (hex_digit_value x + c) (val_le xs) _ _ (by ring) rfl)
    · have hx1 := hex_char_to_int_eq (hx x (List.mem_cons_self _ _))
      have hxs : IsHexString xs := fun d hd => hx d (List.mem_cons_of_mem _ hd)
      have hy1 := hex_char_to_int_eq (hy y (List.mem_cons_self _ _))
      have hys : IsHexString ys := fun d hd => hy d (List.mem_cons_of_mem _ hd)
      by_cases ho : off ≤ 0
      · have e : hex_char_to_int x + hex_char_to_int y + (c : Int) =
            ((hex_digit_value x + hex_digit_value y + c : Nat) : Int) := by
          rw [hx1, hy1]; push_cast; ring
        have hw1 : loop_width (x :: xs) (y :: ys) off = loop_width xs ys (off - 1) + 1 := by
          rcases ys with _ | ⟨z, zs⟩ <;> simp [loop_width] <;> omega
        have ht : off.toNat = 0 ∧ (off - 1).toNat = 0 := by omega
        simp only [add_loop_overflow, List.isEmpty_cons, Bool.and_false, Bool.false_and,
          Bool.false_eq_true, if_false, Bool.not_false, ho, decide_True, Bool.and_self, if_true,
          List.tail_cons, e]
        rw [tdiv_cast, ih xs ys (off - 1) _ hxs hys (by omega), hw1, ht.1, ht.2]
        simp only [val_le, pow_zero, Nat.one_mul]
        exact congrArg Nat.cast
          (div_unstep _ (hex_digit_value x + hex_digit_value y + c)
            (val_le xs + val_le ys) _ _ (by ring) rfl)
      · have e : hex_char_to_int x + 0 + (c : Int) = ((hex_digit_value x + c : Nat) : Int) := by
          rw [hx1]; push_cast; ring
        have hw1 : loop_width (x :: xs) (y :: ys) off = loop_width xs (y :: ys) (off - 1) + 1 := by
          simp [loop_width]; omega
        have ht : off.toNat = (off - 1).toNat + 1 := by omega
        simp only [add_loop_overflow, List.isEmpty_cons, Bool.and_false, Bool.false_and,
          Bool.false_eq_true, if_false, Bool.not_false, ho, decide_False, List.tail_cons, e]
        rw [tdiv_cast, ih xs (y :: ys) (off - 1) _ hxs hy (by omega), hw1, ht, pow_succ]
        simp only [val_le]
        exact congrArg Nat.cast
          (div_unstep _ (hex_digit_value x + c)
            (val_le xs + 16 ^ (off - 1).toNat * (hex_digit_value y + 16 * val_le ys))
            _ _ (by ring) rfl)

theorem add_hex_numbers_overflow_eq (x y : List Char) (offset : Nat)
    (hx : IsHexString x) (hy : IsHexString y) :
    add_hex_numbers_overflow x y (offset : Int) =
      (((hex_value x + 16 ^ offset * hex_value y) / 16 ^ add_width x y offset : Nat) : Int) := by
  have hw : loop_width x.reverse y.reverse (offset : Int) = add_width x y offset := by
    simp [loop_width, add_width]
  have h := add_loop_overflow_spec (x.length + y.length + (offset : Int).toNat) x.reverse
    y.reverse (offset : Int) 0 (fun c hc => hx c (List.mem_reverse.mp hc))
    (fun c hc => hy c (List.mem_reverse.mp hc))
    (by rw [hw]; simp only [add_width, Int.toNat_ofNat]; split <;> omega)
  simp only [Nat.cast_zero, hw, val_le_reverse, Int.toNat_ofNat, Nat.add_zero] at h
  simp only [add_hex_numbers_overflow, Int.toNat_ofNat, h]

/-! ## Truncation, and why the accumulator of `mult_values` is wide enough -/

/-- C17, the claim as stated fails: total `"F"`, addend `"1"`, offset 0 leaves `"0"`, not
`"10"`; the loop ends with the carry 1, which is written nowhere. -/
theorem C17_counterexample :
    IsHexString ['F'] ∧ IsHexString ['1'] ∧ add_hex_numbers ['F'] ['1'] 0 = ['0'] ∧
      add_hex_numbers ['F'] ['1'] 0 ≠ ['1', '0'] ∧ add_hex_numbers_overflow ['F'] ['1'] 0 = 1 ∧
      hex_value (add_hex_numbers ['F'] ['1'] 0) ≠ hex_value ['F'] + hex_value ['1'] * 16 ^ 0 := by
  decide

/-- C17 (amended): `add_hex_numbers` runs until both cursors are exhausted, whether or not a
carry remains. For hex-digit strings `total` and `addend` and an offset such that the addend
is empty or `len addend + offset <= len total` (the calls whose digits stay inside `out_hex`
and inside `total`), it writes `W = len total` digits whose value is
`value total + value addend * 16 ^ offset` modulo `16 ^ W`; the carry out of the most
significant position is the quotient, it is not emitted, and the value is the whole sum
exactly when that carry is 0. -/
theorem C17_add_truncates (total addend : List Char) (offset : Nat)
    (ht : IsHexString total) (ha : IsHexString addend)
    (hfit : addend = [] ∨ addend.length + offset ≤ total.length) :
    (add_hex_numbers total addend (offset : Int)).length = total.length ∧
      (add_hex_numbers total addend (offset : Int)).length ≤ out_hex_size total addend ∧
      hex_value (add_hex_numbers total addend (offset : Int)) =
        (hex_value total + hex_value addend * 16 ^ offset) % 16 ^ total.length ∧
      add_hex_numbers_overflow total addend (offset : Int) =
        (((hex_value total + hex_value addend * 16 ^ offset) / 16 ^ total.length : Nat) : Int) ∧
      (hex_value (add_hex_numbers total addend (offset : Int)) =
          hex_value total + hex_value addend * 16 ^ offset ↔
        add_hex_numbers_overflow total addend (offset : Int) = 0) := by
  have h := add_hex_numbers_eq total addend offset ht ha
  have ho := add_hex_numbers_overflow_eq total addend offset ht ha
  rw [Nat.mul_comm (16 ^ offset), add_width_of_fits_or_empty total addend offset hfit] at h ho
  rw [h, ho, hex_repr_length]
  refine ⟨rfl, Nat.le_add_right _ _, hex_value_hex_repr _ _, rfl, ?_⟩
  rw [hex_value_hex_repr]
  have hp : 0 < 16 ^ total.length := Nat.pow_pos (by decide)
  constructor
  · intro hm
    have hlt := Nat.mod_lt (hex_value total + hex_value addend * 16 ^ offset) hp
    rw [hm] at hlt
    exact_mod_cast Nat.div_eq_of_lt hlt
  · intro hd
    have hd0 : (hex_value total + hex_value addend * 16 ^ offset) / 16 ^ total.length = 0 := by
      exact_mod_cast hd
    exact Nat.mod_eq_of_lt ((Nat.div_eq_zero_iff hp).mp hd0)

/-- C17 (amended) at total `"F"`, addend `"1"`, offset 0: one digit `"0"`, carry 1. -/
theorem C17_add_truncates_witness :
    (IsHexString ['F'] ∧ IsHexString ['1'] ∧ ['1'].length + 0 ≤ ['F'].length) ∧
    ((add_hex_numbers ['F'] ['1'] ((0 : Nat) : Int)).length = ['F'].length ∧
      (add_hex_numbers ['F'] ['1'] ((0 : Nat) : Int)).length ≤ out_hex_size ['F'] ['1'] ∧
      hex_value (add_hex_numbers ['F'] ['1'] ((0 : Nat) : Int)) =
        (hex_value ['F'] + hex_value ['1'] * 16 ^ 0) % 16 ^ ['F'].length ∧
      add_hex_numbers_overflow ['F'] ['1'] ((0 : Nat) : Int) =
        (((hex_value ['F'] + hex_value ['1'] * 16 ^ 0) / 16 ^ ['F'].length : Nat) : Int) ∧
      (hex_value (add_hex_numbers ['F'] ['1'] ((0 : Nat) : Int)) =
          hex_value ['F'] + hex_value ['1'] * 16 ^ 0 ↔
        add_hex_numbers_overflow ['F'] ['1'] ((0 : Nat) : Int) = 0)) :=
  ⟨by decide, C17_add_truncates ['F'] ['1'] 0 (by decide) (by decide) (Or.inr (by decide))⟩

theorem hex_repr_zero (w : Nat) : hex_repr w 0 = List.replicate w '0' := by
  simp [hex_repr, digits_le_zero]

theorem shifted_lt (y : List Char) (off len : Nat) (hy : IsHexString y)
    (hl : y.length ≤ len) (ho : off ≤ len) : 16 ^ off * hex_value y < 16 ^ (2 * len) := by
  have h1 : hex_value y < 16 ^ len :=
    lt_of_lt_of_le (hex_value_lt y hy) (Nat.pow_le_pow_right (by decide) hl)
  have h2 : 16 ^ off ≤ 16 ^ len := Nat.pow_le_pow_right (by decide) ho
  rw [two_mul, pow_add]
  exact Nat.mul_lt_mul_of_le_of_lt h2 h1 (Nat.pow_pos (by decide))

theorem wide_enough (len : Nat) : 16 * 16 ^ (2 * len) ≤ 16 ^ (4 * len + 1) := by
  have h : 16 * 16 ^ (2 * len) = 16 ^ (2 * len + 1) := by rw [pow_succ]; ring
  rw [h]
  exact Nat.pow_le_pow_right (by decide) (by omega)

/-- One addition into an accumulator that holds the `w`-digit representation of `n`: when the
addend fits and the sum stays below `16 ^ w`, the loop ends with carry 0 and the accumulator
holds the `w`-digit representation of the sum. -/
theorem add_step_no_overflow (w n : Nat) (y : List Char) (offset : Nat) (hy : IsHexString y)
    (hfit : y.length + offset ≤ w) (hlt : n + 16 ^ offset * hex_value y < 16 ^ w) :
    add_hex_numbers_overflow (hex_repr w n) y (offset : Int) = 0 ∧
      add_hex_numbers (hex_repr w n) y (offset : Int) =
        hex_repr w (n + 16 ^ offset * hex_value y) := by
  refine ⟨?_, add_hex_numbers_hex_repr w n y offset hy hfit⟩
  have hn : n < 16 ^ w := lt_of_le_of_lt (Nat.le_add_right _ _) hlt
  rw [add_hex_numbers_overflow_eq _ _ _ (hex_repr_mem w n) hy,
    add_width_of_fits _ _ _ (by rw [hex_repr_length]; exact hfit), hex_repr_length,
    hex_value_hex_repr, Nat.mod_eq_of_lt hn, Nat.div_eq_of_lt hlt]
  rfl

/-- C18: for operands of length `L = 2 ^ k >= 2` and four partial products that are hex
strings of at most `L` digits, each of the four `add_hex_numbers` calls of `mult_values`
(offsets 0, `L / 2`, `L / 2`, `2 * (L / 2) = L`, on an accumulator of `4 * L + 1` characters
`'0'`) ends its loop with carry 0 and leaves an accumulator of exactly `4 * L + 1`
characters. -/
theorem C18_no_accumulator_overflow (k len : Nat) (hh hl lh ll : List Char) (hk : 1 ≤ k)
    (hlen : len = 2 ^ k)
    (h1 : IsHexString hh) (h2 : IsHexString hl) (h3 : IsHexString lh) (h4 : IsHexString ll)
    (l1 : hh.length ≤ len) (l2 : hl.length ≤ len) (l3 : lh.length ≤ len)
    (l4 : ll.length ≤ len) :
    2 * (len / 2) = len ∧
    add_hex_numbers_overflow (List.replicate (4 * len + 1) '0') ll ((0 : Nat) : Int) = 0 ∧
    (add_hex_numbers (List.replicate (4 * len + 1) '0') ll ((0 : Nat) : Int)).length =
      4 * len + 1 ∧
    add_hex_numbers_overflow
      (add_hex_numbers (List.replicate (4 * len + 1) '0') ll ((0 : Nat) : Int))
      hl ((len / 2 : Nat) : Int) = 0 ∧
    (add_hex_numbers
      (add_hex_numbers (List.replicate (4 * len + 1) '0') ll ((0 : Nat) : Int))
      hl ((len / 2 : Nat) : Int)).length = 4 * len + 1 ∧
    add_hex_numbers_overflow
      (add_hex_numbers
        (add_hex_numbers (List.replicate (4 * len + 1) '0') ll ((0 : Nat) : Int))
        hl ((len / 2 : Nat) : Int))
      lh ((len / 2 : Nat) : Int) = 0 ∧
    (add_hex_numbers
      (add_hex_numbers
        (add_hex_numbers (List.replicate (4 * len + 1) '0') ll ((0 : Nat) : Int))
        hl ((len / 2 : Nat) : Int))
      lh ((len / 2 : Nat) : Int)).length = 4 * len + 1 ∧
    add_hex_numbers_overflow
      (add_hex_numbers
        (add_hex_numbers
          (add_hex_numbers (List.replicate (4 * len + 1) '0') ll ((0 : Nat) : Int))
          hl ((len / 2 : Nat) : Int))
        lh ((len / 2 : Nat) : Int))
      hh ((2 * (len / 2) : Nat) : Int) = 0 ∧
    (add_hex_numbers
      (add_hex_numbers
        (add_hex_numbers
          (add_hex_numbers (List.replicate (4 * len + 1) '0') ll ((0 : Nat) : Int))
          hl ((len / 2 : Nat) : Int))
        lh ((len / 2 : Nat) : Int))
      hh ((2 * (len / 2) : Nat) : Int)).length = 4 * len + 1 := by
  have heven : 2 * (len / 2) = len := by
    obtain ⟨j, rfl⟩ : ∃ j, k = j + 1 := ⟨k - 1, by omega⟩
    rw [hlen, pow_succ]; omega
  have hd : len / 2 ≤ len := Nat.div_le_self _ _
  have hd2 : 2 * (len / 2) ≤ len := Nat.mul_div_le len 2
  have b1 := shifted_lt ll 0 len h4 l4 (Nat.zero_le _)
  have b2 := shifted_lt hl (len / 2) len h2 l2 hd
  have b3 := shifted_lt lh (len / 2) len h3 l3 hd
  have b4 := shifted_lt hh (2 * (len / 2)) len h1 l1 hd2
  have bw := wide_enough len
  have s1 := add_step_no_overflow (4 * len + 1) 0 ll 0 h4 (by omega) (by omega)
  have s2 := add_step_no_overflow (4 * len + 1) _ hl (len / 2) h2 (by omega)
    (show 0 + 16 ^ 0 * hex_value ll + 16 ^ (len / 2) * hex_value hl < _ by omega)
  have s3 := add_step_no_overflow (4 * len + 1) _ lh (len / 2) h3 (by omega)
    (show 0 + 16 ^ 0 * hex_value ll + 16 ^ (len / 2) * hex_value hl +
      16 ^ (len / 2) * hex_value lh < _ by omega)
  have s4 := add_step_no_overflow (4 * len + 1) _ hh (2 * (len / 2)) h1 (by omega)
    (show 0 + 16 ^ 0 * hex_value ll + 16 ^ (len / 2) * hex_value hl +
      16 ^ (len / 2) * hex_value lh + 16 ^ (2 * (len / 2)) * hex_value hh < _ by omega)
  rw [hex_repr_zero] at s1
  rw [s1.2]
  refine ⟨heven, s1.1, hex_repr_length _ _, s2.1, ?_⟩
  rw [s2.2]
  refine ⟨hex_repr_length _ _, s3.1, ?_⟩
  rw [s3.2]
  refine ⟨hex_repr_length _ _, s4.1, ?_⟩
  rw [s4.2]
  exact hex_repr_length _ _

/-- C18 at `L = 2` with the four partial products `"E1"` of `"FF" x "FF"`. -/
theorem C18_no_accumulator_overflow_witness :
    (1 ≤ 1 ∧ 2 = 2 ^ 1 ∧ IsHexString ['E', '1'] ∧ ['E', '1'].length ≤ 2) ∧
    add_hex_numbers_overflow
      (add_hex_numbers
        (add_hex_numbers
          (add_hex_numbers (List.replicate (4 * 2 + 1) '0') ['E', '1'] ((0 : Nat) : Int))
          ['E', '1'] ((2 / 2 : Nat) : Int))
        ['E', '1'] ((2 / 2 : Nat) : Int))
      ['E', '1'] ((2 * (2 / 2) : Nat) : Int) = 0 ∧
    (add_hex_numbers
      (add_hex_numbers
        (add_hex_numbers
          (add_hex_numbers (List.replicate (4 * 2 + 1) '0') ['E', '1'] ((0 : Nat) : Int))
          ['E', '1'] ((2 / 2 : Nat) : Int))
        ['E', '1'] ((2 / 2 : Nat) : Int))
      ['E', '1'] ((2 * (2 / 2) : Nat) : Int)).length = 4 * 2 + 1 :=
  ⟨by decide,
    (C18_no_accumulator_overflow 1 2 ['E', '1'] ['E', '1'] ['E', '1'] ['E', '1'] (by decide)
      (by decide) (by decide) (by decide) (by decide) (by decide) (by decide) (by decide)
      (by decide) (by decide)).2.2.2.2.2.2.2⟩

/-! ## Split and combine -/

theorem mult_values_unfold (env : Env) (fuel : Nat) (a b : List Char) (h : a.length ≠ 1) :
    mult_values env (fuel + 1) a b =
      combine_results env a.length
        (run_main (mult_values env fuel)
          (child_input (high_half (a.length / 2) a) (high_half (a.length / 2) b)))
        (run_main (mult_values env fuel)
          (child_input (high_half (a.length / 2) a) (low_half (a.length / 2) b)))
        (run_main (mult_values env fuel)
          (child_input (low_half (a.length / 2) a) (high_half (a.length / 2) b)))
        (run_main (mult_values env fuel)
          (child_input (low_half (a.length / 2) a) (low_half (a.length / 2) b))) := by
  simp only [mult_values, h, if_false, high_half, low_half]

theorem halves_of_even (s : List Char) (len : Nat) (he : len % 2 = 0) (hs : s.length = len) :
    high_half (len / 2) s ++ low_half (len / 2) s = s ∧
      (high_half (len / 2) s).length = len / 2 ∧ (low_half (len / 2) s).length = len / 2 ∧
      low_half (len / 2) s = s.drop (len / 2) := by
  have hd : (s.drop (len / 2)).length = len / 2 := by
    rw [List.length_drop, hs]; omega
  have hl : low_half (len / 2) s = s.drop (len / 2) := by
    unfold low_half
    exact List.take_of_length_le (by omega)
  refine ⟨?_, ?_, ?_, hl⟩
  · rw [hl]; exact List.take_append_drop _ _
  · unfold high_half
    rw [List.length_take, hs]; omega
  · rw [hl, hd]

/-- C19: for operands `a`, `b` of even length `L`, `mult_values` hands the pairs `(ah, bh)`,
`(ah, bl)`, `(al, bh)`, `(al, bl)` to its four children, where `ah` is the first and `al` the
last `L / 2` characters of `a` (likewise for `b`): `ah ++ al = a`, `bh ++ bl = b`,
`value a = value ah * 16 ^ (L / 2) + value al`, and all four halves have length `L / 2`. -/
theorem C19_split (env : Env) (fuel len : Nat) (a b : List Char) (he : len % 2 = 0)
    (la : a.length = len) (lb : b.length = len) :
    mult_values env (fuel + 1) a b =
        combine_results env len
          (run_main (mult_values env fuel)
            (child_input (high_half (len / 2) a) (high_half (len / 2) b)))
          (run_main (mult_values env fuel)
            (child_input (high_half (len / 2) a) (low_half (len / 2) b)))
          (run_main (mult_values env fuel)
            (child_input (low_half (len / 2) a) (high_half (len / 2) b)))
          (run_main (mult_values env fuel)
            (child_input (low_half (len / 2) a) (low_half (len / 2) b))) ∧
      high_half (len / 2) a = a.take (len / 2) ∧ low_half (len / 2) a = a.drop (len / 2) ∧
      high_half (len / 2) b = b.take (len / 2) ∧ low_half (len / 2) b = b.drop (len / 2) ∧
      high_half (len / 2) a ++ low_half (len / 2) a = a ∧
      high_half (len / 2) b ++ low_half (len / 2) b = b ∧
      hex_value a =
        hex_value (high_half (len / 2) a) * 16 ^ (len / 2) + hex_value (low_half (len / 2) a) ∧
      hex_value b =
        hex_value (high_half (len / 2) b) * 16 ^ (len / 2) + hex_value (low_half (len / 2) b) ∧
      (high_half (len / 2) a).length = len / 2 ∧ (low_half (len / 2) a).length = len / 2 ∧
      (high_half (len / 2) b).length = len / 2 ∧ (low_half (len / 2) b).length = len / 2 := by
  have h1 : a.length ≠ 1 := by omega
  obtain ⟨a1, a2, a3, a4⟩ := halves_of_even a len he la
  obtain ⟨b1, b2, b3, b4⟩ := halves_of_even b len he lb
  have hu := mult_values_unfold env fuel a b h1
  rw [la] at hu
  have va : hex_value a =
      hex_value (high_half (len / 2) a) * 16 ^ (len / 2) + hex_value (low_half (len / 2) a) := by
    conv_lhs => rw [← a1]
    rw [hex_value_append, a3]
  have vb : hex_value b =
      hex_value (high_half (len / 2) b) * 16 ^ (len / 2) + hex_value (low_half (len / 2) b) := by
    conv_lhs => rw [← b1]
    rw [hex_value_append, b3]
  exact ⟨hu, rfl, a4, rfl, b4, a1, b1, va, vb, a2, a3, b2, b3⟩

/-- C19 at `a = "12AB"`, `b = "00ff"`: the halves are `"12"`, `"AB"`, `"00"`, `"ff"`. -/
theorem C19_split_witness :
    high_half (4 / 2) ['1', '2', 'A', 'B'] = ['1', '2'] ∧
    low_half (4 / 2) ['1', '2', 'A', 'B'] = ['A', 'B'] ∧
    (4 % 2 = 0 ∧ ['1', '2', 'A', 'B'].length = 4 ∧ ['0', '0', 'f', 'f'].length = 4) ∧
    high_half (4 / 2) ['1', '2', 'A', 'B'] ++ low_half (4 / 2) ['1', '2', 'A', 'B'] =
      ['1', '2', 'A', 'B'] ∧
    hex_value ['1', '2', 'A', 'B'] =
      hex_value (high_half (4 / 2) ['1', '2', 'A', 'B']) * 16 ^ (4 / 2) +
        hex_value (low_half (4 / 2) ['1', '2', 'A', 'B']) :=
  ⟨by decide, by decide, by decide,
    (C19_split env0 0 4 ['1', '2', 'A', 'B'] ['0', '0', 'f', 'f'] (by decide) (by decide)
      (by decide)).2.2.2.2.2.1,
    (C19_split env0 0 4 ['1', '2', 'A', 'B'] ['0', '0', 'f', 'f'] (by decide) (by decide)
      (by decide)).2.2.2.2.2.2.2.1⟩

/-- C20: for operands of even length `L` whose four children return the hex-digit strings
`hh`, `hl`, `lh`, `ll` (at most `L` characters each, possibly empty) for the pairs `(ah, bh)`,
`(ah, bl)`, `(al, bh)`, `(al, bl)`, `mult_values` prints a line whose text has the value
`value ll + (value hl + value lh) * 16 ^ (L / 2) + value hh * 16 ^ L`. -/
theorem C20_combining (env : Env) (fuel len : Nat) (a b hh hl lh ll : List Char)
    (he : len % 2 = 0) (la : a.length = len)
    (h1 : IsHexString hh) (h2 : IsHexString hl) (h3 : IsHexString lh) (h4 : IsHexString ll)
    (l1 : hh.length ≤ len) (l2 : hl.length ≤ len) (l3 : lh.length ≤ len)
    (l4 : ll.length ≤ len)
    (c1 : run_main (mult_values env fuel)
      (child_input (high_half (len / 2) a) (high_half (len / 2) b)) = .success (hh ++ ['\n']))
    (c2 : run_main (mult_values env fuel)
      (child_input (high_half (len / 2) a) (low_half (len / 2) b)) = .success (hl ++ ['\n']))
    (c3 : run_main (mult_values env fuel)
      (child_input (low_half (len / 2) a) (high_half (len / 2) b)) = .success (lh ++ ['\n']))
    (c4 : run_main (mult_values env fuel)
      (child_input (low_half (len / 2) a) (low_half (len / 2) b)) = .success (ll ++ ['\n'])) :
    ∃ r, mult_values env (fuel + 1) a b = .success (r ++ ['\n']) ∧
      hex_value r =
        hex_value ll + (hex_value hl + hex_value lh) * 16 ^ (len / 2) + hex_value hh * 16 ^ len := by
  have hne : a.length ≠ 1 := by omega
  have heven : 2 * (len / 2) = len := by omega
  have hd : len / 2 ≤ len := Nat.div_le_self _ _
  have b1 := shifted_lt ll 0 len h4 l4 (Nat.zero_le _)
  have b2 := shifted_lt hl (len / 2) len h2 l2 hd
  have b3 := shifted_lt lh (len / 2) len h3 l3 hd
  have b4 := shifted_lt hh (2 * (len / 2)) len h1 l1 (by omega)
  have bw := wide_enough len
  have hu := mult_values_unfold env fuel a b hne
  rw [la, c1, c2, c3, c4, combine_results_eq env len hh hl lh ll h1 h2 h3 h4 (by omega)
    (by omega) (by omega) (by omega)] at hu
  refine ⟨_, hu, ?_⟩
  rw [remove_zeros_value, hex_value_hex_repr, Nat.mod_eq_of_lt (by simp only [pow_zero, Nat.one_mul] at b1; omega),
    heven]
  ring

/-- C20 at `a = b = "FF"`: the four children return `"E1"` and the line printed has the value
`0xE1 + (0xE1 + 0xE1) * 16 + 0xE1 * 16 ^ 2`. -/
theorem C20_combining_witness :
    mult_values env0 (1 + 1) ['F', 'F'] ['F', 'F'] = .success ['F', 'E', '0', '1', '\n'] ∧
    (2 % 2 = 0 ∧ ['F', 'F'].length = 2 ∧ IsHexString ['E', '1'] ∧ ['E', '1'].length ≤ 2) ∧
    ∃ r, mult_values env0 (1 + 1) ['F', 'F'] ['F', 'F'] = .success (r ++ ['\n']) ∧
      hex_value r =
        hex_value ['E', '1'] + (hex_value ['E', '1'] + hex_value ['E', '1']) * 16 ^ (2 / 2) +
          hex_value ['E', '1'] * 16 ^ 2 :=
  ⟨by decide, by decide,
    C20_combining env0 1 2 ['F', 'F'] ['F', 'F'] ['E', '1'] ['E', '1'] ['E', '1'] ['E', '1']
      (by decide) (by decide) (by decide) (by decide) (by decide) (by decide) (by decide)
      (by decide) (by decide) (by decide) (by decide) (by decide) (by decide) (by decide)⟩

/-! ## Digits there and back -/

/-- C22: for `v` in 0..15 `int_to_hex_char v` is the upper-case hex digit of `v` and
`hex_char_to_int` maps it back to `v`; for a hex character `c`,
`int_to_hex_char (hex_char_to_int c)` is `c` in upper case. -/
theorem C22_digit_roundtrip (v : Int) (c : Char) (h0 : 0 ≤ v) (h1 : v ≤ 15)
    (hc : c ∈ hexAlphabet) :
    int_to_hex_char v = upper_digit v.toNat ∧ int_to_hex_char v ∈ upperAlphabet ∧
      hex_char_to_int (int_to_hex_char v) = v ∧
      int_to_hex_char (hex_char_to_int c) = c.toUpper := by
  have hv : ∀ n : Nat, n < 16 → int_to_hex_char (n : Int) = upper_digit n ∧
      int_to_hex_char (n : Int) ∈ upperAlphabet ∧
      hex_char_to_int (int_to_hex_char (n : Int)) = (n : Int) := by
    intro n hn
    interval_cases n <;> decide
  have hch : int_to_hex_char (hex_char_to_int c) = c.toUpper := by
    simp only [hexAlphabet, List.mem_cons, List.mem_singleton, List.not_mem_nil, or_false] at hc
    rcases hc with h | h | h | h | h | h | h | h | h | h | h | h | h | h | h | h | h | h | h | h | h | h <;>
      subst h <;> decide
  obtain ⟨n, rfl⟩ := Int.eq_ofNat_of_zero_le h0
  have hn : n < 16 := by omega
  obtain ⟨a1, a2, a3⟩ := hv n hn
  exact ⟨by simpa using a1, a2, a3, hch⟩

/-- C22 at `v = 11` and `c = 'b'`: the digit is `'B'`. -/
theorem C22_digit_roundtrip_witness :
    int_to_hex_char 11 = 'B' ∧ ((0 : Int) ≤ 11 ∧ (11 : Int) ≤ 15 ∧ 'b' ∈ hexAlphabet) ∧
    (int_to_hex_char 11 = upper_digit (11 : Int).toNat ∧ int_to_hex_char 11 ∈ upperAlphabet ∧
      hex_char_to_int (int_to_hex_char 11) = 11 ∧
      int_to_hex_char (hex_char_to_int 'b') = 'b'.toUpper) :=
  ⟨by decide, by decide, C22_digit_roundtrip 11 'b' (by decide) (by decide) (by decide)⟩

/-! ## Length and alphabet of the result, letter case of the operands -/

theorem upper_digit_mem_upper {n : Nat} (h : n < 16) : upper_digit n ∈ upperAlphabet := by
  interval_cases n <;> decide

theorem hex_repr_upper (w n : Nat) : ∀ c ∈ hex_repr w n, c ∈ upperAlphabet := by
  intro c hc
  have hc1 : c ∈ digits_le w n := List.mem_reverse.mp hc
  clear hc
  induction w generalizing n with
  | zero => simp [digits_le] at hc1
  | succ w ih =>
    simp only [digits_le, List.mem_cons] at hc1
    rcases hc1 with rfl | h
    · exact upper_digit_mem_upper (Nat.mod_lt _ (by decide))
    · exact ih _ h

theorem digit_product_text_upper (p : Nat) (h : p ≤ 225) :
    ∀ c ∈ digit_product_text p, c ∈ upperAlphabet := by
  interval_cases p <;> decide

theorem product_text_upper (k n : Nat) (h0 : k = 0 → n ≤ 225) :
    ∀ c ∈ product_text k n, c ∈ upperAlphabet := by
  by_cases hk : k = 0
  · subst hk
    have e : product_text 0 n = digit_product_text n := by
      simp only [product_text, if_true]
      exact printf_X_small n (h0 rfl)
    rw [e]
    exact digit_product_text_upper n (h0 rfl)
  · intro c hc
    have e : product_text k n = remove_zeros (hex_repr (4 * 2 ^ k + 1) n) := by
      simp only [product_text, hk, if_false]
    rw [e] at hc
    exact hex_repr_upper _ _ c ((List.dropWhile_sublist _).subset hc)

/-- C24: for hex-digit operands of length `L = 2 ^ k` the line printed has at most `2 * L`
characters, each of them one of `0-9`, `A-F`; so the partial product a child returns for
operands of length `2 ^ k` has at most `2 ^ (k + 1)` digits, the length of its parent's
operands. -/
theorem C24_result_length (env : Env) (k fuel : Nat) (a b : List Char) (hf : k < fuel)
    (la : a.length = 2 ^ k) (lb : b.length = 2 ^ k) (ha : IsHexString a) (hb : IsHexString b) :
    ∃ r, mult_values env fuel a b = .success (r ++ ['\n']) ∧ r.length ≤ 2 * a.length ∧
      r.length ≤ 2 ^ (k + 1) ∧ ∀ c ∈ r, c ∈ upperAlphabet := by
  have hp := product_bound k a b ha hb la lb
  have hs := product_text_spec k _ hp.1 hp.2
  refine ⟨_, mult_values_eq env k fuel a b hf la lb ha hb, ?_, ?_, product_text_upper k _ hp.2⟩
  · rw [la]; exact hs.2.2.1
  · rw [pow_succ, Nat.mul_comm (2 ^ k) 2]; exact hs.2.2.1

/-- C24 at `"FF" x "FF"`: the line `FE01` has 4 characters. -/
theorem C24_result_length_witness :
    (1 < 2 ∧ ['F', 'F'].length = 2 ^ 1 ∧ IsHexString ['F', 'F']) ∧
    ∃ r, mult_values env0 2 ['F', 'F'] ['F', 'F'] = .success (r ++ ['\n']) ∧
      r.length ≤ 2 * ['F', 'F'].length ∧ r.length ≤ 2 ^ (1 + 1) ∧ ∀ c ∈ r, c ∈ upperAlphabet :=
  ⟨by decide,
    C24_result_length env0 1 2 ['F', 'F'] ['F', 'F'] (by decide) (by decide) (by decide)
      (by decide) (by decide)⟩

theorem toUpper_hex {c : Char} (h : c ∈ hexAlphabet) :
    c.toUpper ∈ hexAlphabet ∧ hex_digit_value c.toUpper = hex_digit_value c := by
  simp only [hexAlphabet, List.mem_cons, List.mem_singleton, List.not_mem_nil, or_false] at h
  rcases h with h | h | h | h | h | h | h | h | h | h | h | h | h | h | h | h | h | h | h | h | h | h <;>
    subst h <;> decide

theorem map_toUpper_hex (s : List Char) (h : IsHexString s) :
    IsHexString (s.map Char.toUpper) ∧ hex_value (s.map Char.toUpper) = hex_value s := by
  induction s with
  | nil => exact ⟨fun c hc => by simp at hc, rfl⟩
  | cons c t ih =>
    have hc := toUpper_hex (h c (List.mem_cons_self _ _))
    obtain ⟨i1, i2⟩ := ih (fun d hd => h d (List.mem_cons_of_mem _ hd))
    constructor
    · intro d hd
      simp only [List.map_cons, List.mem_cons] at hd
      rcases hd with rfl | hd
      · exact hc.1
      · exact i1 d hd
    · rw [List.map_cons, hex_value_cons, hex_value_cons, hc.2, i2, List.length_map]

/-- C25: for hex-digit operands `a`, `b` of length `2 ^ k` the multiplier prints the same line
for `(a, b)` as for the two operands in upper case. -/
theorem C25_case_insensitive (env : Env) (k fuel : Nat) (a b : List Char) (hf : k < fuel)
    (la : a.length = 2 ^ k) (lb : b.length = 2 ^ k) (ha : IsHexString a) (hb : IsHexString b) :
    ∃ out, mult_values env fuel a b = .success out ∧
      mult_values env fuel (a.map Char.toUpper) (b.map Char.toUpper) = .success out := by
  obtain ⟨ua, va⟩ := map_toUpper_hex a ha
  obtain ⟨ub, vb⟩ := map_toUpper_hex b hb
  refine ⟨_, mult_values_eq env k fuel a b hf la lb ha hb, ?_⟩
  rw [mult_values_eq env k fuel _ _ hf (by rw [List.length_map]; exact la)
    (by rw [List.length_map]; exact lb) ua ub, va, vb]

/-- C25 at `"ff" x "ff"`: the line is `FE01`, as for `"FF" x "FF"`. -/
theorem C25_case_insensitive_witness :
    mult_values env0 2 ['f', 'f'] ['f', 'f'] = .success ['F', 'E', '0', '1', '\n'] ∧
    ['f', 'f'].map Char.toUpper = ['F', 'F'] ∧
    (1 < 2 ∧ ['f', 'f'].length = 2 ^ 1 ∧ IsHexString ['f', 'f']) ∧
    ∃ out, mult_values env0 2 ['f', 'f'] ['f', 'f'] = .success out ∧
      mult_values env0 2 (['f', 'f'].map Char.toUpper) (['f', 'f'].map Char.toUpper) =
        .success out :=
  ⟨by decide, by decide, by decide,
    C25_case_insensitive env0 1 2 ['f', 'f'] ['f', 'f'] (by decide) (by decide) (by decide)
      (by decide) (by decide)⟩

/-! ## Termination, depth and number of leaves of the recursion -/

theorem run_count_child (count : List Char → List Char → Nat) (x y : List Char)
    (hx : IsHexString x) (hy : IsHexString y) (hl : x.length = y.length)
    (hb : ¬ bad_length x.length) :
    run_count count (child_input x y) = count x y := by
  have e : child_input x y = x ++ '\n' :: (y ++ '\n' :: []) := by simp [child_input]
  have nx : '\n' ∉ x := fun hmem => (mem_hexAlphabet_ne (hx _ hmem)).2 rfl
  have ny : '\n' ∉ y := fun hmem => (mem_hexAlphabet_ne (hy _ hmem)).2 rfl
  have zx : NUL ∉ x := fun hmem => (mem_hexAlphabet_ne (hx _ hmem)).1 rfl
  have zy : NUL ∉ y := fun hmem => (mem_hexAlphabet_ne (hy _ hmem)).1 rfl
  have hb2 : ¬ bad_length y.length := hl ▸ hb
  rw [run_count, e, handle_stdin_two_lines x y [] nx ny, cstr_eq_self zx, cstr_eq_self zy,
    if_neg hb, if_neg (not_not.mpr hl), if_neg hb2]

theorem halves_pow (k : Nat) (s : List Char) (ls : s.length = 2 ^ (k + 1))
    (hs : IsHexString s) :
    s.length ≠ 1 ∧ s.length / 2 = 2 ^ k ∧ (high_half (2 ^ k) s).length = 2 ^ k ∧
      (low_half (2 ^ k) s).length = 2 ^ k ∧ IsHexString (high_half (2 ^ k) s) ∧
      IsHexString (low_half (2 ^ k) s) ∧ ¬ bad_length (high_half (2 ^ k) s).length ∧
      ¬ bad_length (low_half (2 ^ k) s).length := by
  have hpos : 0 < 2 ^ k := Nat.pow_pos (by decide)
  have hhalf : s.length / 2 = 2 ^ k := by rw [ls, pow_succ]; omega
  have he : s.length % 2 = 0 := by rw [ls, pow_succ]; omega
  obtain ⟨_, h2, h3, h4⟩ := halves_of_even s s.length he rfl
  rw [hhalf] at h2 h3 h4
  refine ⟨by rw [ls, pow_succ]; omega, hhalf, h2, h3, ?_, ?_, ?_, ?_⟩
  · exact fun c hc => hs c (List.mem_of_mem_take hc)
  · rw [h4]; exact fun c hc => hs c (List.mem_of_mem_drop hc)
  · rw [h2]; exact not_bad_length_two_pow k
  · rw [h3]; exact not_bad_length_two_pow k

/-- With no more levels of processes allowed than `k`, the run on operands of length `2 ^ k`
does not come to an end: its tree of processes has more than `k` levels. -/
theorem mult_values_diverged (env : Env) : ∀ (k fuel : Nat) (a b : List Char), fuel ≤ k →
    a.length = 2 ^ k → b.length = 2 ^ k → IsHexString a → IsHexString b →
    mult_values env fuel a b = .diverged := by
  intro k
  induction k with
  | zero =>
    intro fuel a b hf _ _ _ _
    have : fuel = 0 := by omega
    subst this
    rfl
  | succ k ih =>
    intro fuel a b hf la lb ha hb
    cases fuel with
    | zero => rfl
    | succ f =>
      obtain ⟨a1, a2, a3, a4, a5, a6, a7, a8⟩ := halves_pow k a la ha
      obtain ⟨_, _, b3, b4, b5, b6, _, _⟩ := halves_pow k b lb hb
      rw [mult_values_unfold env f a b a1, a2,
        run_main_child _ _ _ a5 b5 (a3.trans b3.symm) a7,
        ih f _ _ (by omega) a3 b3 a5 b5]
      simp [combine_results]

theorem base_case_count_eq : ∀ (k fuel : Nat) (a b : List Char), k < fuel →
    a.length = 2 ^ k → b.length = 2 ^ k → IsHexString a → IsHexString b →
    base_case_count fuel a b = 4 ^ k := by
  intro k
  induction k with
  | zero =>
    intro fuel a b hf la _ _ _
    obtain ⟨f, rfl⟩ : ∃ f, fuel = f + 1 := ⟨fuel - 1, by omega⟩
    simp [base_case_count, la]
  | succ k ih =>
    intro fuel a b hf la lb ha hb
    obtain ⟨f, rfl⟩ : ∃ f, fuel = f + 1 := ⟨fuel - 1, by omega⟩
    obtain ⟨a1, a2, a3, a4, a5, a6, a7, a8⟩ := halves_pow k a la ha
    obtain ⟨_, _, b3, b4, b5, b6, _, _⟩ := halves_pow k b lb hb
    have hkf : k < f := by omega
    simp only [base_case_count, a1, if_false, a2]
    rw [run_count_child _ _ _ a5 b5 (a3.trans b3.symm) a7,
      run_count_child _ _ _ a5 b6 (a3.trans b4.symm) a7,
      run_count_child _ _ _ a6 b5 (a4.trans b3.symm) a8,
      run_count_child _ _ _ a6 b6 (a4.trans b4.symm) a8,
      ih f _ _ hkf a3 b3 a5 b5, ih f _ _ hkf a3 b4 a5 b6, ih f _ _ hkf a4 b3 a6 b5,
      ih f _ _ hkf a4 b4 a6 b6, pow_succ]
    omega

theorem recursion_depth_eq : ∀ (k fuel : Nat) (a b : List Char), k < fuel →
    a.length = 2 ^ k → b.length = 2 ^ k → IsHexString a → IsHexString b →
    recursion_depth fuel a b = k := by
  intro k
  induction k with
  | zero =>
    intro fuel a b hf la _ _ _
    obtain ⟨f, rfl⟩ : ∃ f, fuel = f + 1 := ⟨fuel - 1, by omega⟩
    simp [recursion_depth, la]
  | succ k ih =>
    intro fuel a b hf la lb ha hb
    obtain ⟨f, rfl⟩ : ∃ f, fuel = f + 1 := ⟨fuel - 1, by omega⟩
    obtain ⟨a1, a2, a3, a4, a5, a6, a7, a8⟩ := halves_pow k a la ha
    obtain ⟨_, _, b3, b4, b5, b6, _, _⟩ := halves_pow k b lb hb
    have hkf : k < f := by omega
    simp only [recursion_depth, a1, if_false, a2]
    rw [run_count_child _ _ _ a5 b5 (a3.trans b3.symm) a7,
      run_count_child _ _ _ a5 b6 (a3.trans b4.symm) a7,
      run_count_child _ _ _ a6 b5 (a4.trans b3.symm) a8,
      run_count_child _ _ _ a6 b6 (a4.trans b4.symm) a8,
      ih f _ _ hkf a3 b3 a5 b5, ih f _ _ hkf a3 b4 a5 b6, ih f _ _ hkf a4 b3 a6 b5,
      ih f _ _ hkf a4 b4 a6 b6]
    simp
    omega

/-- C21: on hex-digit operands of length `L = 2 ^ k` the recursion of `mult_values` ends: with
more levels of processes allowed than `k` a line is printed, with `k` levels or fewer the run
is not over, the depth of the recursion is `k` and `4 ^ k` processes multiply two single
digits; for `L >= 2` each child works on operands of length `L / 2 < L`. -/
theorem C21_recursion_terminates (env : Env) (k fuel : Nat) (a b : List Char)
    (la : a.length = 2 ^ k) (lb : b.length = 2 ^ k) (ha : IsHexString a) (hb : IsHexString b) :
    (k < fuel → ∃ r, mult_values env fuel a b = .success (r ++ ['\n'])) ∧
      (fuel ≤ k → mult_values env fuel a b = .diverged) ∧
      (k < fuel → recursion_depth fuel a b = k ∧ base_case_count fuel a b = 4 ^ k) ∧
      (1 ≤ k → (high_half (a.length / 2) a).length = a.length / 2 ∧
        (low_half (a.length / 2) a).length = a.length / 2 ∧
        (high_half (a.length / 2) b).length = a.length / 2 ∧
        (low_half (a.length / 2) b).length = a.length / 2 ∧ a.length / 2 < a.length) := by
  refine ⟨fun hf => ⟨_, mult_values_eq env k fuel a b hf la lb ha hb⟩,
    fun hf => mult_values_diverged env k fuel a b hf la lb ha hb,
    fun hf => ⟨recursion_depth_eq k fuel a b hf la lb ha hb,
      base_case_count_eq k fuel a b hf la lb ha hb⟩, ?_⟩
  intro hk
  obtain ⟨j, rfl⟩ : ∃ j, k = j + 1 := ⟨k - 1, by omega⟩
  obtain ⟨_, a2, a3, a4, _, _, _, _⟩ := halves_pow j a la ha
  obtain ⟨_, _, b3, b4, _, _, _, _⟩ := halves_pow j b lb hb
  have hpos : 0 < 2 ^ j := Nat.pow_pos (by decide)
  rw [a2]
  refine ⟨a3, a4, b3, b4, ?_⟩
  rw [la, pow_succ]; omega

/-- C21 at `"12AB" x "00ff"` (`k = 2`): depth 2, 16 single-digit multiplications, not over with
two levels of processes. -/
theorem C21_recursion_terminates_witness :
    recursion_depth 3 ['1', '2', 'A', 'B'] ['0', '0', 'f', 'f'] = 2 ∧
    base_case_count 3 ['1', '2', 'A', 'B'] ['0', '0', 'f', 'f'] = 16 ∧
    (['1', '2', 'A', 'B'].length = 2 ^ 2 ∧ ['0', '0', 'f', 'f'].length = 2 ^ 2 ∧
      IsHexString ['1', '2', 'A', 'B'] ∧ IsHexString ['0', '0', 'f', 'f']) ∧
    (2 < 3 → ∃ r, mult_values env0 3 ['1', '2', 'A', 'B'] ['0', '0', 'f', 'f'] =
      .success (r ++ ['\n'])) ∧
    ((2 : Nat) ≤ 2 → mult_values env0 2 ['1', '2', 'A', 'B'] ['0', '0', 'f', 'f'] = .diverged) :=
  ⟨by decide, by decide, by decide,
    (C21_recursion_terminates env0 2 3 ['1', '2', 'A', 'B'] ['0', '0', 'f', 'f'] (by decide)
      (by decide) (by decide) (by decide)).1,
    (C21_recursion_terminates env0 2 2 ['1', '2', 'A', 'B'] ['0', '0', 'f', 'f'] (by decide)
      (by decide) (by decide) (by decide)).2.1⟩

/-! ## The fan-in barrier -/

theorem parentInv_start : ParentInv ParentState.start := by
  simp [ParentInv, ParentState.start]

theorem step_wait (s : ParentState) (h : s.pc < 4) :
    step s .parent_call =
      if s.reaped < s.exited.length then some { s with pc := s.pc + 1, reaped := s.reaped + 1 }
      else none := by
  obtain ⟨pc, exited, reaped, rr, added⟩ := s
  simp only at h
  interval_cases pc <;> rfl

theorem step_read (s : ParentState) (c : Nat) (h : s.pc = 4 + c) (hc : c < 4) :
    step s .parent_call = some { s with pc := s.pc + 1, results_read := c :: s.results_read } := by
  obtain ⟨pc, exited, reaped, rr, added⟩ := s
  simp only at h
  subst h
  interval_cases c <;> rfl

theorem step_add (s : ParentState) (h : 8 ≤ s.pc) (h2 : s.pc < 12) :
    ∃ c, step s .parent_call = some { s with pc := s.pc + 1, added := c :: s.added } := by
  obtain ⟨pc, exited, reaped, rr, added⟩ := s
  simp only at h h2
  interval_cases pc <;> exact ⟨_, rfl⟩

theorem step_done (s : ParentState) (h : 12 ≤ s.pc) : step s .parent_call = none := by
  obtain ⟨pc, exited, reaped, rr, added⟩ := s
  simp only at h
  have hn : combining_calls[pc]? = none := by
    apply List.getElem?_eq_none
    simp only [combining_calls, List.length_cons, List.length_nil]
    omega
  simp only [step, hn]

theorem step_inv (s s1 : ParentState) (e : Event) (hinv : ParentInv s)
    (hs : step s e = some s1) : ParentInv s1 := by
  obtain ⟨i1, i2, i3, i4, i5, i5', i6, i7⟩ := hinv
  cases e with
  | child_exits c =>
    simp only [step] at hs
    split at hs
    · rename_i hc
      cases hs
      refine ⟨List.nodup_cons.mpr ⟨hc.2, i1⟩, ?_, ?_, i4, i5, i5', i6, i7⟩
      · intro d hd
        rcases List.mem_cons.mp hd with rfl | hd
        · exact hc.1
        · exact i2 d hd
      · simp only [List.length_cons]; omega
    · cases hs
  | parent_call =>
    by_cases h4 : s.pc < 4
    · rw [step_wait s h4] at hs
      split at hs
      · cases hs
        refine ⟨i1, i2, ?_, ?_, ?_, ?_, ?_, ?_⟩ <;> simp only
        · omega
        · omega
        · intro _; omega
        · intro _; omega
        · intro c _ hc2; omega
        · intro _; exact i7 (by omega)
      · cases hs
    · by_cases h8 : s.pc < 8
      · rw [step_read s (s.pc - 4) (by omega) (by omega)] at hs
        cases hs
        refine ⟨i1, i2, i3, ?_, ?_, ?_, ?_, ?_⟩ <;> simp only
        · omega
        · intro _; omega
        · intro _; omega
        · intro c hc1 hc2
          by_cases hc : c = s.pc - 4
          · rw [hc]; exact List.mem_cons_self _ _
          · exact List.mem_cons_of_mem _ (i6 c hc1 (by omega))
        · intro _; exact i7 (by omega)
      · by_cases h12 : s.pc < 12
        · obtain ⟨c, hc⟩ := step_add s (by omega) h12
          rw [hc] at hs
          cases hs
          refine ⟨i1, i2, i3, ?_, ?_, ?_, ?_, ?_⟩ <;> simp only
          · omega
          · intro _; omega
          · intro _; omega
          · intro c hc1 _; exact i6 c hc1 (by omega)
          · intro _; omega
        · rw [step_done s (by omega)] at hs
          cases hs

theorem run_events_inv (es : List Event) : ∀ (s s1 : ParentState), ParentInv s →
    run_events s es = some s1 → ParentInv s1 := by
  induction es with
  | nil =>
    intro s s1 hinv h
    simp only [run_events, Option.some.injEq] at h
    exact h ▸ hinv
  | cons e es ih =>
    intro s s1 hinv h
    simp only [run_events] at h
    cases hst : step s e with
    | none => rw [hst] at h; cases h
    | some s2 =>
      rw [hst] at h
      exact ih s2 s1 (step_inv s s2 e hinv hst) h

theorem all_workers_of_four (l : List Nat) (hn : l.Nodup) (hl : ∀ c ∈ l, c < 4)
    (h4 : 4 ≤ l.length) : ∀ c, c < 4 → c ∈ l := by
  have hsub : l.toFinset ⊆ Finset.range 4 := by
    intro c hc
    exact Finset.mem_range.mpr (hl c (List.mem_toFinset.mp hc))
  have hcard : (Finset.range 4).card ≤ l.toFinset.card := by
    rw [List.toFinset_card_of_nodup hn, Finset.card_range]
    exact h4
  have heq := Finset.eq_of_subset_of_card_le hsub hcard
  intro c hc
  have : c ∈ l.toFinset := by rw [heq]; exact Finset.mem_range.mpr hc
  exact List.mem_toFinset.mp this

/-- C23: in every execution of the parent and its four workers, whatever the order and the
moments in which the workers terminate, a state in which a result has been added with
`add_hex_numbers` is one in which all four workers have terminated and all four results have
been read. -/
theorem C23_fan_in_barrier (events : List Event) (s : ParentState)
    (hrun : run_events ParentState.start events = some s) (hadd : s.added ≠ []) :
    (∀ c, c < 4 → c ∈ s.exited) ∧ (∀ c, c < 4 → c ∈ s.results_read) ∧ s.reaped = 4 := by
  obtain ⟨i1, i2, i3, i4, i5, i5', i6, i7⟩ := run_events_inv events _ s parentInv_start hrun
  have hpc : 9 ≤ s.pc := by
    by_contra hlt
    exact hadd (i7 (by omega))
  have hr : s.reaped = 4 := i5' (by omega)
  exact ⟨all_workers_of_four s.exited i1 i2 (by omega), fun c hc => i6 c hc (by omega), hr⟩

/-- C23 on an execution in which the workers terminate in the order 2, 0, 3, 1, two of them
only after the parent has called `wait` twice: the first addition finds all four terminated
and read; the parent cannot get past a `wait` with no worker terminated. -/
theorem C23_fan_in_barrier_witness :
    run_events ParentState.start [.parent_call] = none ∧
    (run_events ParentState.start
        [.child_exits 2, .child_exits 0, .parent_call, .parent_call, .child_exits 3,
         .child_exits 1, .parent_call, .parent_call, .parent_call, .parent_call, .parent_call,
         .parent_call, .parent_call] = some ⟨9, [1, 3, 0, 2], 4, [3, 2, 1, 0], [3]⟩ ∧
      ([3] : List Nat) ≠ []) ∧
    ((∀ c, c < 4 → c ∈ [1, 3, 0, 2]) ∧ (∀ c, c < 4 → c ∈ [3, 2, 1, 0]) ∧ 4 = 4) :=
  ⟨by decide, by decide,
    C23_fan_in_barrier
      [.child_exits 2, .child_exits 0, .parent_call, .parent_call, .child_exits 3,
       .child_exits 1, .parent_call, .parent_call, .parent_call, .parent_call, .parent_call,
       .parent_call, .parent_call] ⟨9, [1, 3, 0, 2], 4, [3, 2, 1, 0], [3]⟩ (by decide)
      (by decide)⟩

end Intmul

namespace Arcset

/-! ## `insert_vertex` -/

theorem take_succ_set (l : List Int) (n : Nat) (v : Int) (h : n < l.length) :
    (l.set n v).take (n + 1) = l.take n ++ [v] := by
  induction l generalizing n with
  | nil => simp at h
  | cons a t ih =>
    cases n with
    | zero => simp
    | succ n =>
      have h1 : n < t.length := by simpa using h
      simp [ih n h1]

theorem graph_contains_vertex_iff (g : graph_t) (h : g.v_top ≤ g.vertices.length) (v : Int) :
    graph_contains_vertex g v = true ↔ v ∈ vertex_list g := by
  unfold graph_contains_vertex vertex_list
  rw [List.any_eq_true, List.mem_take_iff_getElem]
  constructor
  · rintro ⟨i, hi, he⟩
    have hi1 : i < g.v_top := List.mem_range.mp hi
    have hi2 : i < g.vertices.length := by omega
    refine ⟨i, by simp only [lt_min_iff]; exact ⟨hi1, hi2⟩, ?_⟩
    rw [List.getD_eq_getElem _ _ hi2] at he
    simpa using he
  · rintro ⟨i, hi, he⟩
    have hi' : i < g.v_top ∧ i < g.vertices.length := by simpa using hi
    refine ⟨i, List.mem_range.mpr hi'.1, ?_⟩
    rw [List.getD_eq_getElem _ _ hi'.2, he]
    simp

theorem insert_vertex_of_mem (g : graph_t) (h : g.v_top ≤ g.vertices.length) (v : Int)
    (hv : v ∈ vertex_list g) : insert_vertex g v = g := by
  unfold insert_vertex
  rw [(graph_contains_vertex_iff g h v).mpr hv]
  rfl

theorem insert_vertex_of_not_mem (g : graph_t) (h : g.v_top ≤ g.v_cap)
    (hl : g.vertices.length = g.v_cap) (v : Int) (hv : v ∉ vertex_list g) :
    vertex_list (insert_vertex g v) = vertex_list g ++ [v] ∧
      (insert_vertex g v).v_top ≤ (insert_vertex g v).v_cap ∧
      (insert_vertex g v).vertices.length = (insert_vertex g v).v_cap := by
  have hc : graph_contains_vertex g v = false := by
    rw [← Bool.not_eq_true]
    exact fun hh => hv ((graph_contains_vertex_iff g (by omega) v).mp hh)
  unfold insert_vertex
  rw [hc]
  by_cases hfull : g.v_top = g.v_cap
  · have hr : realloc g.vertices (g.v_cap + 10) = g.vertices ++ List.replicate 10 0 := by
      unfold realloc
      rw [List.take_of_length_le (by omega), hl]
      congr 2
      omega
    simp only [Bool.false_eq_true, if_false, hfull, if_true, hr, vertex_list]
    refine ⟨?_, by omega, by simp [hl]⟩
    rw [take_succ_set _ _ _ (by simp [hl]), List.take_append_of_le_length (by omega)]
  · simp only [Bool.false_eq_true, if_false, hfull, vertex_list]
    refine ⟨take_succ_set _ _ _ (by omega), by omega, by simp [hl]⟩

theorem first_occurrences_append (vs : List Int) (v : Int) :
    first_occurrences (vs ++ [v]) =
      if v ∈ vs then first_occurrences vs else first_occurrences vs ++ [v] := by
  unfold first_occurrences
  rw [List.reverse_append, List.reverse_singleton, List.singleton_append]
  by_cases h : v ∈ vs
  · rw [if_pos h, List.dedup_cons_of_mem (List.mem_reverse.mpr h)]
  · rw [if_neg h, List.dedup_cons_of_not_mem (fun hh => h (List.mem_reverse.mp hh))]
    simp

theorem mem_first_occurrences (vs : List Int) (x : Int) : x ∈ first_occurrences vs ↔ x ∈ vs := by
  simp [first_occurrences]

theorem insert_all_spec (vs : List Int) :
    (insert_all vs).v_top ≤ (insert_all vs).v_cap ∧
      (insert_all vs).vertices.length = (insert_all vs).v_cap ∧
      vertex_list (insert_all vs) = first_occurrences vs := by
  induction vs using List.reverseRecOn with
  | nil => exact ⟨Nat.le_refl _, rfl, rfl⟩
  | append_singleton vs v ih =>
    obtain ⟨i1, i2, i3⟩ := ih
    have e : insert_all (vs ++ [v]) = insert_vertex (insert_all vs) v := by
      simp [insert_all, List.foldl_append]
    rw [e, first_occurrences_append]
    by_cases h : v ∈ vs
    · have hv : v ∈ vertex_list (insert_all vs) := by
        rw [i3]; exact (mem_first_occurrences vs v).mpr h
      rw [insert_vertex_of_mem _ (by omega) v hv, if_pos h]
      exact ⟨i1, i2, i3⟩
    · have hv : v ∉ vertex_list (insert_all vs) := by
        rw [i3]; exact fun hh => h ((mem_first_occurrences vs v).mp hh)
      obtain ⟨j1, j2, j3⟩ := insert_vertex_of_not_mem _ i1 i2 v hv
      rw [if_neg h, j1, i3]
      exact ⟨j2, j3, rfl⟩

/-- C15: after any sequence `vs` of `insert_vertex` calls on the empty graph the first `v_top`
entries of `vertices` are pairwise distinct and are the distinct values of `vs` in the order
of their first occurrence; inserting a vertex that is among them leaves the graph as it is. -/
theorem C15_insert_vertex_no_duplicates (vs : List Int) (v : Int) :
    (vertex_list (insert_all vs)).length = (insert_all vs).v_top ∧
      (vertex_list (insert_all vs)).Nodup ∧
      vertex_list (insert_all vs) = first_occurrences vs ∧
      (∀ x, x ∈ vertex_list (insert_all vs) ↔ x ∈ vs) ∧
      (v ∈ vertex_list (insert_all vs) → insert_vertex (insert_all vs) v = insert_all vs) := by
  obtain ⟨i1, i2, i3⟩ := insert_all_spec vs
  refine ⟨?_, ?_, i3, ?_, ?_⟩
  · unfold vertex_list
    rw [List.length_take]; omega
  · rw [i3]
    exact List.nodup_reverse.mpr (List.nodup_dedup _)
  · intro x
    rw [i3]
    exact mem_first_occurrences vs x
  · exact insert_vertex_of_mem _ (by omega) v

/-- C15 at the calls 3, 5, 3, 7, 5: the vertex set is 3, 5, 7 and a further 5 changes
nothing. -/
theorem C15_insert_vertex_no_duplicates_witness :
    vertex_list (insert_all [3, 5, 3, 7, 5]) = [3, 5, 7] ∧
    insert_vertex (insert_all [3, 5, 3, 7, 5]) 5 = insert_all [3, 5, 3, 7, 5] ∧
    ((vertex_list (insert_all [3, 5, 3, 7, 5])).length = (insert_all [3, 5, 3, 7, 5]).v_top ∧
      (vertex_list (insert_all [3, 5, 3, 7, 5])).Nodup ∧
      vertex_list (insert_all [3, 5, 3, 7, 5]) = first_occurrences [3, 5, 3, 7, 5] ∧
      (∀ x, x ∈ vertex_list (insert_all [3, 5, 3, 7, 5]) ↔ x ∈ [3, 5, 3, 7, 5]) ∧
      (5 ∈ vertex_list (insert_all [3, 5, 3, 7, 5]) →
        insert_vertex (insert_all [3, 5, 3, 7, 5]) 5 = insert_all [3, 5, 3, 7, 5])) :=
  ⟨by decide, by decide, C15_insert_vertex_no_duplicates [3, 5, 3, 7, 5] 5⟩

/-! ## `insert_edge` -/

theorem flatten_pairs_append (es : List (Int × Int)) (p : Int × Int) :
    flatten_pairs (es ++ [p]) = flatten_pairs es ++ [p.1, p.2] := by
  induction es with
  | nil => rfl
  | cons q t ih => simp [flatten_pairs, ih]

theorem flatten_pairs_length (es : List (Int × Int)) :
    (flatten_pairs es).length = 2 * es.length := by
  induction es with
  | nil => rfl
  | cons q t ih => simp only [flatten_pairs, List.length_cons, ih]; omega

theorem pairs_of_flatten_pairs (es : List (Int × Int)) : pairs_of (flatten_pairs es) = es := by
  induction es with
  | nil => rfl
  | cons q t ih => simp [flatten_pairs, pairs_of, ih]

theorem take_two_set (l : List Int) (n : Nat) (u v : Int) (h : n + 1 < l.length) :
    ((l.set n u).set (n + 1) v).take (n + 1 + 1) = l.take n ++ [u, v] := by
  rw [take_succ_set _ _ _ (by rw [List.length_set]; exact h),
    take_succ_set _ _ _ (by omega)]
  simp

theorem realloc_full (block : List Int) (cap : Nat) (h : block.length = cap) :
    realloc block (cap + 10) = block ++ List.replicate 10 0 := by
  unfold realloc
  rw [List.take_of_length_le (by omega), h]
  congr 2
  omega

theorem grow_edges_spec (g : graph_t) (h1 : g.e_top % 2 = 0) (h2 : g.e_cap % 10 = 0)
    (h3 : g.e_top ≤ g.e_cap) (h4 : g.edges.length = g.e_cap) :
    (grow_edges g).e_top = g.e_top ∧ g.e_top + 1 < (grow_edges g).e_cap ∧
      (grow_edges g).edges.length = (grow_edges g).e_cap ∧
      (grow_edges g).e_cap % 10 = 0 ∧ (grow_edges g).edges.take g.e_top = g.edges.take g.e_top ∧
      (grow_edges g).v_top = g.v_top ∧ (grow_edges g).v_cap = g.v_cap ∧
      (grow_edges g).vertices = g.vertices := by
  by_cases hfull : g.e_top = g.e_cap
  · have e : grow_edges g =
        { g with edges := g.edges ++ List.replicate 10 0, e_cap := g.e_cap + 10 } := by
      simp only [grow_edges, hfull, if_true, realloc_full _ _ h4]
    rw [e]
    refine ⟨rfl, ?_, ?_, ?_, ?_, rfl, rfl, rfl⟩
    · show g.e_top + 1 < g.e_cap + 10
      omega
    · show (g.edges ++ List.replicate 10 0).length = g.e_cap + 10
      simp [h4]
    · show (g.e_cap + 10) % 10 = 0
      omega
    · show (g.edges ++ List.replicate 10 0).take g.e_top = g.edges.take g.e_top
      rw [List.take_append_of_le_length (by omega)]
  · have e : grow_edges g = g := by
      simp only [grow_edges, hfull, if_false]
    rw [e]
    exact ⟨rfl, by omega, h4, h2, rfl, rfl, rfl, rfl⟩

theorem insert_edge_spec (g : graph_t) (u v : Int) (h1 : g.e_top % 2 = 0)
    (h2 : g.e_cap % 10 = 0) (h3 : g.e_top ≤ g.e_cap) (h4 : g.edges.length = g.e_cap) :
    edge_entries (insert_edge g u v) = edge_entries g ++ [u, v] ∧
      (insert_edge g u v).e_top = g.e_top + 2 ∧ (insert_edge g u v).e_top % 2 = 0 ∧
      (insert_edge g u v).e_cap % 10 = 0 ∧ (insert_edge g u v).e_top ≤ (insert_edge g u v).e_cap ∧
      (insert_edge g u v).edges.length = (insert_edge g u v).e_cap ∧
      (insert_edge g u v).v_top = g.v_top ∧ (insert_edge g u v).v_cap = g.v_cap ∧
      (insert_edge g u v).vertices = g.vertices := by
  obtain ⟨a1, a2, a3, a4, a5, a6, a7, a8⟩ := grow_edges_spec g h1 h2 h3 h4
  have e : insert_edge g u v =
      { grow_edges g with
        edges := ((grow_edges g).edges.set g.e_top u).set (g.e_top + 1) v,
        e_top := g.e_top + 1 + 1 } := by
    simp only [insert_edge, a1]
  rw [e]
  refine ⟨?_, rfl, ?_, a4, ?_, ?_, a6, a7, a8⟩
  · show (((grow_edges g).edges.set g.e_top u).set (g.e_top + 1) v).take (g.e_top + 1 + 1) =
      g.edges.take g.e_top ++ [u, v]
    rw [take_two_set _ _ _ _ (by omega), a5]
  · show (g.e_top + 1 + 1) % 2 = 0
    omega
  · show g.e_top + 1 + 1 ≤ (grow_edges g).e_cap
    omega
  · show (((grow_edges g).edges.set g.e_top u).set (g.e_top + 1) v).length =
      (grow_edges g).e_cap
    rw [List.length_set, List.length_set, a3]

theorem insert_edges_spec (es : List (Int × Int)) :
    (insert_edges es).e_top % 2 = 0 ∧ (insert_edges es).e_cap % 10 = 0 ∧
      (insert_edges es).e_top ≤ (insert_edges es).e_cap ∧
      (insert_edges es).edges.length = (insert_edges es).e_cap ∧
      edge_entries (insert_edges es) = flatten_pairs es := by
  induction es using List.reverseRecOn with
  | nil => exact ⟨rfl, rfl, Nat.le_refl _, rfl, rfl⟩
  | append_singleton es p ih =>
    obtain ⟨i1, i2, i3, i4, i5⟩ := ih
    have e : insert_edges (es ++ [p]) = insert_edge (insert_edges es) p.1 p.2 := by
      simp [insert_edges, List.foldl_append]
    obtain ⟨j1, _, j3, j4, j5, j6, _, _, _⟩ := insert_edge_spec (insert_edges es) p.1 p.2 i1 i2 i3 i4
    rw [e, flatten_pairs_append, j1, i5]
    exact ⟨j3, j4, j5, j6, rfl⟩

/-- C27: after any sequence `es` of `insert_edge` calls on the empty graph `e_top` is even,
`e_cap` is a multiple of 10 and `e_top <= e_cap`, the block has `e_cap` cells, and its first
`e_top` entries are the inserted pairs in the order of insertion; a further insertion writes
to the cells `e_top` and `e_top + 1`, both below the capacity it has after the one check. -/
theorem C27_insert_edge_capacity (es : List (Int × Int)) (v_from v_to : Int) :
    (insert_edges es).e_top % 2 = 0 ∧ (insert_edges es).e_cap % 10 = 0 ∧
      (insert_edges es).e_top ≤ (insert_edges es).e_cap ∧
      (insert_edges es).edges.length = (insert_edges es).e_cap ∧
      (insert_edges es).e_top = 2 * es.length ∧
      edge_entries (insert_edges es) = flatten_pairs es ∧ edge_pairs (insert_edges es) = es ∧
      (grow_edges (insert_edges es)).e_top = (insert_edges es).e_top ∧
      (insert_edges es).e_top + 1 < (grow_edges (insert_edges es)).e_cap ∧
      (grow_edges (insert_edges es)).edges.length = (grow_edges (insert_edges es)).e_cap ∧
      edge_entries (insert_edge (insert_edges es) v_from v_to) =
        flatten_pairs es ++ [v_from, v_to] := by
  obtain ⟨i1, i2, i3, i4, i5⟩ := insert_edges_spec es
  obtain ⟨a1, a2, a3, _⟩ := grow_edges_spec (insert_edges es) i1 i2 i3 i4
  obtain ⟨j1, _⟩ := insert_edge_spec (insert_edges es) v_from v_to i1 i2 i3 i4
  refine ⟨i1, i2, i3, i4, ?_, i5, ?_, a1, a2, a3, by rw [j1, i5]⟩
  · have hl : (edge_entries (insert_edges es)).length = (insert_edges es).e_top := by
      unfold edge_entries
      rw [List.length_take]; omega
    rw [← hl, i5, flatten_pairs_length]
  · unfold edge_pairs
    rw [i5, pairs_of_flatten_pairs]

/-- C27 at six insertions: the block has grown twice, 12 of its 20 cells are in use. -/
theorem C27_insert_edge_capacity_witness :
    (insert_edges [(1, 2), (2, 3), (3, 1), (4, 4), (1, 2), (5, 6)]).e_top = 12 ∧
    (insert_edges [(1, 2), (2, 3), (3, 1), (4, 4), (1, 2), (5, 6)]).e_cap = 20 ∧
    edge_entries (insert_edges [(1, 2), (2, 3), (3, 1), (4, 4), (1, 2), (5, 6)]) =
      [1, 2, 2, 3, 3, 1, 4, 4, 1, 2, 5, 6] ∧
    edge_pairs (insert_edges [(1, 2), (2, 3), (3, 1), (4, 4), (1, 2)]) =
      [(1, 2), (2, 3), (3, 1), (4, 4), (1, 2)] ∧
    (insert_edges [(1, 2), (2, 3), (3, 1), (4, 4), (1, 2)]).e_top + 1 <
      (grow_edges (insert_edges [(1, 2), (2, 3), (3, 1), (4, 4), (1, 2)])).e_cap :=
  ⟨by decide, by decide, by decide,
    (C27_insert_edge_capacity [(1, 2), (2, 3), (3, 1), (4, 4), (1, 2)] 5 6).2.2.2.2.2.2.1,
    (C27_insert_edge_capacity [(1, 2), (2, 3), (3, 1), (4, 4), (1, 2)] 5 6).2.2.2.2.2.2.2.2.1⟩

/-! ## Building the input graph -/

theorem insert_vertex_edges (g : graph_t) (v : Int) :
    (insert_vertex g v).e_top = g.e_top ∧ (insert_vertex g v).e_cap = g.e_cap ∧
      (insert_vertex g v).edges = g.edges := by
  by_cases hc : graph_contains_vertex g v = true
  · simp [insert_vertex, hc]
  · by_cases hf : g.v_top = g.v_cap
    · simp [insert_vertex, hc, hf]
    · simp [insert_vertex, hc, hf]

theorem insert_vertex_vertices (g : graph_t) (h1 : g.v_top ≤ g.v_cap)
    (h2 : g.vertices.length = g.v_cap) (v : Int) :
    (insert_vertex g v).v_top ≤ (insert_vertex g v).v_cap ∧
      (insert_vertex g v).vertices.length = (insert_vertex g v).v_cap ∧
      ∀ x, x ∈ vertex_list (insert_vertex g v) ↔ x ∈ vertex_list g ∨ x = v := by
  by_cases hv : v ∈ vertex_list g
  · rw [insert_vertex_of_mem g (by omega) v hv]
    refine ⟨h1, h2, fun x => ⟨Or.inl, ?_⟩⟩
    rintro (h | rfl)
    · exact h
    · exact hv
  · obtain ⟨j1, j2, j3⟩ := insert_vertex_of_not_mem g h1 h2 v hv
    refine ⟨j2, j3, fun x => ?_⟩
    rw [j1]
    simp

theorem wellFormed_insert_vertex (g : graph_t) (h : WellFormed g) (v : Int) :
    WellFormed (insert_vertex g v) ∧ edge_entries (insert_vertex g v) = edge_entries g ∧
      ∀ x, x ∈ vertex_list (insert_vertex g v) ↔ x ∈ vertex_list g ∨ x = v := by
  obtain ⟨h1, h2, h3, h4, h5, h6⟩ := h
  obtain ⟨e1, e2, e3⟩ := insert_vertex_edges g v
  obtain ⟨v1, v2, v3⟩ := insert_vertex_vertices g h5 h6 v
  refine ⟨⟨by rw [e1]; exact h1, by rw [e2]; exact h2, by rw [e1, e2]; exact h3,
    by rw [e3, e2]; exact h4, v1, v2⟩, ?_, v3⟩
  unfold edge_entries
  rw [e1, e3]

theorem wellFormed_insert_edge (g : graph_t) (h : WellFormed g) (u v : Int) :
    WellFormed (insert_edge g u v) ∧
      edge_entries (insert_edge g u v) = edge_entries g ++ [u, v] ∧
      vertex_list (insert_edge g u v) = vertex_list g := by
  obtain ⟨h1, h2, h3, h4, h5, h6⟩ := h
  obtain ⟨j1, _, j3, j4, j5, j6, j7, j8, j9⟩ := insert_edge_spec g u v h1 h2 h3 h4
  refine ⟨⟨j3, j4, j5, j6, by rw [j7, j8]; exact h5, by rw [j9, j8]; exact h6⟩, j1, ?_⟩
  unfold vertex_list
  rw [j7, j9]

theorem wellFormed_add_argument (g : graph_t) (h : WellFormed g) (p : Int × Int) :
    WellFormed (add_argument g p) ∧
      edge_entries (add_argument g p) = edge_entries g ++ [p.1, p.2] ∧
      ∀ x, x ∈ vertex_list (add_argument g p) ↔ x ∈ vertex_list g ∨ x = p.1 ∨ x = p.2 := by
  obtain ⟨a1, a2, a3⟩ := wellFormed_insert_vertex g h p.1
  obtain ⟨b1, b2, b3⟩ := wellFormed_insert_vertex _ a1 p.2
  obtain ⟨c1, c2, c3⟩ := wellFormed_insert_edge _ b1 p.1 p.2
  refine ⟨c1, ?_, fun x => ?_⟩
  · unfold add_argument
    rw [c2, b2, a2]
  · unfold add_argument
    rw [c3, b3, a3, or_assoc]

theorem wellFormed_empty : WellFormed empty_graph :=
  ⟨rfl, rfl, Nat.le_refl _, rfl, Nat.le_refl _, rfl⟩

theorem argument_handler_spec (args : List (Int × Int)) :
    WellFormed (argument_handler args) ∧
      edge_entries (argument_handler args) = flatten_pairs args ∧
      ∀ p ∈ args, p.1 ∈ vertex_list (argument_handler args) ∧
        p.2 ∈ vertex_list (argument_handler args) := by
  induction args using List.reverseRecOn with
  | nil => exact ⟨wellFormed_empty, rfl, fun p hp => by simp at hp⟩
  | append_singleton args q ih =>
    obtain ⟨i1, i2, i3⟩ := ih
    have e : argument_handler (args ++ [q]) = add_argument (argument_handler args) q := by
      simp [argument_handler, List.foldl_append]
    obtain ⟨a1, a2, a3⟩ := wellFormed_add_argument (argument_handler args) i1 q
    rw [e]
    refine ⟨a1, by rw [a2, i2, flatten_pairs_append], fun p hp => ?_⟩
    rw [a3, a3]
    rcases List.mem_append.mp hp with hp | hp
    · exact ⟨Or.inl (i3 p hp).1, Or.inl (i3 p hp).2⟩
    · have hpq : p = q := by simpa using hp
      subst hpq
      exact ⟨Or.inr (Or.inl rfl), Or.inr (Or.inr rfl)⟩

/-! ## The shuffle -/

theorem swap_perm (l : List Int) (i j : Nat) (hi : i < l.length) (hj : j < l.length) :
    ((l.set i (l.getD j 0)).set j (l.getD i 0)).Perm l := by
  rw [List.getD_eq_getElem _ _ hi, List.getD_eq_getElem _ _ hj, List.perm_iff_count]
  intro a
  have hj1 : j < (l.set i l[j]).length := by rw [List.length_set]; exact hj
  have e : (l.set i l[j])[j] = l[j] := by
    rw [List.getElem_set]
    split
    · rfl
    · rfl
  rw [List.count_set _ _ _ _ hj1, List.count_set _ _ _ _ hi, e]
  have hpi : l[i] = a → 0 < l.count a := fun h =>
    List.count_pos_iff.mpr (h ▸ List.getElem_mem _)
  by_cases h1 : l[i] = a <;> by_cases h2 : l[j] = a <;> simp [h1, h2] <;> omega

theorem getD_take (l : List Int) (n j : Nat) (h : j < n) : (l.take n).getD j 0 = l.getD j 0 := by
  rw [List.getD_eq_getElem?_getD, List.getD_eq_getElem?_getD, List.getElem?_take, if_pos h]

/-- What a step of the shuffle keeps of a graph: everything but the order of the vertices in
use. -/
theorem swap_vertices_spec (g : graph_t) (i j : Nat) (hi : i < g.v_top) (hj : j < g.v_top)
    (hl : g.v_top ≤ g.vertices.length) :
    ∃ g1, swap_vertices g (i : Int) (j : Int) = some g1 ∧ g1.v_top = g.v_top ∧
      g1.v_cap = g.v_cap ∧ g1.e_top = g.e_top ∧ g1.e_cap = g.e_cap ∧ g1.edges = g.edges ∧
      g1.vertices.length = g.vertices.length ∧ (vertex_list g1).Perm (vertex_list g) := by
  have hcond : ¬ ((i : Int) < 0 ∨ (j : Int) < 0 ∨ (g.v_top : Int) ≤ (i : Int) ∨
      (g.v_top : Int) ≤ (j : Int)) := by omega
  refine ⟨{ g with
      vertices := (g.vertices.set i (g.vertices.getD j 0)).set j (g.vertices.getD i 0) },
    by simp only [swap_vertices, hcond, if_false, Int.toNat_ofNat], rfl, rfl, rfl,
    rfl, rfl, by simp, ?_⟩
  show (((g.vertices.set i (g.vertices.getD j 0)).set j (g.vertices.getD i 0)).take
    g.v_top).Perm (g.vertices.take g.v_top)
  rw [List.set_take, List.set_take, ← getD_take g.vertices g.v_top j hj,
    ← getD_take g.vertices g.v_top i hi]
  exact swap_perm _ i j (by rw [List.length_take]; omega) (by rw [List.length_take]; omega)

theorem random_int_range (r i : Nat) :
    ∃ k : Nat, random_int (r : Int) 0 ((i + 1 : Nat) : Int) = (k : Int) ∧ k ≤ i + 1 := by
  refine ⟨r % (i + 2), ?_, Nat.le_of_lt_succ (Nat.mod_lt r (Nat.succ_pos (i + 1)))⟩
  unfold random_int
  have e : (((i + 1 : Nat) : Int) - 0 + 1) = ((i + 2 : Nat) : Int) := by push_cast; ring
  rw [e, ← Int.ofNat_tmod]
  simp

theorem shuffle_loop_spec (rand : Nat → Nat) : ∀ (i n : Nat) (g : graph_t),
    i ≤ g.v_top - 1 → g.v_top ≤ g.vertices.length →
    ∃ g1, shuffle_loop rand i n g = some g1 ∧ g1.v_top = g.v_top ∧ g1.v_cap = g.v_cap ∧
      g1.e_top = g.e_top ∧ g1.e_cap = g.e_cap ∧ g1.edges = g.edges ∧
      g1.vertices.length = g.vertices.length ∧ (vertex_list g1).Perm (vertex_list g) := by
  intro i
  induction i with
  | zero =>
    intro n g _ _
    exact ⟨g, rfl, rfl, rfl, rfl, rfl, rfl, rfl, List.Perm.refl _⟩
  | succ i ih =>
    intro n g hi hl
    obtain ⟨k, hk, hle⟩ := random_int_range (rand n) i
    obtain ⟨g1, s0, s1, s2, s3, s4, s5, s6, s7⟩ :=
      swap_vertices_spec g (i + 1) k (by omega) (by omega) hl
    obtain ⟨g2, t0, t1, t2, t3, t4, t5, t6, t7⟩ :=
      ih (n + 1) g1 (by omega) (by omega)
    refine ⟨g2, ?_, t1.trans s1, t2.trans s2, t3.trans s3, t4.trans s4, t5.trans s5,
      t6.trans s6, t7.trans s7⟩
    simp only [shuffle_loop, hk, s0, t0]


/-! ## The position of a vertex -/

theorem index_of_vertex_mem (g : graph_t) (hl : g.v_top ≤ g.vertices.length) (u : Int)
    (hu : u ∈ vertex_list g) :
    ∃ i : Nat, index_of_vertex g u = (i : Int) ∧ i < g.v_top ∧ g.vertices.getD i 0 = u := by
  cases hf : (List.range g.v_top).find? (fun i => g.vertices.getD i 0 == u) with
  | none =>
    exfalso
    have hc := (graph_contains_vertex_iff g hl u).mpr hu
    unfold graph_contains_vertex at hc
    obtain ⟨x, hx, hpx⟩ := List.any_eq_true.mp hc
    exact (List.find?_eq_none.mp hf) x hx hpx
  | some i =>
    refine ⟨i, by simp only [index_of_vertex, hf], List.mem_range.mp (List.mem_of_find?_eq_some hf),
      ?_⟩
    have hp := List.find?_some hf
    simpa using hp

theorem index_of_vertex_inj (g : graph_t) (hl : g.v_top ≤ g.vertices.length) (u v : Int)
    (hu : u ∈ vertex_list g) (hv : v ∈ vertex_list g)
    (h : index_of_vertex g u = index_of_vertex g v) : u = v := by
  obtain ⟨i, i1, _, i3⟩ := index_of_vertex_mem g hl u hu
  obtain ⟨j, j1, _, j3⟩ := index_of_vertex_mem g hl v hv
  rw [i1, j1] at h
  have hij : i = j := by exact_mod_cast h
  rw [← i3, ← j3, hij]

/-! ## The loop of `gen_arcset` -/

theorem drop_two (l : List Int) (i : Nat) (h : i + 1 < l.length) :
    l.drop i = l.getD i 0 :: l.getD (i + 1) 0 :: l.drop (i + 2) := by
  rw [List.drop_eq_getElem_cons (by omega : i < l.length), List.drop_eq_getElem_cons h,
    List.getD_eq_getElem _ _ (by omega : i < l.length), List.getD_eq_getElem _ _ h]

theorem edge_entries_drop (g : graph_t) (i : Nat) (h : i + 1 < g.e_top)
    (hl : g.e_top ≤ g.edges.length) :
    (edge_entries g).drop i =
      g.edges.getD i 0 :: g.edges.getD (i + 1) 0 :: (edge_entries g).drop (i + 2) := by
  unfold edge_entries
  rw [drop_two _ i (by rw [List.length_take]; omega), getD_take _ _ _ (by omega),
    getD_take _ _ _ h]

theorem edge_entries_drop_top (g : graph_t) : (edge_entries g).drop g.e_top = [] := by
  apply List.drop_eq_nil_of_le
  unfold edge_entries
  rw [List.length_take]
  exact Nat.min_le_left _ _

theorem gen_loop_spec (input : graph_t) (he : input.e_top % 2 = 0)
    (hl : input.e_top ≤ input.edges.length) : ∀ (fuel i : Nat) (output : graph_t),
    i % 2 = 0 → i ≤ input.e_top → input.e_top ≤ i + 2 * fuel → WellFormed output →
    edge_entries (gen_loop input fuel i output) =
      edge_entries output ++
        flatten_pairs ((pairs_of ((edge_entries input).drop i)).filter (in_arcset input)) := by
  intro fuel
  induction fuel with
  | zero =>
    intro i output _ h1 h2 _
    have hi : i = input.e_top := by omega
    rw [hi, edge_entries_drop_top]
    simp [gen_loop, pairs_of, flatten_pairs]
  | succ fuel ih =>
    intro i output hi h1 h2 hw
    by_cases hlt : i < input.e_top
    · have hlt1 : i + 1 < input.e_top := by omega
      rw [edge_entries_drop input i hlt1 hl]
      simp only [gen_loop, hlt, if_true, pairs_of]
      by_cases hp : index_of_vertex input (input.edges.getD i 0) >
          index_of_vertex input (input.edges.getD (i + 1) 0)
      · obtain ⟨w1, w2, _⟩ := wellFormed_add_argument output hw
          (input.edges.getD i 0, input.edges.getD (i + 1) 0)
        have hin : in_arcset input (input.edges.getD i 0, input.edges.getD (i + 1) 0) = true := by
          simp only [in_arcset, hp, decide_True]
        rw [if_pos hp, List.filter_cons_of_pos hin]
        have hr := ih (i + 2) _ (by omega) (by omega) (by omega) w1
        unfold add_argument at hr w2
        rw [hr, w2]
        simp [flatten_pairs]
      · have hin : ¬ in_arcset input (input.edges.getD i 0, input.edges.getD (i + 1) 0) = true := by
          simp only [in_arcset, hp, decide_False, Bool.false_eq_true, not_false_eq_true]
        rw [if_neg hp, List.filter_cons_of_neg hin]
        exact ih (i + 2) output (by omega) (by omega) (by omega) hw
    · have hi2 : i = input.e_top := by omega
      rw [hi2, edge_entries_drop_top]
      simp [gen_loop, pairs_of, flatten_pairs]

/-! ## What is left has no cycle but self-loops -/

theorem chain_endpoint (R : Int → Int → Prop) : ∀ (l : List Int), List.Chain' R l →
    2 ≤ l.length → ∀ x ∈ l, ∃ y, R x y ∨ R y x := by
  intro l
  induction l with
  | nil => intro _ h; simp at h
  | cons a t ih =>
    intro hc hl x hx
    cases t with
    | nil => simp at hl
    | cons b u =>
      have hab : R a b := (List.chain'_cons.mp hc).1
      have hct : List.Chain' R (b :: u) := (List.chain'_cons.mp hc).2
      rcases List.mem_cons.mp hx with rfl | hx
      · exact ⟨b, Or.inl hab⟩
      · cases u with
        | nil =>
          have : x = b := by simpa using hx
          subst this
          exact ⟨a, Or.inr hab⟩
        | cons c w => exact ih hct (by simp) x hx

theorem pairwise_le_last (f : Int → Int) : ∀ (l : List Int),
    List.Pairwise (fun u v => f u ≤ f v) l → ∀ z, l.getLast? = some z →
    ∀ x ∈ l, f x ≤ f z := by
  intro l
  induction l with
  | nil => intro _ z _ x hx; simp at hx
  | cons a t ih =>
    intro hp z hz x hx
    cases t with
    | nil =>
      have h1 : a = z := by simpa using hz
      have h2 : x = a := by simpa using hx
      rw [h2, h1]
    | cons b u =>
      rw [List.getLast?_cons_cons] at hz
      have hzt : z ∈ b :: u := List.mem_of_getLast?_eq_some hz
      rcases List.mem_cons.mp hx with rfl | hxt
      · exact (List.pairwise_cons.mp hp).1 z hzt
      · exact ih (List.pairwise_cons.mp hp).2 z hz x hxt

theorem chain_monotone (f : Int → Int) (l : List Int)
    (hc : List.Chain' (fun u v => f u ≤ f v) l) (hl : l.head? = l.getLast?) :
    ∀ x ∈ l, ∀ y ∈ l, f x = f y := by
  haveI : IsTrans Int (fun u v => f u ≤ f v) := ⟨fun a b c h1 h2 => le_trans h1 h2⟩
  have hp : List.Pairwise (fun u v => f u ≤ f v) l := List.chain'_iff_pairwise.mp hc
  cases l with
  | nil => intro x hx; simp at hx
  | cons h t =>
    have hlast : (h :: t).getLast? = some h := by rw [← hl]; rfl
    have key : ∀ x ∈ h :: t, f x = f h := by
      intro x hx
      have h2 : f x ≤ f h := pairwise_le_last f _ hp h hlast x hx
      rcases List.mem_cons.mp hx with rfl | hxt
      · rfl
      · have h1 : f h ≤ f x := (List.pairwise_cons.mp hp).1 x hxt
        omega
    intro x hx y hy
    rw [key x hx, key y hy]

/-- A closed walk along edges that all lead from a vertex to one of the same or a later
position, in a graph that holds the end points of its edges, stays on one vertex. -/
theorem closed_walk_constant (g : graph_t) (hl : g.v_top ≤ g.vertices.length)
    (R : Int → Int → Prop)
    (hR : ∀ u v, R u v → u ∈ vertex_list g ∧ v ∈ vertex_list g ∧
      index_of_vertex g u ≤ index_of_vertex g v)
    (walk : List Int) (hc : List.Chain' R walk) (hcl : walk.head? = walk.getLast?) :
    ∀ x ∈ walk, ∀ y ∈ walk, x = y := by
  by_cases h2 : 2 ≤ walk.length
  · have hmem : ∀ x ∈ walk, x ∈ vertex_list g := by
      intro x hx
      obtain ⟨y, hy | hy⟩ := chain_endpoint R walk hc h2 x hx
      · exact (hR x y hy).1
      · exact (hR y x hy).2.1
    have hmono := chain_monotone (index_of_vertex g) walk
      (hc.imp (fun u v h => (hR u v h).2.2)) hcl
    intro x hx y hy
    exact index_of_vertex_inj g hl x y (hmem x hx) (hmem y hy) (hmono x hx y hy)
  · intro x hx y hy
    match walk, h2, hx, hy with
    | [], _, hx, _ => simp at hx
    | [a], _, hx, hy =>
      have e1 : x = a := by simpa using hx
      have e2 : y = a := by simpa using hy
      rw [e1, e2]
    | _ :: _ :: _, h2, _, _ => simp at h2

/-! ## `gen_arcset` -/

/-- C26: for the graph `argument_handler` builds from the edges `args` and every sequence of
values of `rand()`, `shuffle_vertices` leaves a permutation of the vertex list and the edges
as they were, and `gen_arcset` puts into the output exactly the input edges `(u, v)` with
`index_of_vertex u > index_of_vertex v`, in the order of the input. An input edge that is left
out has `index u <= index v`, and a closed walk along edges that are left out stays on one
vertex: what is left of the input has no cycle but self-loops. -/
theorem C26_gen_arcset (rand : Nat → Nat) (args : List (Int × Int)) :
    ∃ shuffled output,
      gen_arcset rand (argument_handler args) empty_graph = some (shuffled, output) ∧
      (vertex_list shuffled).Perm (vertex_list (argument_handler args)) ∧
      edge_pairs shuffled = args ∧
      edge_pairs output = args.filter (in_arcset shuffled) ∧
      (∀ p, p ∈ edge_pairs output ↔
        p ∈ args ∧ index_of_vertex shuffled p.1 > index_of_vertex shuffled p.2) ∧
      (∀ p ∈ args, p ∉ edge_pairs output →
        index_of_vertex shuffled p.1 ≤ index_of_vertex shuffled p.2) ∧
      (∀ walk : List Int,
        List.Chain' (fun u v => (u, v) ∈ args ∧ (u, v) ∉ edge_pairs output) walk →
        walk.head? = walk.getLast? → ∀ x ∈ walk, ∀ y ∈ walk, x = y) := by
  obtain ⟨⟨w1, w2, w3, w4, w5, w6⟩, hent, hmem⟩ := argument_handler_spec args
  obtain ⟨g1, s0, s1, s2, s3, s4, s5, s6, s7⟩ :=
    shuffle_loop_spec rand ((argument_handler args).v_top - 1) 0 (argument_handler args)
      (Nat.le_refl _) (by omega)
  have hent1 : edge_entries g1 = flatten_pairs args := by
    unfold edge_entries at hent ⊢
    rw [s3, s5, hent]
  have hpairs1 : edge_pairs g1 = args := by
    unfold edge_pairs
    rw [hent1, pairs_of_flatten_pairs]
  have hloop := gen_loop_spec g1 (by rw [s3]; exact w1) (by rw [s3, s5]; omega) g1.e_top 0
    empty_graph rfl (Nat.zero_le _) (by omega) wellFormed_empty
  have hout : edge_pairs (gen_loop g1 g1.e_top 0 empty_graph) = args.filter (in_arcset g1) := by
    unfold edge_pairs
    rw [hloop, List.drop_zero, hent1, pairs_of_flatten_pairs]
    have he0 : edge_entries empty_graph = [] := rfl
    rw [he0, List.nil_append, pairs_of_flatten_pairs]
  have hiff : ∀ p, p ∈ edge_pairs (gen_loop g1 g1.e_top 0 empty_graph) ↔
      p ∈ args ∧ index_of_vertex g1 p.1 > index_of_vertex g1 p.2 := by
    intro p
    rw [hout, List.mem_filter]
    simp [in_arcset]
  have hleft : ∀ p ∈ args, p ∉ edge_pairs (gen_loop g1 g1.e_top 0 empty_graph) →
      index_of_vertex g1 p.1 ≤ index_of_vertex g1 p.2 := by
    intro p hp hn
    by_contra hlt
    exact hn ((hiff p).mpr ⟨hp, by omega⟩)
  refine ⟨g1, gen_loop g1 g1.e_top 0 empty_graph, ?_, s7, hpairs1, hout, hiff, hleft, ?_⟩
  · simp only [gen_arcset, shuffle_vertices, s0]
  · intro walk hc hcl
    refine closed_walk_constant g1 (by rw [s1, s6]; omega) _ ?_ walk hc hcl
    intro u v ⟨huv, hn⟩
    exact ⟨s7.mem_iff.mpr (hmem (u, v) huv).1, s7.mem_iff.mpr (hmem (u, v) huv).2,
      hleft (u, v) huv hn⟩

/-- C26 on the edges 1-2, 2-3, 3-1, 4-4, 1-2 with `rand()` returning 3, 10, 17, ...: the
vertices end up in the order 1, 3, 2, 4 and the arc set is 2-3, 3-1. -/
theorem C26_gen_arcset_witness :
    (gen_arcset (fun n => n * 7 + 3)
        (argument_handler [(1, 2), (2, 3), (3, 1), (4, 4), (1, 2)]) empty_graph).map
      (fun r => (vertex_list r.1, edge_pairs r.2)) = some ([1, 3, 2, 4], [(2, 3), (3, 1)]) ∧
    ∃ shuffled output,
      gen_arcset (fun n => n * 7 + 3)
        (argument_handler [(1, 2), (2, 3), (3, 1), (4, 4), (1, 2)]) empty_graph =
        some (shuffled, output) ∧
      (vertex_list shuffled).Perm
        (vertex_list (argument_handler [(1, 2), (2, 3), (3, 1), (4, 4), (1, 2)])) ∧
      edge_pairs shuffled = [(1, 2), (2, 3), (3, 1), (4, 4), (1, 2)] ∧
      edge_pairs output =
        [(1, 2), (2, 3), (3, 1), (4, 4), (1, 2)].filter (in_arcset shuffled) :=
  ⟨by decide,
    let ⟨g, o, h1, h2, h3, h4, _⟩ :=
      C26_gen_arcset (fun n => n * 7 + 3) [(1, 2), (2, 3), (3, 1), (4, 4), (1, 2)]
    ⟨g, o, h1, h2, h3, h4⟩⟩

end Arcset

namespace Http

/-! ## `url_is_valid` -/

theorem strstr_eq_zero_iff (url needle : List Char) (hn : needle ≠ []) :
    strstr url needle = some 0 ↔ needle.isPrefixOf url = true := by
  cases url with
  | nil =>
    cases needle with
    | nil => exact absurd rfl hn
    | cons c t => simp [strstr]
  | cons c t =>
    unfold strstr
    by_cases h : needle.isPrefixOf (c :: t) = true
    · simp [h]
    · simp only [h, Bool.false_eq_true, if_false, iff_false]
      cases strstr t needle <;> simp

theorem url_is_valid_iff (url : List Char) :
    url_is_valid url = true ↔ "http://www.".toList <+: url ∧ 13 ≤ url.length := by
  have hn : "http://www.".toList ≠ [] := by decide
  unfold url_is_valid
  by_cases hp : "http://www.".toList.isPrefixOf url = true
  · have h0 : strstr url "http://www.".toList = some 0 := (strstr_eq_zero_iff _ _ hn).mpr hp
    have hpre : "http://www.".toList <+: url := List.isPrefixOf_iff_prefix.mp hp
    obtain ⟨rest, rfl⟩ := hpre
    have hs : strchr (("http://www.".toList ++ rest).drop (0 + 1)) '/' = some 4 := by
      have e : "http://www.".toList = ['h', 't', 't', 'p', ':', '/', '/', 'w', 'w', 'w', '.'] := by
        decide
      rw [e]
      simp [strchr]
    simp only [h0, ne_eq, not_true_eq_false, if_false, hs]
    by_cases hl : 13 ≤ ("http://www.".toList ++ rest).length
    · simp [hl]
    · simp [hl]
  · have h0 : ¬ strstr url "http://www.".toList = some 0 :=
      fun h => hp ((strstr_eq_zero_iff _ _ hn).mp h)
    have hpre : ¬ "http://www.".toList <+: url := fun h => hp (List.isPrefixOf_iff_prefix.mpr h)
    simp only [ne_eq, h0, not_false_eq_true, if_true]
    exact ⟨fun h => absurd h Bool.false_ne_true, fun h => absurd h.1 hpre⟩

/-- C16, the code at the failing input: `url_is_valid` accepts `http://www.ab`, which has
no `/` after the host: the search for `/` starts at the second character of the URL and
finds the `/` of `http://`. It returns true exactly for the URLs of at least 13 characters
that start with `http://www.` (so it does reject `http://localhost/test.html`). -/
theorem C16_url_is_valid_accepts (url : List Char) :
    url_is_valid "http://www.ab".toList = true ∧
      strchr ("http://www.ab".toList.drop 1) '/' = some 4 ∧
      strchr ("http://www.ab".toList.drop 11) '/' = none ∧
      url_is_valid "http://localhost/test.html".toList = false ∧
      url_is_valid "http://www.google.at/".toList = true ∧
      (url_is_valid url = true ↔ "http://www.".toList <+: url ∧ 13 ≤ url.length) := by
  exact ⟨by decide, by decide, by decide, by decide, by decide, url_is_valid_iff url⟩

end Http
